import Mathlib

/-! SNPRelate, `genBeta.cpp`: individual inbreeding and relatedness (beta)

A shallow embedding of `IBD_BETA::CIndivBeta` (`thread_ibs_num`, `Run`) and of the
normalisation pass of `gnrIBD_Beta`, followed by theorems about them.

Conventions of the embedding

* `C_UInt64` words are natural numbers; `~` is `not64` (complement within 64 bits).
* `C_UInt32` counters are natural numbers, every `+=` is reduced modulo `2 ^ 32`.
* Byte buffers (`C_UInt8 *`) are functions `Nat → Nat` from a byte offset to a byte;
  pointers into them are byte offsets.
* `double` values are `Dbl`: a rational computed exactly, or `special` for the
  result of a division by zero and everything computed from one.
-/

namespace IBD_BETA

/-! ## Machine words -/

/-- Bitwise complement of a `C_UInt64` (the operator `~`). -/
def not64 (x : Nat) : Nat := ((2 ^ 64 - 1) ^^^ x) % 2 ^ 64

/-- Number of set bits among the lowest `n` bits of `x`. -/
def popcntBits : Nat → Nat → Nat
  | 0, _ => 0
  | n + 1, x => x % 2 + popcntBits n (x / 2)

/-- Modelled from the spec: `POPCNT_U64` is a macro of `dVect.h`, which is not part of
the sources at hand; the glossary defines popcount as the number of set bits in a
machine word. -/
def POPCNT_U64 (x : Nat) : Nat := popcntBits 64 x

/-- Little-endian load of `n` consecutive bytes of `mem` starting at offset `off`. -/
def loadLE (mem : Nat → Nat) (off : Nat) : Nat → Nat
  | 0 => 0
  | n + 1 => mem off % 256 + 256 * loadLE mem (off + 1) n

/-- The read `*((C_UInt64*)p)`: eight bytes at offset `p` as one 64-bit word. -/
def load64 (mem : Nat → Nat) (p : Nat) : Nat := loadLE mem p 8

/-! ## Pair counters -/

/-- The structure of the individual beta estimator (`struct TS_Beta`). -/
structure TS_Beta where
  /-- the number of shared states defined in the beta estimator -/
  ibscnt : Nat
  /-- the total number of valid loci -/
  num : Nat
  deriving DecidableEq, Repr

/-- The body of the off-diagonal word loop (lines 92 to 96) for the four words read. -/
def offdiag_step (g1_1 g1_2 g2_1 g2_2 : Nat) (p : TS_Beta) : TS_Beta :=
  let mask := (g1_1 ||| not64 g1_2) &&& (g2_1 ||| not64 g2_2)
  let het := (g1_1 ^^^ g1_2) ||| (g2_1 ^^^ g2_2)
  let ibs2 := not64 (het ||| (g1_1 ^^^ g2_1))
  { ibscnt := (p.ibscnt + (POPCNT_U64 (het &&& mask) + 2 * POPCNT_U64 (ibs2 &&& mask))) % 2 ^ 32
    num := (p.num + POPCNT_U64 mask) % 2 ^ 32 }

/-- The body of the diagonal word loop (lines 105 to 107) for the two words read. -/
def diag_step (g1 g2 : Nat) (p : TS_Beta) : TS_Beta :=
  let mask := g1 ||| not64 g2
  { ibscnt := (p.ibscnt + POPCNT_U64 (not64 (g1 ^^^ g2) &&& mask)) % 2 ^ 32
    num := (p.num + POPCNT_U64 mask) % 2 ^ 32 }

/-- The off-diagonal word loop `for (; m > 0; m-=8)` of lines 84 to 97. -/
def offdiag_loop (mem : Nat → Nat) (npack : Nat) (p1 p2 : Nat) (m : Int) (p : TS_Beta) :
    TS_Beta :=
  if 0 < m then
    let g1_1 := load64 mem p1
    let g1_2 := load64 mem (p1 + npack)
    let g2_1 := load64 mem p2
    let g2_2 := load64 mem (p2 + npack)
    offdiag_loop mem npack (p1 + 8) (p2 + 8) (m - 8) (offdiag_step g1_1 g1_2 g2_1 g2_2 p)
  else p
termination_by m.toNat
decreasing_by omega

/-- The diagonal word loop `for (; m > 0; m-=8)` of lines 100 to 108. -/
def diag_loop (mem : Nat → Nat) (npack : Nat) (p1 : Nat) (m : Int) (p : TS_Beta) : TS_Beta :=
  if 0 < m then
    let g1 := load64 mem p1
    let g2 := load64 mem (p1 + npack)
    diag_loop mem npack (p1 + 8) (m - 8) (diag_step g1 g2 p)
  else p
termination_by m.toNat
decreasing_by omega

/-- The body of the pair loop (lines 77 to 109): the counter of the pair
`(row, column)` after one block. -/
def pair_kernel (mem : Nat → Nat) (nBlock : Nat) (row column : Nat) (p : TS_Beta) : TS_Beta :=
  let npack := nBlock >>> 3
  let npack2 := npack * 2
  let p1 := row * npack2
  let p2 := column * npack2
  let m : Int := npack
  if p1 ≠ p2 then offdiag_loop mem npack p1 p2 m p
  else diag_loop mem npack p1 m p

/-! ## The triangular index -/

/-- Modelled from the spec: `IdMatTri` is declared in `dGenGWAS.h`, which is not part of
the sources at hand. It is the position of an iterator over the upper triangle of an
`fN` by `fN` matrix stored row by row ("a canonical linear mapping from (row, column),
row ≤ column, covering exactly N(N+1)/2 entries"), the order in which the first pass of
`gnrIBD_Beta` walks the counters. -/
structure IdMatTri where
  /-- the matrix size -/
  fN : Nat
  /-- the current row, `Row()` -/
  fRow : Nat
  /-- the current column, `Column()` -/
  fColumn : Nat
  /-- the linear offset of the current position, `Offset()` -/
  fOffset : Nat
  deriving DecidableEq, Repr

/-- Modelled from the spec: the operator `++` of `IdMatTri`, one step along the row,
wrapping to the diagonal entry of the next row. -/
def IdMatTri.next (I : IdMatTri) : IdMatTri :=
  if I.fColumn + 1 < I.fN then
    { I with fColumn := I.fColumn + 1, fOffset := I.fOffset + 1 }
  else
    { I with fRow := I.fRow + 1, fColumn := I.fRow + 1, fOffset := I.fOffset + 1 }

/-- Modelled from the spec: the position of `IdMatTri` at linear offset `k` of the
triangle of an `n` by `n` matrix, reached from the first entry by `k` steps. -/
def IdMatTri.ofOffset (n : Nat) : Nat → IdMatTri
  | 0 => { fN := n, fRow := 0, fColumn := 0, fOffset := 0 }
  | k + 1 => (IdMatTri.ofOffset n k).next

/-- Number of triangle entries stored before row `i`: rows `0, ..., i - 1` hold
`n, n - 1, ...` entries. -/
def triStart (n : Nat) : Nat → Nat
  | 0 => 0
  | i + 1 => triStart n i + (n - i)

/-- Linear offset of the pair `(i, j)`, `i ≤ j`, in the triangular array. -/
def triIndex (n i j : Nat) : Nat := i * n - i * (i - 1) / 2 + (j - i)

/-! ## The accumulator -/

/-- The fields of `class CIndivBeta` that `thread_ibs_num` uses. -/
structure CIndivBeta where
  /-- the number of SNPs in a block, a multiple of 128 -/
  nBlock : Nat
  /-- the genotype 1b representation -/
  Geno1b : Nat → Nat
  /-- the triangular array of pair counters -/
  ptrBeta : Nat → TS_Beta

/-- The pair loop `for (; N > 0; N--, ++I, p++)` of lines 75 to 110; `N` counts the
remaining pairs, `p` is the offset of the current counter in `ptrBeta`. -/
def pair_loop (mem : Nat → Nat) (nBlock : Nat) :
    Nat → IdMatTri → Nat → (Nat → TS_Beta) → (Nat → TS_Beta)
  | 0, _, _, beta => beta
  | N + 1, I, p, beta =>
    pair_loop mem nBlock N I.next (p + 1)
      (fun o => if o = p then pair_kernel mem nBlock I.fRow I.fColumn (beta p) else beta o)

/-- The method `thread_ibs_num(i, n)`. The tables `Array_Thread_MatIdx` and
`Array_Thread_MatCnt` (globals filled by `Array_SplitJobs`) are parameters. -/
def thread_ibs_num (Array_Thread_MatIdx : Nat → IdMatTri) (Array_Thread_MatCnt : Nat → Int)
    (self : CIndivBeta) (i _n : Nat) : CIndivBeta :=
  let I := Array_Thread_MatIdx i
  let N := Array_Thread_MatCnt i
  { self with ptrBeta := pair_loop self.Geno1b self.nBlock N.toNat I I.fOffset self.ptrBeta }

/-- Modelled from the spec: `CThreadPoolEx::BatchWork` (`ThreadPool.h`, not part of the
sources at hand) "invokes worker_function once per range ... returns only when all
invocations complete"; the invocations `proc(i, n)`, `i = 0, ..., n - 1`, are run one
after the other. -/
def BatchWork (proc : CIndivBeta → Nat → Nat → CIndivBeta) (self : CIndivBeta) (n : Nat) :
    CIndivBeta :=
  (List.range n).foldl (fun s i => proc s i n) self

/-! ## The packer -/

/-- The byte whose bit `b` is `f (start + b)`, built from `n` bits. -/
def packBits (f : Nat → Bool) (start : Nat) : Nat → Nat
  | 0 => 0
  | n + 1 => (f start).toNat + 2 * packBits f (start + 1) n

/-- Modelled from the spec: plane A bit of a genotype value: set for dosage 1 and 2. -/
def planeA (g : Nat) : Bool := g = 1 || g = 2

/-- Modelled from the spec: plane B bit of a genotype value: set for dosage 2 and for a
missing call, "genotype values outside the defined domain must be treated as missing". -/
def planeB (g : Nat) : Bool := !(g = 0 || g = 1)

/-- Modelled from the spec: `PackSNPGeno1b(p1, p2, geno, n, offset, n_total)` is defined
in `dGenGWAS`, which is not part of the sources at hand. It writes the two bit planes of
one sample, `n_total / 8` bytes each, at offsets `p1` and `p2` of the buffer: locus `k`
is bit `k % 8` of byte `k / 8`, its value is `geno[k * offset]` for `k < n` and a missing
call for the positions `n ≤ k < n_total`. Dosage 0 is coded (0,0), dosage 1 (1,0),
dosage 2 (1,1) and a missing call (0,1). -/
def PackSNPGeno1b (mem : Nat → Nat) (p1 p2 : Nat) (geno : Nat → Nat) (pG n offset n_total : Nat) :
    Nat → Nat :=
  let g := fun k => if k < n then geno (pG + k * offset) else 3
  fun a =>
    if p1 ≤ a ∧ a < p1 + n_total / 8 then packBits (fun k => planeA (g k)) (8 * (a - p1)) 8
    else if p2 ≤ a ∧ a < p2 + n_total / 8 then packBits (fun k => planeB (g k)) (8 * (a - p2)) 8
    else mem a

/-- The loop `for (size_t m=nSamp; m > 0; m--)` of lines 154 to 159: pack every sample. -/
def pack_loop (Geno : Nat → Nat) (Count nSamp nBlock nPack : Nat) :
    Nat → Nat → Nat → (Nat → Nat) → (Nat → Nat)
  | 0, _, _, mem => mem
  | m + 1, pB, pG, mem =>
    pack_loop Geno Count nSamp nBlock nPack m (pB + (nPack <<< 1)) (pG + 1)
      (PackSNPGeno1b mem pB (pB + nPack) Geno pG Count nSamp nBlock)

/-! ## The block scheduler -/

/-- The block size of lines 124 to 127, from the value `cache` of `GetOptimzedCache()`
(a `C_UInt64`) and the number of samples. -/
def Run_nBlock (cache nSamp : Nat) : Nat :=
  let nBlock := 4 * cache % 2 ^ 64 / nSamp
  let nBlock := (nBlock / 128) * 128
  let nBlock := if nBlock < 256 then 256 else nBlock
  if nBlock > 65536 then 65536 else nBlock

/-- The loop `while (WS.Read(Geno.Get()))` of lines 150 to 165. The genotype source is a
parameter: `reads` lists, for every successful `Read`, the value of `WS.Count()` and the
content of the buffer `Geno`. -/
def Run_loop (MatIdx : Nat → IdMatTri) (MatCnt : Nat → Int) (nSamp nPack NumThread : Nat) :
    List (Nat × (Nat → Nat)) → CIndivBeta → CIndivBeta
  | [], self => self
  | (Count, Geno) :: rest, self =>
    let packed := pack_loop Geno Count nSamp self.nBlock nPack nSamp 0 0 self.Geno1b
    Run_loop MatIdx MatCnt nSamp nPack NumThread rest
      (BatchWork (thread_ibs_num MatIdx MatCnt) { self with Geno1b := packed } NumThread)

/-- The method `Run(IBS, NumThread, verbose)`. Parameters standing for what the sources at
hand do not contain: `cache` is the value of `GetOptimzedCache()`, `nSamp` the value of
`Space.SampleNum()`, `Array_SplitJobs` the job splitter, `reads` the genotype source,
`IBS` and `Geno1b` the contents of the two buffers when they are allocated. The
result is `none` when the division by `nSamp = 0` stops the program. -/
def Run (cache nSamp : Nat)
    (Array_SplitJobs : Int → Nat → (Nat → IdMatTri) × (Nat → Int))
    (reads : List (Nat × (Nat → Nat))) (Geno1b : Nat → Nat)
    (IBS : Nat → TS_Beta) (NumThread : Int) : Option CIndivBeta :=
  let NumThread := if NumThread < 1 then 1 else NumThread
  if nSamp = 0 then none
  else
    let nBlock := Run_nBlock cache nSamp
    let nPack := nBlock / 8
    let ptrBeta : Nat → TS_Beta :=
      fun o => if o < nSamp * (nSamp + 1) / 2 then { ibscnt := 0, num := 0 } else IBS o
    let tables := Array_SplitJobs NumThread nSamp
    some (Run_loop tables.1 tables.2 nSamp nPack NumThread.toNat reads
      { nBlock := nBlock, Geno1b := Geno1b, ptrBeta := ptrBeta })

/-! ## The normalisation pass of `gnrIBD_Beta` -/

/-- A `double` in exact arithmetic: `fin q` is a finite value computed without rounding,
`special` stands for the result of a division by zero (an infinity or a NaN) and for
every value computed from such a result. -/
inductive Dbl where
  | fin (q : ℚ)
  | special
  deriving DecidableEq

namespace Dbl

/-- Conversion of an integer to `double`. -/
def ofNat (n : Nat) : Dbl := fin n

/-- Addition of `double`. -/
def add : Dbl → Dbl → Dbl
  | fin a, fin b => fin (a + b)
  | _, _ => special

/-- Subtraction of `double`. -/
def sub : Dbl → Dbl → Dbl
  | fin a, fin b => fin (a - b)
  | _, _ => special

/-- Multiplication of `double`. -/
def mul : Dbl → Dbl → Dbl
  | fin a, fin b => fin (a * b)
  | _, _ => special

/-- Division of `double`: a zero divisor gives a special value. -/
def div : Dbl → Dbl → Dbl
  | fin a, fin b => if b = 0 then special else fin (a / b)
  | _, _ => special

end Dbl

/-- The state of the first pass: the output matrix (a cell is `none` until it is
written), the offset `p` of the current counter and the running sum `avg`. -/
structure Pass1 where
  /-- the matrix `pBeta`, row-major, `none` for a cell not written so far -/
  pBeta : Nat → Option Dbl
  /-- the read position in the triangular counter array -/
  p : Nat
  /-- the running sum of the off-diagonal raw scores -/
  avg : Dbl

/-- The assignment `pBeta[c] = v`. -/
def store (pBeta : Nat → Option Dbl) (c : Nat) (v : Dbl) : Nat → Option Dbl :=
  fun a => if a = c then some v else pBeta a

/-- The read of `pBeta[c]`; the content of a cell that was never written is
indeterminate and is read as `special`. -/
def fetch (pBeta : Nat → Option Dbl) (c : Nat) : Dbl := (pBeta c).getD Dbl.special

/-- The loop `for (size_t j=i+1; j < n; j++, p++)` of lines 206 to 211. -/
def pass1_inner (IBS : Nat → TS_Beta) (n i j : Nat) (st : Pass1) : Pass1 :=
  if j < n then
    let s := Dbl.div (Dbl.mul (Dbl.fin (1 / 2)) (Dbl.ofNat (IBS st.p).ibscnt))
      (Dbl.ofNat (IBS st.p).num)
    pass1_inner IBS n i (j + 1)
      { pBeta := store st.pBeta (i * n + j) s, p := st.p + 1, avg := Dbl.add st.avg s }
  else st
termination_by n - j

/-- The loop `for (size_t i=0; i < n; i++)` of lines 202 to 212. -/
def pass1_outer (IBS : Nat → TS_Beta) (n i : Nat) (st : Pass1) : Pass1 :=
  if i < n then
    let d := Dbl.div (Dbl.ofNat (IBS st.p).ibscnt) (Dbl.ofNat (IBS st.p).num)
    pass1_outer IBS n (i + 1)
      (pass1_inner IBS n i (i + 1) { st with pBeta := store st.pBeta (i * n + i) d, p := st.p + 1 })
  else st
termination_by n - i

/-- The loop `for (size_t j=i+1; j < n; j++)` of lines 221 to 225. -/
def pass2_inner (n : Nat) (avg bt : Dbl) (i j : Nat) (pBeta : Nat → Option Dbl) :
    Nat → Option Dbl :=
  if j < n then
    let s := Dbl.mul (Dbl.sub (fetch pBeta (i * n + j)) avg) bt
    pass2_inner n avg bt i (j + 1) (store (store pBeta (j * n + i) s) (i * n + j) s)
  else pBeta
termination_by n - j

/-- The loop `for (size_t i=0; i < n; i++)` of lines 218 to 226. -/
def pass2_outer (n : Nat) (avg bt : Dbl) (i : Nat) (pBeta : Nat → Option Dbl) :
    Nat → Option Dbl :=
  if i < n then
    let d := Dbl.mul (Dbl.sub (fetch pBeta (i * n + i)) avg) bt
    pass2_outer n avg bt (i + 1) (pass2_inner n avg bt i (i + 1) (store pBeta (i * n + i) d))
  else pBeta
termination_by n - i

/-- Lines 196 to 226 of `gnrIBD_Beta`: the `n` by `n` matrix computed from the
triangular counter array `IBS`. The matrix allocated by `Rf_allocMatrix` starts with
every cell unwritten. -/
def normalize (n : Nat) (IBS : Nat → TS_Beta) : Nat → Option Dbl :=
  let st := pass1_outer IBS n 0 { pBeta := fun _ => none, p := 0, avg := Dbl.fin 0 }
  let avg := Dbl.div st.avg (Dbl.ofNat (n * (n - 1) / 2))
  let bt := Dbl.div (Dbl.fin 1) (Dbl.sub (Dbl.fin 1) avg)
  pass2_outer n avg bt 0 st.pBeta

/-- The function `gnrIBD_Beta`: run the accumulator, then normalise. The result is the
matrix handed back to the caller, `none` when the program stops without one. -/
def gnrIBD_Beta (cache n : Nat)
    (Array_SplitJobs : Int → Nat → (Nat → IdMatTri) × (Nat → Int))
    (reads : List (Nat × (Nat → Nat))) (Geno1b : Nat → Nat)
    (IBS : Nat → TS_Beta) (NumThread : Int) : Option (Nat → Option Dbl) :=
  match Run cache n Array_SplitJobs reads Geno1b IBS NumThread with
  | none => none
  | some Work => some (normalize n Work.ptrBeta)

/-! ## Definitions used to state the theorems -/

instance : Zero Dbl := ⟨Dbl.fin 0⟩

instance : Add Dbl := ⟨Dbl.add⟩

instance : AddCommMonoid Dbl where
  add_assoc a b c := by
    show Dbl.add (Dbl.add a b) c = Dbl.add a (Dbl.add b c)
    cases a <;> cases b <;> cases c <;> simp [Dbl.add, add_assoc]
  zero_add a := by
    show Dbl.add (Dbl.fin 0) a = a
    cases a <;> simp [Dbl.add]
  add_zero a := by
    show Dbl.add a (Dbl.fin 0) = a
    cases a <;> simp [Dbl.add]
  add_comm a b := by
    show Dbl.add a b = Dbl.add b a
    cases a <;> cases b <;> simp [Dbl.add, add_comm]
  nsmul := nsmulRec

/-- A locus coded by the plane bits `(a, b)` is usable unless it is the missing code `(0, 1)`. -/
def validBit (a b : Bool) : Bool := a || !b

/-- What one locus adds to `ibscnt` of an off-diagonal pair, from the four plane bits:
nothing when either sample is missing, 1 when at least one is heterozygous, 2 when both
are homozygous for the same allele, 0 for opposite homozygotes. -/
def offScore (a1 b1 a2 b2 : Bool) : Nat :=
  if validBit a1 b1 && validBit a2 b2 then
    if (a1 ^^ b1) || (a2 ^^ b2) then 1 else if a1 = a2 then 2 else 0
  else 0

/-- What one locus adds to `num` of an off-diagonal pair. -/
def offValid (a1 b1 a2 b2 : Bool) : Nat := (validBit a1 b1 && validBit a2 b2).toNat

/-- What one locus adds to `ibscnt` of a diagonal pair: 1 for a homozygous call. -/
def diagScore (a b : Bool) : Nat := (validBit a b && !(a ^^ b)).toNat

/-- What one locus adds to `num` of a diagonal pair. -/
def diagValid (a b : Bool) : Nat := (validBit a b).toNat

/-- The off-diagonal raw score `(0.5 * ibscnt) / num` of a counter. -/
def rawOff (c : TS_Beta) : Dbl :=
  Dbl.div (Dbl.mul (Dbl.fin (1 / 2)) (Dbl.ofNat c.ibscnt)) (Dbl.ofNat c.num)

/-- The diagonal raw score `ibscnt / num` of a counter. -/
def rawDiag (c : TS_Beta) : Dbl := Dbl.div (Dbl.ofNat c.ibscnt) (Dbl.ofNat c.num)

/-- The raw score held by cell `(a, b)`, `a ≤ b`, after the first pass. -/
def rawAt (n : Nat) (IBS : Nat → TS_Beta) (a b : Nat) : Dbl :=
  if a = b then rawDiag (IBS (triStart n a)) else rawOff (IBS (triStart n a + (b - a)))

/-- The final update `(x - avg) * bt` of lines 220 and 223. -/
def centre (avg bt x : Dbl) : Dbl := Dbl.mul (Dbl.sub x avg) bt

/-- The sum of the off-diagonal raw scores accumulated by the first pass. -/
def sumOff (n : Nat) (IBS : Nat → TS_Beta) : Dbl :=
  ∑ r ∈ Finset.range n, ∑ t ∈ Finset.range (n - (r + 1)), rawOff (IBS (triStart n r + 1 + t))

/-- The value of `avg` after line 214. -/
def avgD (n : Nat) (IBS : Nat → TS_Beta) : Dbl :=
  Dbl.div (sumOff n IBS) (Dbl.ofNat (n * (n - 1) / 2))

/-- The value of `bt` of line 215. -/
def btD (n : Nat) (IBS : Nat → TS_Beta) : Dbl :=
  Dbl.div (Dbl.fin 1) (Dbl.sub (Dbl.fin 1) (avgD n IBS))

/-! ### The normalisation in rational numbers -/

/-- The off-diagonal raw score `0.5 * ibscnt / num` of a counter, as a rational. -/
def rawOffQ (c : TS_Beta) : ℚ := 1 / 2 * (c.ibscnt : ℚ) / (c.num : ℚ)

/-- The diagonal raw score `ibscnt / num` of a counter, as a rational. -/
def rawDiagQ (c : TS_Beta) : ℚ := (c.ibscnt : ℚ) / (c.num : ℚ)

/-- The sum of the off-diagonal raw scores over all pairs `i < j < n`. -/
def sumOffQ (n : Nat) (IBS : Nat → TS_Beta) : ℚ :=
  ∑ i ∈ Finset.range n, ∑ j ∈ Finset.Ico (i + 1) n, rawOffQ (IBS (triIndex n i j))

/-- The arithmetic mean of the off-diagonal raw scores over the `n (n - 1) / 2` pairs. -/
def avgQ (n : Nat) (IBS : Nat → TS_Beta) : ℚ :=
  sumOffQ n IBS / ((n * (n - 1) / 2 : Nat) : ℚ)

/-- Counters of the small case of the spec: two samples with the dosages `[0,1,2,0]` and
`[0,1,2,2]`; offsets 0 and 2 are the diagonal pairs, offset 1 is the pair `(0, 1)`. -/
def smallIBS : Nat → TS_Beta := fun o => if o = 1 then ⟨5, 4⟩ else ⟨3, 4⟩

/-- The rational held by cell `c` of a matrix, `0` for a cell that holds none. -/
def entryQ (out : Nat → Option Dbl) (c : Nat) : ℚ :=
  match out c with
  | some (Dbl.fin q) => q
  | _ => 0

/-- A job splitter that hands the whole triangle to the first thread. -/
def singleJob : Int → Nat → (Nat → IdMatTri) × (Nat → Int) :=
  fun _ n => (fun _ => IdMatTri.ofOffset n 0,
    fun i => if i = 0 then ((n * (n + 1) / 2 : Nat) : Int) else 0)

/-! ### Loci of a packed buffer -/

/-- The bit of locus `k` in the bit plane that starts at byte offset `base`. -/
def memBit (mem : Nat → Nat) (base k : Nat) : Bool := (mem (base + k / 8)).testBit (k % 8)

/-- Plane A bit of sample `s` at locus `k` of a packed buffer with blocks of `nBlock` loci. -/
def bitA (mem : Nat → Nat) (nBlock s k : Nat) : Bool :=
  memBit mem (s * (nBlock >>> 3 * 2)) k

/-- Plane B bit of sample `s` at locus `k` of a packed buffer with blocks of `nBlock` loci. -/
def bitB (mem : Nat → Nat) (nBlock s k : Nat) : Bool :=
  memBit mem (s * (nBlock >>> 3 * 2) + nBlock >>> 3) k

/-- The genotype call coded by a pair of plane bits. -/
inductive Call where
  | hom0
  | het
  | hom2
  | missing
  deriving DecidableEq, Repr

/-- The call coded by the plane bits `(a, b)`: `(0,0)` and `(1,1)` are the two
homozygotes, `(1,0)` the heterozygote, `(0,1)` a missing call. -/
def decode : Bool → Bool → Call
  | false, false => Call.hom0
  | true, false => Call.het
  | true, true => Call.hom2
  | false, true => Call.missing

/-- The score as claim C2 words it: 2 for identical calls, 1 for a heterozygote against a
homozygote, 0 for opposite homozygotes (and for a missing call). -/
def ibsClaimed : Call → Call → Nat
  | Call.missing, _ => 0
  | _, Call.missing => 0
  | Call.hom0, Call.hom0 => 2
  | Call.het, Call.het => 2
  | Call.hom2, Call.hom2 => 2
  | Call.hom0, Call.hom2 => 0
  | Call.hom2, Call.hom0 => 0
  | _, _ => 1

/-- The score of the kernel: 2 for two homozygotes of the same allele, 1 as soon as one
of the two calls is heterozygous, 0 for opposite homozygotes (and for a missing call). -/
def ibsShared : Call → Call → Nat
  | Call.missing, _ => 0
  | _, Call.missing => 0
  | Call.hom0, Call.hom0 => 2
  | Call.hom2, Call.hom2 => 2
  | Call.hom0, Call.hom2 => 0
  | Call.hom2, Call.hom0 => 0
  | _, _ => 1

/-- The call of sample `s` at locus `k` of a packed buffer. -/
def callAt (mem : Nat → Nat) (nBlock s k : Nat) : Call :=
  decode (bitA mem nBlock s k) (bitB mem nBlock s k)

/-- 1 when both calls are present, 0 when one is missing. -/
def bothCalled (c1 c2 : Call) : Nat :=
  if c1 ≠ Call.missing ∧ c2 ≠ Call.missing then 1 else 0

/-- The buffer `Geno` of the small case of the spec: two samples, four loci, the dosages
`[0,1,2,0]` and `[0,1,2,2]`, stored locus by locus. -/
def smallGeno : Nat → Nat := fun a => [0, 0, 1, 1, 2, 2, 0, 2].getD a 3

/-- The packed buffer of the small case, for blocks of 128 loci. -/
def smallPacked : Nat → Nat := pack_loop smallGeno 4 2 128 16 2 0 0 (fun _ => 0)

/-- Plane A word of a sample after its call at bit `k` is replaced by the missing code. -/
def setMissingA (gA k : Nat) : Nat := gA &&& not64 (1 <<< k)

/-- Plane B word of a sample after its call at bit `k` is replaced by the missing code. -/
def setMissingB (gB k : Nat) : Nat := gB ||| (1 <<< k)

/-- The block size as the spec words it: `budget / nSamp`, rounded down to a multiple of
128, then clamped to the interval from 256 to 65536. -/
def specBlock (budget nSamp : Nat) : Nat :=
  max 256 (min 65536 (budget / nSamp - budget / nSamp % 128))

/-! ### Job ranges -/

/-- What one block does to the counter at offset `o` of the triangle of `n` samples. -/
def kernelAt (mem : Nat → Nat) (nBlock n o : Nat) (c : TS_Beta) : TS_Beta :=
  pair_kernel mem nBlock (IdMatTri.ofOffset n o).fRow (IdMatTri.ofOffset n o).fColumn c

/-- The range `r = (start, count)` of linear offsets contains `o`. -/
def covers (r : Nat × Nat) (o : Nat) : Bool := decide (r.1 ≤ o ∧ o < r.1 + r.2)

/-- The number of ranges of the list that contain the offset `o`. -/
def coverCount (rs : List (Nat × Nat)) (o : Nat) : Nat := (rs.filter (fun r => covers r o)).length

/-- The list `rs` of ranges `(start, count)` splits the offsets below `T`: every offset
below `T` lies in exactly one range, and no other offset lies in any. -/
def IsPartition (T : Nat) (rs : List (Nat × Nat)) : Prop :=
  ∀ o, coverCount rs o = if o < T then 1 else 0

/-- Modelled from the spec: the tables `Array_Thread_MatIdx` and `Array_Thread_MatCnt`
that the job splitter fills for a list of ranges, "each range described by a starting
(row, column) position and a pair count"; entries past the list hold an empty range. -/
def tablesOf (n : Nat) (rs : List (Nat × Nat)) : (Nat → IdMatTri) × (Nat → Int) :=
  (fun i => IdMatTri.ofOffset n (rs.getD i (0, 0)).1, fun i => ((rs.getD i (0, 0)).2 : Int))

/-- The number of indices of the list `l` whose range contains the offset `o`. -/
def hits (rs : List (Nat × Nat)) (l : List Nat) (o : Nat) : Nat :=
  (l.filter (fun i => covers (rs.getD i (0, 0)) o)).length

/-- A state of the accumulator on the packed small case, with counters already in use. -/
def smallWork : CIndivBeta :=
  { nBlock := 128, Geno1b := smallPacked, ptrBeta := fun o => ⟨o, 2 * o⟩ }

/-! ### Loci delivered in chunks -/

/-- Modelled from the spec: the reads of a genotype source that delivers the loci in
chunks. A locus maps the sample index to its genotype value; for every chunk `WS.Count()`
is the number of its loci and the buffer holds "sampleCount() × locus_count_read genotype
values", locus by locus. -/
def readsOf (nSamp : Nat) (chunks : List (List (Nat → Nat))) : List (Nat × (Nat → Nat)) :=
  chunks.map (fun ch => (ch.length, fun a => (ch.getD (a / nSamp) (fun _ => 3)) (a % nSamp)))

/-- The genotype value that the packer codes for sample `t` at locus `k` of a block. -/
def genoAt (Geno : Nat → Nat) (Count nSamp t k : Nat) : Nat :=
  if k < Count then Geno (t + k * nSamp) else 3

/-- What one locus adds to `ibscnt` of the pair `(r, c)`; a locus maps the sample index to
its genotype value. -/
def locusIbs (r c : Nat) (l : Nat → Nat) : Nat :=
  if r = c then diagScore (planeA (l r)) (planeB (l r))
  else offScore (planeA (l r)) (planeB (l r)) (planeA (l c)) (planeB (l c))

/-- What one locus adds to `num` of the pair `(r, c)`. -/
def locusNum (r c : Nat) (l : Nat → Nat) : Nat :=
  if r = c then diagValid (planeA (l r)) (planeB (l r))
  else offValid (planeA (l r)) (planeB (l r)) (planeA (l c)) (planeB (l c))

/-- The counter `x` after `s` is added to `ibscnt` and `v` to `num`, in 32 bits. -/
def acc (x : TS_Beta) (s v : Nat) : TS_Beta :=
  { ibscnt := (x.ibscnt + s) % 2 ^ 32, num := (x.num + v) % 2 ^ 32 }

/-- The four loci of the small case of the spec: the dosages of sample 0 are `[0,1,2,0]`,
those of sample 1 are `[0,1,2,2]`. -/
def smallLoci : List (Nat → Nat) :=
  [fun _ => 0, fun _ => 1, fun _ => 2, fun s => if s = 0 then 0 else 2]

/-- The unbounded number that one block adds to `ibscnt` of the pair `(r, c)`: the sum
over the loci of the block of the score of the locus. -/
def blockIbs (mem : Nat → Nat) (nBlock r c : Nat) : Nat :=
  ∑ k ∈ Finset.range nBlock,
    if r = c then diagScore (bitA mem nBlock r k) (bitB mem nBlock r k)
    else offScore (bitA mem nBlock r k) (bitB mem nBlock r k)
      (bitA mem nBlock c k) (bitB mem nBlock c k)

/-- The unbounded number that one block adds to `num` of the pair `(r, c)`: the number of
loci of the block at which the pair is usable. -/
def blockNum (mem : Nat → Nat) (nBlock r c : Nat) : Nat :=
  ∑ k ∈ Finset.range nBlock,
    if r = c then diagValid (bitA mem nBlock r k) (bitB mem nBlock r k)
    else offValid (bitA mem nBlock r k) (bitB mem nBlock r k)
      (bitA mem nBlock c k) (bitB mem nBlock c k)

/-- A state of the accumulator on the packed small case in which `num` of every counter
holds the largest 32-bit value. -/
def wrapWork : CIndivBeta :=
  { nBlock := 128, Geno1b := smallPacked, ptrBeta := fun _ => ⟨0, 4294967295⟩ }

/-- The loop of lines 206 to 211 together with a log of its reads: every iteration
appends the cell it writes and the offset `p` of the counter it reads. -/
def pass1_inner_log (IBS : Nat → TS_Beta) (n i j : Nat) (st : Pass1) (log : List (Nat × Nat)) :
    Pass1 × List (Nat × Nat) :=
  if j < n then
    let s := Dbl.div (Dbl.mul (Dbl.fin (1 / 2)) (Dbl.ofNat (IBS st.p).ibscnt))
      (Dbl.ofNat (IBS st.p).num)
    pass1_inner_log IBS n i (j + 1)
      { pBeta := store st.pBeta (i * n + j) s, p := st.p + 1, avg := Dbl.add st.avg s }
      (log ++ [(i * n + j, st.p)])
  else (st, log)
termination_by n - j

/-- The loop of lines 202 to 212 together with a log of its reads: every read of a
counter appends the cell being written and the offset `p` of the counter. -/
def pass1_outer_log (IBS : Nat → TS_Beta) (n i : Nat) (st : Pass1) (log : List (Nat × Nat)) :
    Pass1 × List (Nat × Nat) :=
  if i < n then
    let d := Dbl.div (Dbl.ofNat (IBS st.p).ibscnt) (Dbl.ofNat (IBS st.p).num)
    let r := pass1_inner_log IBS n i (i + 1)
      { st with pBeta := store st.pBeta (i * n + i) d, p := st.p + 1 }
      (log ++ [(i * n + i, st.p)])
    pass1_outer_log IBS n (i + 1) r.1 r.2
  else (st, log)
termination_by n - i

/-- The off-diagonal word loop of lines 84 to 97 together with a log of its reads: every
iteration appends the byte offsets of the four words it reads. The result holds the
counter, the value of `m` when the loop stops, and the log. -/
def offdiag_loop_log (mem : Nat → Nat) (npack : Nat) (p1 p2 : Nat) (m : Int) (p : TS_Beta)
    (log : List (List Nat)) : TS_Beta × Int × List (List Nat) :=
  if 0 < m then
    let g1_1 := load64 mem p1
    let g1_2 := load64 mem (p1 + npack)
    let g2_1 := load64 mem p2
    let g2_2 := load64 mem (p2 + npack)
    offdiag_loop_log mem npack (p1 + 8) (p2 + 8) (m - 8) (offdiag_step g1_1 g1_2 g2_1 g2_2 p)
      (log ++ [[p1, p1 + npack, p2, p2 + npack]])
  else (p, m, log)
termination_by m.toNat
decreasing_by omega

/-- The diagonal word loop of lines 100 to 108 together with a log of its reads: every
iteration appends the byte offsets of the two words it reads. -/
def diag_loop_log (mem : Nat → Nat) (npack : Nat) (p1 : Nat) (m : Int) (p : TS_Beta)
    (log : List (List Nat)) : TS_Beta × Int × List (List Nat) :=
  if 0 < m then
    let g1 := load64 mem p1
    let g2 := load64 mem (p1 + npack)
    diag_loop_log mem npack (p1 + 8) (m - 8) (diag_step g1 g2 p) (log ++ [[p1, p1 + npack]])
  else (p, m, log)
termination_by m.toNat
decreasing_by omega

/-- The body of the pair loop (lines 77 to 109) together with the log of the reads of its
word loop. -/
def pair_kernel_log (mem : Nat → Nat) (nBlock : Nat) (row column : Nat) (p : TS_Beta) :
    TS_Beta × Int × List (List Nat) :=
  let npack := nBlock >>> 3
  let npack2 := npack * 2
  let p1 := row * npack2
  let p2 := column * npack2
  let m : Int := npack
  if p1 ≠ p2 then offdiag_loop_log mem npack p1 p2 m p []
  else diag_loop_log mem npack p1 m p []

/-- The packed buffers that `Run` hands to the threads, block after block: the buffer of a
block is obtained by packing the read into the buffer left by the block before. -/
def packedBlocks (nSamp nBlock : Nat) :
    List (Nat × (Nat → Nat)) → (Nat → Nat) → List (Nat → Nat)
  | [], _ => []
  | (Count, Geno) :: rest, mem =>
    pack_loop Geno Count nSamp nBlock (nBlock / 8) nSamp 0 0 mem ::
      packedBlocks nSamp nBlock rest
        (pack_loop Geno Count nSamp nBlock (nBlock / 8) nSamp 0 0 mem)

/-- The unbounded `ibscnt` of the pair `(i, j)` over all blocks of a run. -/
def totalIbs (nSamp nBlock : Nat) (reads : List (Nat × (Nat → Nat))) (Geno1b : Nat → Nat)
    (i j : Nat) : Nat :=
  ((packedBlocks nSamp nBlock reads Geno1b).map (fun mem => blockIbs mem nBlock i j)).sum

/-- The unbounded `num` of the pair `(i, j)` over all blocks of a run. -/
def totalNum (nSamp nBlock : Nat) (reads : List (Nat × (Nat → Nat))) (Geno1b : Nat → Nat)
    (i j : Nat) : Nat :=
  ((packedBlocks nSamp nBlock reads Geno1b).map (fun mem => blockNum mem nBlock i j)).sum

/-- The counter array `IBS` of `N` samples is reachable from zero without wrap: some run
of `Run`, with job ranges that split the triangle, leaves it, and for every pair the
unbounded counts of that run stay below `2 ^ 32`. -/
def Reachable (N : Nat) (IBS : Nat → TS_Beta) : Prop :=
  ∃ (cache : Nat) (rs : List (Nat × Nat)) (reads : List (Nat × (Nat → Nat)))
    (Geno1b : Nat → Nat) (IBS0 : Nat → TS_Beta) (W : CIndivBeta),
    IsPartition (N * (N + 1) / 2) rs ∧
    Run cache N (fun _ _ => tablesOf N rs) reads Geno1b IBS0 (rs.length : Int) = some W ∧
    ∀ i j, i ≤ j → j < N →
      totalIbs N (Run_nBlock cache N) reads Geno1b i j < 2 ^ 32 ∧
      totalNum N (Run_nBlock cache N) reads Geno1b i j < 2 ^ 32 ∧
      IBS (triIndex N i j) = W.ptrBeta (triIndex N i j)

/-! # Theorems -/

/-! ## Bits and population counts -/

theorem popcntBits_eq_sum (n x : Nat) :
    popcntBits n x = ∑ k ∈ Finset.range n, (x.testBit k).toNat := by
  induction n generalizing x with
  | zero => simp [popcntBits]
  | succ n ih =>
    rw [popcntBits, ih, Finset.sum_range_succ']
    have h0 : (x.testBit 0).toNat = x % 2 := by
      rw [Nat.toNat_testBit]; simp
    simp only [h0, ← Nat.testBit_succ]
    rw [Nat.add_comm]

theorem testBit_not64 (x k : Nat) : (not64 x).testBit k = (decide (k < 64) && !x.testBit k) := by
  unfold not64
  rw [Nat.testBit_mod_two_pow, Nat.testBit_xor, Nat.testBit_two_pow_sub_one]
  by_cases h : k < 64 <;> simp [h]

theorem testBit_loadLE (mem : Nat → Nat) (n off k : Nat) :
    (loadLE mem off n).testBit k = (decide (k < 8 * n) && (mem (off + k / 8)).testBit (k % 8)) := by
  induction n generalizing off k with
  | zero => simp [loadLE]
  | succ n ih =>
    have hlt : mem off % 2 ^ 8 < 2 ^ 8 := Nat.mod_lt _ (by norm_num)
    have := Nat.testBit_mul_pow_two_add (loadLE mem (off + 1) n) hlt k
    rw [loadLE, Nat.add_comm]
    rw [show (256 : Nat) = 2 ^ 8 from rfl, this]
    by_cases hk : k < 8
    · have h1 : k / 8 = 0 := by omega
      have h2 : k % 8 = k := by omega
      have h3 : k < 8 * (n + 1) := by omega
      rw [if_pos hk, Nat.testBit_mod_two_pow, h1, h2]
      simp [hk, h3]
    · rw [if_neg hk, ih]
      have h1 : (k - 8) / 8 = k / 8 - 1 := by omega
      have h2 : (k - 8) % 8 = k % 8 := by omega
      have h3 : off + 1 + (k / 8 - 1) = off + k / 8 := by omega
      rw [h1, h2, h3]
      congr 1
      simp only [decide_eq_decide]
      omega

theorem testBit_load64 (mem : Nat → Nat) (p k : Nat) :
    (load64 mem p).testBit k = (decide (k < 64) && (mem (p + k / 8)).testBit (k % 8)) :=
  testBit_loadLE mem 8 p k

theorem POPCNT_U64_eq_sum (x : Nat) :
    POPCNT_U64 x = ∑ k ∈ Finset.range 64, (x.testBit k).toNat := popcntBits_eq_sum 64 x

theorem offdiag_ibs_sum (g1_1 g1_2 g2_1 g2_2 : Nat) :
    POPCNT_U64 (((g1_1 ^^^ g1_2) ||| (g2_1 ^^^ g2_2)) &&&
        ((g1_1 ||| not64 g1_2) &&& (g2_1 ||| not64 g2_2))) +
      2 * POPCNT_U64 (not64 (((g1_1 ^^^ g1_2) ||| (g2_1 ^^^ g2_2)) ||| (g1_1 ^^^ g2_1)) &&&
        ((g1_1 ||| not64 g1_2) &&& (g2_1 ||| not64 g2_2))) =
    ∑ k ∈ Finset.range 64,
      offScore (g1_1.testBit k) (g1_2.testBit k) (g2_1.testBit k) (g2_2.testBit k) := by
  rw [POPCNT_U64_eq_sum, POPCNT_U64_eq_sum, Finset.mul_sum, ← Finset.sum_add_distrib]
  refine Finset.sum_congr rfl fun k hk => ?_
  have hk64 : k < 64 := Finset.mem_range.mp hk
  simp only [Nat.testBit_and, Nat.testBit_or, Nat.testBit_xor, testBit_not64, hk64,
    decide_True, Bool.true_and, offScore, validBit]
  cases g1_1.testBit k <;> cases g1_2.testBit k <;> cases g2_1.testBit k <;>
    cases g2_2.testBit k <;> rfl

theorem offdiag_num_sum (g1_1 g1_2 g2_1 g2_2 : Nat) :
    POPCNT_U64 ((g1_1 ||| not64 g1_2) &&& (g2_1 ||| not64 g2_2)) =
    ∑ k ∈ Finset.range 64,
      offValid (g1_1.testBit k) (g1_2.testBit k) (g2_1.testBit k) (g2_2.testBit k) := by
  rw [POPCNT_U64_eq_sum]
  refine Finset.sum_congr rfl fun k hk => ?_
  have hk64 : k < 64 := Finset.mem_range.mp hk
  simp only [Nat.testBit_and, Nat.testBit_or, testBit_not64, hk64,
    decide_True, Bool.true_and, offValid, validBit]

theorem diag_ibs_sum (g1 g2 : Nat) :
    POPCNT_U64 (not64 (g1 ^^^ g2) &&& (g1 ||| not64 g2)) =
    ∑ k ∈ Finset.range 64, diagScore (g1.testBit k) (g2.testBit k) := by
  rw [POPCNT_U64_eq_sum]
  refine Finset.sum_congr rfl fun k hk => ?_
  have hk64 : k < 64 := Finset.mem_range.mp hk
  simp only [Nat.testBit_and, Nat.testBit_or, Nat.testBit_xor, testBit_not64, hk64,
    decide_True, Bool.true_and, diagScore, validBit]
  cases g1.testBit k <;> cases g2.testBit k <;> rfl

theorem diag_num_sum (g1 g2 : Nat) :
    POPCNT_U64 (g1 ||| not64 g2) =
    ∑ k ∈ Finset.range 64, diagValid (g1.testBit k) (g2.testBit k) := by
  rw [POPCNT_U64_eq_sum]
  refine Finset.sum_congr rfl fun k hk => ?_
  have hk64 : k < 64 := Finset.mem_range.mp hk
  simp only [Nat.testBit_or, testBit_not64, hk64,
    decide_True, Bool.true_and, diagValid, validBit]

/-! ## The normalisation pass -/

theorem Dbl.add_def (a b : Dbl) : a + b = Dbl.add a b := rfl

theorem Dbl.zero_def : (0 : Dbl) = Dbl.fin 0 := rfl

theorem cell_inj {n a b i j : Nat} (hb : b < n) (hj : j < n) :
    a * n + b = i * n + j ↔ a = i ∧ b = j := by
  constructor
  · intro h
    have h1 : (a * n + b) / n = a := by
      rw [Nat.add_comm, Nat.add_mul_div_right _ _ (by omega), Nat.div_eq_of_lt hb]; simp
    have h2 : (i * n + j) / n = i := by
      rw [Nat.add_comm, Nat.add_mul_div_right _ _ (by omega), Nat.div_eq_of_lt hj]; simp
    have ha : a = i := by rw [← h1, ← h2, h]
    subst ha
    exact ⟨rfl, by omega⟩
  · rintro ⟨rfl, rfl⟩; rfl

theorem pass1_inner_step (IBS : Nat → TS_Beta) (n i j : Nat) (st : Pass1) (hj : j < n) :
    pass1_inner IBS n i j st = pass1_inner IBS n i (j + 1)
      { pBeta := store st.pBeta (i * n + j) (rawOff (IBS st.p)), p := st.p + 1,
        avg := st.avg + rawOff (IBS st.p) } := by
  rw [pass1_inner, if_pos hj]; rfl

theorem pass1_inner_stop (IBS : Nat → TS_Beta) (n i j : Nat) (st : Pass1) (hj : ¬ j < n) :
    pass1_inner IBS n i j st = st := by
  rw [pass1_inner, if_neg hj]

theorem pass1_inner_spec (IBS : Nat → TS_Beta) (n i : Nat) :
    ∀ (d j : Nat) (st : Pass1), n - j = d →
      (pass1_inner IBS n i j st).p = st.p + (n - j) ∧
      (pass1_inner IBS n i j st).avg =
        st.avg + ∑ t ∈ Finset.range (n - j), rawOff (IBS (st.p + t)) ∧
      ∀ a b, b < n → (pass1_inner IBS n i j st).pBeta (a * n + b) =
        if a = i ∧ j ≤ b then some (rawOff (IBS (st.p + (b - j)))) else st.pBeta (a * n + b) := by
  intro d
  induction d with
  | zero =>
    intro j st hd
    have hj : ¬ j < n := by omega
    rw [pass1_inner_stop _ _ _ _ _ hj]
    have h0 : n - j = 0 := hd
    refine ⟨by omega, by simp [h0], ?_⟩
    intro a b hb
    rw [if_neg]; omega
  | succ d ih =>
    intro j st hd
    have hj : j < n := by omega
    rw [pass1_inner_step _ _ _ _ _ hj]
    obtain ⟨h1, h2, h3⟩ := ih (j + 1)
      { pBeta := store st.pBeta (i * n + j) (rawOff (IBS st.p)), p := st.p + 1,
        avg := st.avg + rawOff (IBS st.p) } (by omega)
    refine ⟨?_, ?_, ?_⟩
    · rw [h1]; simp only; omega
    · rw [h2]
      have hn : n - j = (n - (j + 1)) + 1 := by omega
      rw [hn, Finset.sum_range_succ']
      simp only [Nat.add_zero]
      rw [add_assoc, add_comm (Finset.sum _ _)]
      congr 2
      refine Finset.sum_congr rfl fun t _ => ?_
      rw [show st.p + 1 + t = st.p + (t + 1) by omega]
    · intro a b hb
      rw [h3 a b hb]
      simp only [store]
      by_cases hab : a = i ∧ j + 1 ≤ b
      · rw [if_pos hab, if_pos ⟨hab.1, by omega⟩]
        rw [show st.p + 1 + (b - (j + 1)) = st.p + (b - j) by omega]
      · rw [if_neg hab]
        by_cases hc : a * n + b = i * n + j
        · rw [if_pos hc]
          obtain ⟨rfl, rfl⟩ := (cell_inj hb hj).mp hc
          rw [if_pos ⟨rfl, le_refl _⟩]; simp
        · rw [if_neg hc]
          have : ¬ (a = i ∧ j ≤ b) := by
            rintro ⟨rfl, hjb⟩
            rcases Nat.eq_or_lt_of_le hjb with h | h
            · exact hc (by rw [h])
            · exact hab ⟨rfl, h⟩
          rw [if_neg this]

theorem pass1_outer_step (IBS : Nat → TS_Beta) (n i : Nat) (st : Pass1) (hi : i < n) :
    pass1_outer IBS n i st = pass1_outer IBS n (i + 1)
      (pass1_inner IBS n i (i + 1)
        { pBeta := store st.pBeta (i * n + i) (rawDiag (IBS st.p)), p := st.p + 1,
          avg := st.avg }) := by
  rw [pass1_outer, if_pos hi]; rfl

theorem pass1_outer_stop (IBS : Nat → TS_Beta) (n i : Nat) (st : Pass1) (hi : ¬ i < n) :
    pass1_outer IBS n i st = st := by
  rw [pass1_outer, if_neg hi]

theorem pass1_outer_spec (IBS : Nat → TS_Beta) (n : Nat) :
    ∀ (d i : Nat) (st : Pass1), n - i = d → i ≤ n → st.p = triStart n i →
      (pass1_outer IBS n i st).p = triStart n n ∧
      (pass1_outer IBS n i st).avg =
        st.avg + ∑ r ∈ Finset.Ico i n, ∑ t ∈ Finset.range (n - (r + 1)),
          rawOff (IBS (triStart n r + 1 + t)) ∧
      ∀ a b, b < n → (pass1_outer IBS n i st).pBeta (a * n + b) =
        if i ≤ a ∧ a < n ∧ a ≤ b then some (rawAt n IBS a b) else st.pBeta (a * n + b) := by
  intro d
  induction d with
  | zero =>
    intro i st hd hin hp
    have hi : ¬ i < n := by omega
    have hi' : i = n := by omega
    rw [pass1_outer_stop _ _ _ _ hi]
    refine ⟨by rw [hp, hi'], by simp [hi'], ?_⟩
    intro a b hb
    rw [if_neg]; omega
  | succ d ih =>
    intro i st hd hin hp
    have hi : i < n := by omega
    rw [pass1_outer_step _ _ _ _ hi]
    obtain ⟨q1, q2, q3⟩ := pass1_inner_spec IBS n i (n - (i + 1)) (i + 1)
      { pBeta := store st.pBeta (i * n + i) (rawDiag (IBS st.p)), p := st.p + 1,
        avg := st.avg } rfl
    simp only at q1 q2 q3
    obtain ⟨h1, h2, h3⟩ := ih (i + 1) _ (by omega) (by omega)
      (show (pass1_inner IBS n i (i + 1)
        { pBeta := store st.pBeta (i * n + i) (rawDiag (IBS st.p)), p := st.p + 1,
          avg := st.avg }).p = triStart n (i + 1) by
        rw [q1, hp, triStart]; omega)
    refine ⟨h1, ?_, ?_⟩
    · rw [h2, q2, Finset.sum_eq_sum_Ico_succ_bot hi, hp, add_assoc]
    · intro a b hb
      rw [h3 a b hb, q3 a b hb]
      simp only [store]
      by_cases hab : i + 1 ≤ a ∧ a < n ∧ a ≤ b
      · rw [if_pos hab, if_pos ⟨by omega, hab.2⟩]
      · rw [if_neg hab]
        by_cases hai : a = i
        · subst hai
          by_cases hlt : a + 1 ≤ b
          · rw [if_pos ⟨rfl, hlt⟩, if_pos ⟨le_refl _, hi, by omega⟩, rawAt, if_neg (by omega), hp]
            rw [show triStart n a + 1 + (b - (a + 1)) = triStart n a + (b - a) by omega]
          · rw [if_neg (by omega)]
            by_cases hba : b = a
            · subst hba
              rw [if_pos rfl, if_pos ⟨le_refl _, hi, le_refl _⟩, rawAt, if_pos rfl, hp]
            · have hne : ¬ (a * n + b = a * n + a) := by omega
              rw [if_neg hne, if_neg (by omega)]
        · rw [if_neg (by omega)]
          have hne : ¬ (a * n + b = i * n + i) := by
            intro h
            exact hai ((cell_inj hb hi).mp h).1
          rw [if_neg hne, if_neg (by omega)]

theorem pass2_inner_step (n : Nat) (avg bt : Dbl) (i j : Nat) (pB : Nat → Option Dbl)
    (hj : j < n) :
    pass2_inner n avg bt i j pB = pass2_inner n avg bt i (j + 1)
      (store (store pB (j * n + i) (centre avg bt (fetch pB (i * n + j)))) (i * n + j)
        (centre avg bt (fetch pB (i * n + j)))) := by
  rw [pass2_inner, if_pos hj]; rfl

theorem pass2_inner_stop (n : Nat) (avg bt : Dbl) (i j : Nat) (pB : Nat → Option Dbl)
    (hj : ¬ j < n) : pass2_inner n avg bt i j pB = pB := by
  rw [pass2_inner, if_neg hj]

theorem pass2_inner_spec (n : Nat) (avg bt : Dbl) (i : Nat) (hi : i < n) :
    ∀ (d j : Nat) (pB : Nat → Option Dbl), n - j = d → i < j →
      ∀ a b, a < n → b < n → pass2_inner n avg bt i j pB (a * n + b) =
        if a = i ∧ j ≤ b then some (centre avg bt (fetch pB (i * n + b)))
        else if b = i ∧ j ≤ a then some (centre avg bt (fetch pB (i * n + a)))
        else pB (a * n + b) := by
  intro d
  induction d with
  | zero =>
    intro j pB hd hij a b ha hb
    rw [pass2_inner_stop _ _ _ _ _ _ (by omega), if_neg (by omega), if_neg (by omega)]
  | succ d ih =>
    intro j pB hd hij a b ha hb
    have hj : j < n := by omega
    rw [pass2_inner_step _ _ _ _ _ _ hj, ih (j + 1) _ (by omega) (by omega) a b ha hb]
    have hfetch : ∀ c, c < n → j + 1 ≤ c →
        fetch (store (store pB (j * n + i) (centre avg bt (fetch pB (i * n + j)))) (i * n + j)
          (centre avg bt (fetch pB (i * n + j)))) (i * n + c) = fetch pB (i * n + c) := by
      intro c hc hjc
      have h1 : ¬ (i * n + c = i * n + j) := by omega
      have h2 : ¬ (i * n + c = j * n + i) := by
        intro h
        have := ((cell_inj hc hi).mp h).1
        omega
      simp only [fetch, store, if_neg h1, if_neg h2]
    by_cases h1 : a = i ∧ j + 1 ≤ b
    · rw [if_pos h1, if_pos ⟨h1.1, by omega⟩, hfetch b hb h1.2]
    · rw [if_neg h1]
      by_cases h2 : b = i ∧ j + 1 ≤ a
      · rw [if_pos h2, if_neg (by omega), if_pos ⟨h2.1, by omega⟩, hfetch a ha h2.2]
      · rw [if_neg h2]
        simp only [store]
        by_cases h3 : a = i ∧ b = j
        · obtain ⟨rfl, rfl⟩ := h3
          rw [if_pos rfl, if_pos ⟨rfl, le_refl _⟩]
        · have hne : ¬ (a * n + b = i * n + j) := by
            intro h; exact h3 ((cell_inj hb hj).mp h)
          rw [if_neg hne]
          by_cases h4 : a = j ∧ b = i
          · obtain ⟨rfl, rfl⟩ := h4
            rw [if_pos rfl, if_neg (by omega), if_pos ⟨rfl, le_refl _⟩]
          · have hne2 : ¬ (a * n + b = j * n + i) := by
              intro h; exact h4 ((cell_inj hb hi).mp h)
            rw [if_neg hne2, if_neg (by omega), if_neg (by omega)]

theorem pass2_outer_step (n : Nat) (avg bt : Dbl) (i : Nat) (pB : Nat → Option Dbl)
    (hi : i < n) :
    pass2_outer n avg bt i pB = pass2_outer n avg bt (i + 1)
      (pass2_inner n avg bt i (i + 1)
        (store pB (i * n + i) (centre avg bt (fetch pB (i * n + i))))) := by
  rw [pass2_outer, if_pos hi]; rfl

theorem pass2_outer_stop (n : Nat) (avg bt : Dbl) (i : Nat) (pB : Nat → Option Dbl)
    (hi : ¬ i < n) : pass2_outer n avg bt i pB = pB := by
  rw [pass2_outer, if_neg hi]

theorem pass2_outer_spec (n : Nat) (avg bt : Dbl) :
    ∀ (d i : Nat) (pB : Nat → Option Dbl), n - i = d →
      ∀ a b, a < n → b < n → pass2_outer n avg bt i pB (a * n + b) =
        if i ≤ min a b then some (centre avg bt (fetch pB (min a b * n + max a b)))
        else pB (a * n + b) := by
  intro d
  induction d with
  | zero =>
    intro i pB hd a b ha hb
    rw [pass2_outer_stop _ _ _ _ _ (by omega), if_neg (by omega)]
  | succ d ih =>
    intro i pB hd a b ha hb
    have hi : i < n := by omega
    rw [pass2_outer_step _ _ _ _ _ hi, ih (i + 1) _ (by omega) a b ha hb]
    have hin := pass2_inner_spec n avg bt i hi (n - (i + 1)) (i + 1)
      (store pB (i * n + i) (centre avg bt (fetch pB (i * n + i)))) rfl (by omega)
    have hst : ∀ x y, y < n → ¬ (x = i ∧ y = i) →
        store pB (i * n + i) (centre avg bt (fetch pB (i * n + i))) (x * n + y) =
          pB (x * n + y) := by
      intro x y hy hxy
      have hne : ¬ (x * n + y = i * n + i) := by
        intro h; exact hxy ((cell_inj hy hi).mp h)
      simp only [store, if_neg hne]
    by_cases h1 : i + 1 ≤ min a b
    · rw [if_pos h1, if_pos (by omega)]
      have hm : min a b < n := by omega
      have hM : max a b < n := by omega
      rw [fetch, hin (min a b) (max a b) hm hM, if_neg (by omega), if_neg (by omega),
        hst _ _ hM (by omega), fetch]
    · rw [if_neg h1, hin a b ha hb]
      by_cases h2 : a = i ∧ i + 1 ≤ b
      · obtain ⟨rfl, h2⟩ := h2
        rw [if_pos ⟨rfl, h2⟩, if_pos (by omega), fetch, hst _ _ hb (by omega), fetch]
        rw [show min a b = a by omega, show max a b = b by omega]
      · rw [if_neg h2]
        by_cases h3 : b = i ∧ i + 1 ≤ a
        · obtain ⟨rfl, h3⟩ := h3
          rw [if_pos ⟨rfl, h3⟩, if_pos (by omega), fetch, hst _ _ ha (by omega), fetch]
          rw [show min a b = b by omega, show max a b = a by omega]
        · rw [if_neg h3]
          by_cases h4 : a = i ∧ b = i
          · obtain ⟨rfl, rfl⟩ := h4
            simp only [store, if_pos, min_self, max_self, le_refl]
          · rw [hst _ _ hb h4, if_neg (by omega)]

theorem normalize_cell (n : Nat) (IBS : Nat → TS_Beta) (a b : Nat) (ha : a < n) (hb : b < n) :
    normalize n IBS (a * n + b) =
      some (centre (avgD n IBS) (btD n IBS) (rawAt n IBS (min a b) (max a b))) := by
  obtain ⟨-, h2, h3⟩ := pass1_outer_spec IBS n n 0
    { pBeta := fun _ => none, p := 0, avg := Dbl.fin 0 } rfl (Nat.zero_le _) rfl
  have havg : (pass1_outer IBS n 0 { pBeta := fun _ => none, p := 0, avg := Dbl.fin 0 }).avg =
      sumOff n IBS := by
    rw [h2, sumOff, Finset.range_eq_Ico]
    exact zero_add _
  have hm : min a b < n := by omega
  have hM : max a b < n := by omega
  unfold normalize
  rw [havg, pass2_outer_spec n _ _ n 0 _ rfl a b ha hb, if_pos (Nat.zero_le _), fetch,
    h3 _ _ hM, if_pos ⟨Nat.zero_le _, hm, by omega⟩]
  rfl

theorem triStart_eq (n : Nat) : ∀ a, a ≤ n → triStart n a = a * n - a * (a - 1) / 2 := by
  intro a
  induction a with
  | zero => intro _; simp [triStart]
  | succ a ih =>
    intro ha
    rw [triStart, ih (by omega)]
    have h1 : (a + 1) * (a + 1 - 1) / 2 = a * (a - 1) / 2 + a := Nat.triangle_succ a
    have h2 : a * (a - 1) / 2 ≤ a * (a - 1) := Nat.div_le_self _ _
    have h3 : a * (a - 1) ≤ a * n := Nat.mul_le_mul_left _ (by omega)
    have h4 : (a + 1) * n = a * n + n := by ring
    rw [h1, h4]
    omega

theorem triStart_add (n a b : Nat) (ha : a ≤ n) : triStart n a + (b - a) = triIndex n a b := by
  rw [triStart_eq n a ha, triIndex]

theorem rawOff_fin (c : TS_Beta) (h : 0 < c.num) : rawOff c = Dbl.fin (rawOffQ c) := by
  have : ((c.num : ℚ)) ≠ 0 := by exact_mod_cast (Nat.pos_iff_ne_zero.mp h)
  simp [rawOff, rawOffQ, Dbl.div, Dbl.mul, Dbl.ofNat, this]

theorem rawDiag_fin (c : TS_Beta) (h : 0 < c.num) : rawDiag c = Dbl.fin (rawDiagQ c) := by
  have : ((c.num : ℚ)) ≠ 0 := by exact_mod_cast (Nat.pos_iff_ne_zero.mp h)
  simp [rawDiag, rawDiagQ, Dbl.div, Dbl.ofNat, this]

theorem sum_fin {ι : Type} (s : Finset ι) (f : ι → ℚ) :
    ∑ x ∈ s, Dbl.fin (f x) = Dbl.fin (∑ x ∈ s, f x) := by
  classical
  induction s using Finset.induction_on with
  | empty => simp [Dbl.zero_def]
  | insert hx ih =>
    rw [Finset.sum_insert hx, Finset.sum_insert hx, ih, Dbl.add_def, Dbl.add]

theorem sumOff_fin (n : Nat) (IBS : Nat → TS_Beta)
    (h : ∀ i j, i < j → j < n → 0 < (IBS (triIndex n i j)).num) :
    sumOff n IBS = Dbl.fin (sumOffQ n IBS) := by
  unfold sumOff sumOffQ
  rw [← sum_fin]
  refine Finset.sum_congr rfl fun i hi => ?_
  have hin : i < n := Finset.mem_range.mp hi
  rw [Finset.sum_Ico_eq_sum_range, ← sum_fin]
  refine Finset.sum_congr rfl fun t ht => ?_
  have htn : t < n - (i + 1) := Finset.mem_range.mp ht
  have hidx : triStart n i + 1 + t = triIndex n i (i + 1 + t) := by
    rw [← triStart_add n i _ (by omega)]; omega
  rw [hidx, rawOff_fin _ (h i (i + 1 + t) (by omega) (by omega))]

theorem avgD_fin (n : Nat) (IBS : Nat → TS_Beta) (hn : 2 ≤ n)
    (h : ∀ i j, i < j → j < n → 0 < (IBS (triIndex n i j)).num) :
    avgD n IBS = Dbl.fin (avgQ n IBS) := by
  have hpos : 0 < n * (n - 1) / 2 := by
    have : 2 ≤ n * (n - 1) := by
      calc 2 = 2 * 1 := rfl
        _ ≤ n * (n - 1) := Nat.mul_le_mul hn (by omega)
    omega
  have hne : ((n * (n - 1) / 2 : Nat) : ℚ) ≠ 0 := by exact_mod_cast (Nat.pos_iff_ne_zero.mp hpos)
  rw [avgD, sumOff_fin n IBS h, Dbl.ofNat, Dbl.div, if_neg hne, avgQ]

theorem normalize_diag_val (N : Nat) (IBS : Nat → TS_Beta) (hN : 2 ≤ N)
    (hnum : ∀ i j, i ≤ j → j < N → 0 < (IBS (triIndex N i j)).num) (i : Nat) (hi : i < N) :
    normalize N IBS (i * N + i) =
      some (Dbl.mul (Dbl.fin (rawDiagQ (IBS (triIndex N i i)) - avgQ N IBS))
        (Dbl.div (Dbl.fin 1) (Dbl.fin (1 - avgQ N IBS)))) := by
  have havg := avgD_fin N IBS hN (fun i j hij hj => hnum i j (by omega) hj)
  rw [normalize_cell N IBS i i hi hi, btD, havg, centre, min_self, max_self, rawAt, if_pos rfl]
  have : triStart N i = triIndex N i i := by rw [← triStart_add N i i (by omega)]; omega
  rw [this, rawDiag_fin _ (hnum i i (le_refl _) hi)]
  rfl

theorem normalize_off_val (N : Nat) (IBS : Nat → TS_Beta) (hN : 2 ≤ N)
    (hnum : ∀ i j, i ≤ j → j < N → 0 < (IBS (triIndex N i j)).num) (i j : Nat) (hij : i < j)
    (hj : j < N) :
    normalize N IBS (i * N + j) =
      some (Dbl.mul (Dbl.fin (rawOffQ (IBS (triIndex N i j)) - avgQ N IBS))
        (Dbl.div (Dbl.fin 1) (Dbl.fin (1 - avgQ N IBS)))) := by
  have havg := avgD_fin N IBS hN (fun i j hij hj => hnum i j (by omega) hj)
  rw [normalize_cell N IBS i j (by omega) hj, btD, havg, centre,
    show min i j = i by omega, show max i j = j by omega, rawAt, if_neg (by omega),
    triStart_add N i j (by omega), rawOff_fin _ (hnum i j (by omega) hj)]
  rfl

theorem normalize_cell_comm (N : Nat) (IBS : Nat → TS_Beta) (i j : Nat) (hi : i < N)
    (hj : j < N) : normalize N IBS (i * N + j) = normalize N IBS (j * N + i) := by
  rw [normalize_cell N IBS i j hi hj, normalize_cell N IBS j i hj hi, min_comm, max_comm]

theorem mul_bt_fin (x a : ℚ) (h : a ≠ 1) :
    Dbl.mul (Dbl.fin x) (Dbl.div (Dbl.fin 1) (Dbl.fin (1 - a))) = Dbl.fin (x * (1 / (1 - a))) := by
  have hne : (1 - a) ≠ 0 := sub_ne_zero.mpr (Ne.symm h)
  simp [Dbl.div, Dbl.mul, hne]

/-- C1: for `N ≥ 2` and counters whose `num` is positive for every pair, the matrix
written by the normalisation holds `(ibscnt / num - avg) * bt` on the diagonal and
`(0.5 * ibscnt / num - avg) * bt` at `(i, j)`, `i < j`, where `avg` is the mean of the
off-diagonal raw scores over the `N (N - 1) / 2` pairs and `bt = 1 / (1 - avg)`; the
product is a finite rational when `avg ≠ 1`. -/
theorem normalize_entries (N : Nat) (IBS : Nat → TS_Beta) (hN : 2 ≤ N)
    (hnum : ∀ i j, i ≤ j → j < N → 0 < (IBS (triIndex N i j)).num) :
    (∀ i, i < N → normalize N IBS (i * N + i) =
        some (Dbl.mul (Dbl.fin (rawDiagQ (IBS (triIndex N i i)) - avgQ N IBS))
          (Dbl.div (Dbl.fin 1) (Dbl.fin (1 - avgQ N IBS))))) ∧
    (∀ i j, i < j → j < N → normalize N IBS (i * N + j) =
        some (Dbl.mul (Dbl.fin (rawOffQ (IBS (triIndex N i j)) - avgQ N IBS))
          (Dbl.div (Dbl.fin 1) (Dbl.fin (1 - avgQ N IBS))))) ∧
    (avgQ N IBS ≠ 1 →
      (∀ i, i < N → normalize N IBS (i * N + i) =
        some (Dbl.fin ((rawDiagQ (IBS (triIndex N i i)) - avgQ N IBS) *
          (1 / (1 - avgQ N IBS))))) ∧
      (∀ i j, i < j → j < N → normalize N IBS (i * N + j) =
        some (Dbl.fin ((rawOffQ (IBS (triIndex N i j)) - avgQ N IBS) *
          (1 / (1 - avgQ N IBS)))))) := by
  refine ⟨fun i hi => normalize_diag_val N IBS hN hnum i hi,
    fun i j hij hj => normalize_off_val N IBS hN hnum i j hij hj, fun h1 => ?_⟩
  refine ⟨fun i hi => ?_, fun i j hij hj => ?_⟩
  · rw [normalize_diag_val N IBS hN hnum i hi, mul_bt_fin _ _ h1]
  · rw [normalize_off_val N IBS hN hnum i j hij hj, mul_bt_fin _ _ h1]

theorem normalize_entries_witness :
    2 ≤ 2 ∧ (∀ i j, i ≤ j → j < 2 → 0 < (smallIBS (triIndex 2 i j)).num) ∧
    ((∀ i, i < 2 → normalize 2 smallIBS (i * 2 + i) =
        some (Dbl.mul (Dbl.fin (rawDiagQ (smallIBS (triIndex 2 i i)) - avgQ 2 smallIBS))
          (Dbl.div (Dbl.fin 1) (Dbl.fin (1 - avgQ 2 smallIBS))))) ∧
    (∀ i j, i < j → j < 2 → normalize 2 smallIBS (i * 2 + j) =
        some (Dbl.mul (Dbl.fin (rawOffQ (smallIBS (triIndex 2 i j)) - avgQ 2 smallIBS))
          (Dbl.div (Dbl.fin 1) (Dbl.fin (1 - avgQ 2 smallIBS))))) ∧
    (avgQ 2 smallIBS ≠ 1 →
      (∀ i, i < 2 → normalize 2 smallIBS (i * 2 + i) =
        some (Dbl.fin ((rawDiagQ (smallIBS (triIndex 2 i i)) - avgQ 2 smallIBS) *
          (1 / (1 - avgQ 2 smallIBS))))) ∧
      (∀ i j, i < j → j < 2 → normalize 2 smallIBS (i * 2 + j) =
        some (Dbl.fin ((rawOffQ (smallIBS (triIndex 2 i j)) - avgQ 2 smallIBS) *
          (1 / (1 - avgQ 2 smallIBS))))))) :=
  have h : ∀ i j, i ≤ j → j < 2 → 0 < (smallIBS (triIndex 2 i j)).num := fun i j _ _ => by
    unfold smallIBS; split <;> decide
  ⟨by decide, h, normalize_entries 2 smallIBS (by decide) h⟩

/-- C3: the matrix written by the normalisation is symmetric and every cell `(i, j)`,
`i, j < N`, is written, whatever the counters. -/
theorem normalize_symmetric (N : Nat) (IBS : Nat → TS_Beta) (i j : Nat) (hi : i < N)
    (hj : j < N) :
    normalize N IBS (i * N + j) = normalize N IBS (j * N + i) ∧
      (normalize N IBS (i * N + j)).isSome = true := by
  rw [normalize_cell N IBS i j hi hj, normalize_cell N IBS j i hj hi, min_comm, max_comm]
  exact ⟨rfl, rfl⟩

theorem normalize_symmetric_witness :
    0 < 2 ∧ 1 < 2 ∧ normalize 2 smallIBS (0 * 2 + 1) = normalize 2 smallIBS (1 * 2 + 0) ∧
      (normalize 2 smallIBS (0 * 2 + 1)).isSome = true :=
  ⟨by decide, by decide, normalize_symmetric 2 smallIBS 0 1 (by decide) (by decide)⟩

theorem pair_count (N : Nat) :
    ∑ i ∈ Finset.range N, ∑ _j ∈ Finset.Ico (i + 1) N, (1 : ℚ) = ((N * (N - 1) / 2 : Nat) : ℚ) := by
  have h1 : ∀ i ∈ Finset.range N, ∑ _j ∈ Finset.Ico (i + 1) N, (1 : ℚ) = ((N - 1 - i : Nat) : ℚ) := by
    intro i _
    simp only [Finset.sum_const, Nat.card_Ico, nsmul_eq_mul, mul_one]
    congr 1
    omega
  rw [Finset.sum_congr rfl h1, ← Nat.cast_sum, Finset.sum_range_reflect (fun j => j) N,
    Finset.sum_range_id]

theorem sum_offdiag_split (N : Nat) (e : Nat → Nat → ℚ) (hsym : ∀ i j, i < N → j < N → e i j = e j i) :
    ∑ i ∈ Finset.range N, ∑ j ∈ (Finset.range N).filter (fun j => j ≠ i), e i j =
      2 * ∑ i ∈ Finset.range N, ∑ j ∈ Finset.Ico (i + 1) N, e i j := by
  have hsplit : ∀ i ∈ Finset.range N,
      ∑ j ∈ (Finset.range N).filter (fun j => j ≠ i), e i j =
        ∑ j ∈ Finset.range i, e j i + ∑ j ∈ Finset.Ico (i + 1) N, e i j := by
    intro i hi
    have hiN : i < N := Finset.mem_range.mp hi
    have hset : (Finset.range N).filter (fun j => j ≠ i) = Finset.range i ∪ Finset.Ico (i + 1) N := by
      ext j
      simp only [Finset.mem_filter, Finset.mem_range, Finset.mem_union, Finset.mem_Ico]
      omega
    have hdisj : Disjoint (Finset.range i) (Finset.Ico (i + 1) N) := by
      rw [Finset.disjoint_left]
      intro j h1 h2
      simp only [Finset.mem_range] at h1
      simp only [Finset.mem_Ico] at h2
      omega
    rw [hset, Finset.sum_union hdisj]
    congr 1
    refine Finset.sum_congr rfl fun j hj => ?_
    have : j < i := Finset.mem_range.mp hj
    exact hsym i j hiN (by omega)
  rw [Finset.sum_congr rfl hsplit, Finset.sum_add_distrib]
  have hswap : ∑ i ∈ Finset.range N, ∑ j ∈ Finset.range i, e j i =
      ∑ j ∈ Finset.range N, ∑ i ∈ Finset.Ico (j + 1) N, e j i := by
    refine Finset.sum_comm' ?_
    intro x y
    simp only [Finset.mem_range, Finset.mem_Ico]
    omega
  rw [hswap]; ring

/-- C4: for `N ≥ 2`, counters with every `num` positive and a mean `avg ≠ 1`, every cell
of the matrix holds a finite rational and the off-diagonal cells sum to 0. -/
theorem normalize_centred (N : Nat) (IBS : Nat → TS_Beta) (hN : 2 ≤ N)
    (hnum : ∀ i j, i ≤ j → j < N → 0 < (IBS (triIndex N i j)).num)
    (havg : avgQ N IBS ≠ 1) :
    (∀ i j, i < N → j < N → ∃ q, normalize N IBS (i * N + j) = some (Dbl.fin q)) ∧
    ∑ i ∈ Finset.range N, ∑ j ∈ (Finset.range N).filter (fun j => j ≠ i),
      entryQ (normalize N IBS) (i * N + j) = 0 := by
  have hd : ∀ i, i < N → normalize N IBS (i * N + i) =
      some (Dbl.fin ((rawDiagQ (IBS (triIndex N i i)) - avgQ N IBS) *
        (1 / (1 - avgQ N IBS)))) := fun i hi => by
    rw [normalize_diag_val N IBS hN hnum i hi, mul_bt_fin _ _ havg]
  have ho : ∀ i j, i < j → j < N → normalize N IBS (i * N + j) =
      some (Dbl.fin ((rawOffQ (IBS (triIndex N i j)) - avgQ N IBS) *
        (1 / (1 - avgQ N IBS)))) := fun i j hij hj => by
    rw [normalize_off_val N IBS hN hnum i j hij hj, mul_bt_fin _ _ havg]
  have hsym : ∀ i j, i < N → j < N →
      entryQ (normalize N IBS) (i * N + j) = entryQ (normalize N IBS) (j * N + i) := by
    intro i j hi hj
    unfold entryQ
    rw [normalize_cell_comm N IBS i j hi hj]
  constructor
  · intro i j hi hj
    rcases Nat.lt_trichotomy i j with h | h | h
    · exact ⟨_, ho i j h hj⟩
    · subst h; exact ⟨_, hd i hi⟩
    · rw [normalize_cell_comm N IBS i j hi hj]; exact ⟨_, ho j i h hi⟩
  · rw [sum_offdiag_split N (fun i j => entryQ (normalize N IBS) (i * N + j)) hsym]
    have hval : ∀ i ∈ Finset.range N, ∀ j ∈ Finset.Ico (i + 1) N,
        entryQ (normalize N IBS) (i * N + j) =
          (rawOffQ (IBS (triIndex N i j)) - avgQ N IBS) * (1 / (1 - avgQ N IBS)) := by
      intro i _ j hj
      have hj' := Finset.mem_Ico.mp hj
      unfold entryQ
      rw [ho i j (by omega) hj'.2]
    rw [Finset.sum_congr rfl (fun i hi => Finset.sum_congr rfl (hval i hi))]
    simp only [← Finset.sum_mul, Finset.sum_sub_distrib]
    have hK := pair_count N
    have hpos : 0 < N * (N - 1) / 2 := by
      have : 2 ≤ N * (N - 1) := by
        calc 2 = 2 * 1 := rfl
          _ ≤ N * (N - 1) := Nat.mul_le_mul hN (by omega)
      omega
    have hne : ((N * (N - 1) / 2 : Nat) : ℚ) ≠ 0 := by
      exact_mod_cast (Nat.pos_iff_ne_zero.mp hpos)
    have hconst : ∑ i ∈ Finset.range N, ∑ _j ∈ Finset.Ico (i + 1) N, avgQ N IBS =
        ((N * (N - 1) / 2 : Nat) : ℚ) * avgQ N IBS := by
      rw [← hK, Finset.sum_mul]
      refine Finset.sum_congr rfl fun i _ => ?_
      rw [Finset.sum_mul]
      simp
    rw [hconst]
    have hS : ∑ i ∈ Finset.range N, ∑ j ∈ Finset.Ico (i + 1) N, rawOffQ (IBS (triIndex N i j)) =
        sumOffQ N IBS := rfl
    rw [hS, avgQ, mul_div_cancel₀ _ hne]
    simp

theorem avgQ_smallIBS : avgQ 2 smallIBS = 5 / 8 := by
  simp [avgQ, sumOffQ, Finset.sum_range_succ, rawOffQ, smallIBS, triIndex]
  norm_num

theorem normalize_centred_witness :
    2 ≤ 2 ∧ (∀ i j, i ≤ j → j < 2 → 0 < (smallIBS (triIndex 2 i j)).num) ∧
    avgQ 2 smallIBS ≠ 1 ∧
    ((∀ i j, i < 2 → j < 2 → ∃ q, normalize 2 smallIBS (i * 2 + j) = some (Dbl.fin q)) ∧
    ∑ i ∈ Finset.range 2, ∑ j ∈ (Finset.range 2).filter (fun j => j ≠ i),
      entryQ (normalize 2 smallIBS) (i * 2 + j) = 0) :=
  have h : ∀ i j, i ≤ j → j < 2 → 0 < (smallIBS (triIndex 2 i j)).num := fun i j _ _ => by
    unfold smallIBS; split <;> decide
  have h1 : avgQ 2 smallIBS ≠ 1 := by rw [avgQ_smallIBS]; norm_num
  ⟨by decide, h, h1, normalize_centred 2 smallIBS (by decide) h h1⟩

theorem triStart_double (n : Nat) : ∀ i, i ≤ n → 2 * triStart n i + i * i = 2 * i * n + i := by
  intro i
  induction i with
  | zero => intro _; simp [triStart]
  | succ i ih =>
    intro hi
    have h := ih (by omega)
    obtain ⟨k, rfl⟩ : ∃ k, n = i + 1 + k := ⟨n - (i + 1), by omega⟩
    rw [triStart, show i + 1 + k - i = k + 1 by omega]
    nlinarith

theorem triStart_self (n : Nat) : triStart n n = n * (n + 1) / 2 := by
  have h := triStart_double n n (le_refl _)
  have h2 : n * (n + 1) = 2 * triStart n n := by nlinarith
  rw [h2]; omega

theorem triStart_mono (n : Nat) : ∀ i j, i ≤ j → triStart n i ≤ triStart n j := by
  intro i j hij
  induction j with
  | zero => have : i = 0 := by omega
            subst this; exact le_refl _
  | succ j ih =>
    rcases Nat.eq_or_lt_of_le hij with h | h
    · rw [h]
    · have := ih (by omega)
      rw [triStart]; omega

theorem triIndex_lt (n i j : Nat) (hij : i ≤ j) (hj : j < n) : triIndex n i j < n * (n + 1) / 2 := by
  rw [← triStart_add n i j (by omega), ← triStart_self]
  have h1 : triStart n (i + 1) ≤ triStart n n := triStart_mono n _ _ (by omega)
  rw [triStart] at h1
  omega

theorem centre_special (avg bt : Dbl) : centre avg bt Dbl.special = Dbl.special := by
  simp [centre, Dbl.sub, Dbl.mul]

theorem rawOff_special (c : TS_Beta) (h : c.num = 0) : rawOff c = Dbl.special := by
  simp [rawOff, Dbl.div, Dbl.mul, Dbl.ofNat, h]

theorem rawDiag_special (c : TS_Beta) (h : c.num = 0) : rawDiag c = Dbl.special := by
  simp [rawDiag, Dbl.div, Dbl.ofNat, h]

theorem normalize_special (n : Nat) (IBS : Nat → TS_Beta) (i j : Nat) (hij : i ≤ j) (hj : j < n)
    (h0 : (IBS (triIndex n i j)).num = 0) :
    normalize n IBS (i * n + j) = some Dbl.special ∧
      normalize n IBS (j * n + i) = some Dbl.special := by
  have hraw : rawAt n IBS i j = Dbl.special := by
    unfold rawAt
    split
    · next h =>
      subst h
      have : triStart n i = triIndex n i i := by rw [← triStart_add n i i (by omega)]; omega
      rw [this]; exact rawDiag_special _ h0
    · rw [triStart_add n i j (by omega)]; exact rawOff_special _ h0
  rw [normalize_cell n IBS i j (by omega) hj, normalize_cell n IBS j i hj (by omega),
    show min i j = i by omega, show max i j = j by omega,
    show min j i = i by omega, show max j i = j by omega, hraw, centre_special]
  exact ⟨rfl, rfl⟩

/-- C5, as stated, fails: with two samples and a genotype source that yields no locus,
every counter keeps `num = 0`, and `gnrIBD_Beta` still returns a matrix, whose four cells
hold special values. -/
theorem gnrIBD_Beta_zero_loci :
    ∃ Work out,
      Run 0 2 singleJob [] (fun _ => 0) (fun _ => ⟨0, 0⟩) 1 = some Work ∧
      (∀ o, o < 3 → (Work.ptrBeta o).num = 0) ∧
      gnrIBD_Beta 0 2 singleJob [] (fun _ => 0) (fun _ => ⟨0, 0⟩) 1 = some out ∧
      out 0 = some Dbl.special ∧ out 1 = some Dbl.special ∧
      out 2 = some Dbl.special ∧ out 3 = some Dbl.special := by
  refine ⟨_, _, rfl, ?_, rfl, ?_⟩
  · intro o ho
    simp [Run_loop]
  · have h := fun i j hij hj => normalize_special 2
      (fun o => if o < 2 * (2 + 1) / 2 then ({ ibscnt := 0, num := 0 } : TS_Beta) else ⟨0, 0⟩)
      i j hij hj (by beta_reduce; split <;> rfl)
    have h00 := h 0 0 (by decide) (by decide)
    have h01 := h 0 1 (by decide) (by decide)
    have h11 := h 1 1 (by decide) (by decide)
    exact ⟨h00.1, h01.1, h01.2, h11.1⟩

/-- C5, amended: `gnrIBD_Beta` raises no error for a counter with `num = 0`. For at least
one sample it always returns a matrix with every cell written; the two cells of a pair
whose counter has `num = 0` hold special values, and so does every cell when the
genotype source yields no locus. -/
theorem gnrIBD_Beta_returns (cache n : Nat)
    (Array_SplitJobs : Int → Nat → (Nat → IdMatTri) × (Nat → Int))
    (reads : List (Nat × (Nat → Nat))) (Geno1b : Nat → Nat)
    (IBS : Nat → TS_Beta) (NumThread : Int) (hn : 1 ≤ n) :
    ∃ Work out,
      Run cache n Array_SplitJobs reads Geno1b IBS NumThread = some Work ∧
      gnrIBD_Beta cache n Array_SplitJobs reads Geno1b IBS NumThread = some out ∧
      (∀ i j, i < n → j < n → (out (i * n + j)).isSome = true) ∧
      (∀ i j, i ≤ j → j < n → (Work.ptrBeta (triIndex n i j)).num = 0 →
        out (i * n + j) = some Dbl.special ∧ out (j * n + i) = some Dbl.special) ∧
      (reads = [] → ∀ i j, i < n → j < n → out (i * n + j) = some Dbl.special) := by
  have hn0 : n ≠ 0 := by omega
  have hrun : ∃ Work, Run cache n Array_SplitJobs reads Geno1b IBS NumThread = some Work ∧
      (reads = [] → ∀ o, o < n * (n + 1) / 2 → (Work.ptrBeta o).num = 0) := by
    unfold Run
    rw [if_neg hn0]
    refine ⟨_, rfl, ?_⟩
    intro hr o ho
    subst hr
    simp [Run_loop, ho]
  obtain ⟨Work, hW, hzero⟩ := hrun
  refine ⟨Work, normalize n Work.ptrBeta, hW, ?_, ?_, ?_, ?_⟩
  · unfold gnrIBD_Beta; rw [hW]
  · intro i j hi hj
    rw [normalize_cell n Work.ptrBeta i j hi hj]; rfl
  · intro i j hij hj h0
    exact normalize_special n Work.ptrBeta i j hij hj h0
  · intro hr i j hi hj
    rcases Nat.le_total i j with h | h
    · exact (normalize_special n Work.ptrBeta i j h hj
        (hzero hr _ (triIndex_lt n i j h hj))).1
    · exact (normalize_special n Work.ptrBeta j i h hi
        (hzero hr _ (triIndex_lt n j i h hi))).2

theorem gnrIBD_Beta_returns_witness :
    1 ≤ 2 ∧ ∃ Work out,
      Run 0 2 singleJob [] (fun _ => 0) (fun _ => ⟨0, 0⟩) 1 = some Work ∧
      gnrIBD_Beta 0 2 singleJob [] (fun _ => 0) (fun _ => ⟨0, 0⟩) 1 = some out ∧
      (∀ i j, i < 2 → j < 2 → (out (i * 2 + j)).isSome = true) ∧
      (∀ i j, i ≤ j → j < 2 → (Work.ptrBeta (triIndex 2 i j)).num = 0 →
        out (i * 2 + j) = some Dbl.special ∧ out (j * 2 + i) = some Dbl.special) ∧
      (([] : List (Nat × (Nat → Nat))) = [] →
        ∀ i j, i < 2 → j < 2 → out (i * 2 + j) = some Dbl.special) :=
  ⟨by decide, gnrIBD_Beta_returns 0 2 singleJob [] (fun _ => 0) (fun _ => ⟨0, 0⟩) 1 (by decide)⟩

/-! ## The word loops and the kernel of one pair -/

theorem offdiag_step_eq (g1_1 g1_2 g2_1 g2_2 : Nat) (p : TS_Beta) :
    offdiag_step g1_1 g1_2 g2_1 g2_2 p =
      { ibscnt := (p.ibscnt + ∑ k ∈ Finset.range 64,
          offScore (g1_1.testBit k) (g1_2.testBit k) (g2_1.testBit k) (g2_2.testBit k)) % 2 ^ 32
        num := (p.num + ∑ k ∈ Finset.range 64,
          offValid (g1_1.testBit k) (g1_2.testBit k) (g2_1.testBit k) (g2_2.testBit k)) % 2 ^ 32 } := by
  unfold offdiag_step
  simp only [offdiag_ibs_sum, offdiag_num_sum]

theorem diag_step_eq (g1 g2 : Nat) (p : TS_Beta) :
    diag_step g1 g2 p =
      { ibscnt := (p.ibscnt + ∑ k ∈ Finset.range 64,
          diagScore (g1.testBit k) (g2.testBit k)) % 2 ^ 32
        num := (p.num + ∑ k ∈ Finset.range 64,
          diagValid (g1.testBit k) (g2.testBit k)) % 2 ^ 32 } := by
  unfold diag_step
  simp only [diag_ibs_sum, diag_num_sum]

theorem testBit_load64_lt (mem : Nat → Nat) (p k : Nat) (hk : k < 64) :
    (load64 mem p).testBit k = memBit mem p k := by
  rw [testBit_load64, memBit]; simp [hk]

theorem memBit_add8 (mem : Nat → Nat) (p k : Nat) : memBit mem (p + 8) k = memBit mem p (64 + k) := by
  unfold memBit
  rw [show p + 8 + k / 8 = p + (64 + k) / 8 by omega, show (64 + k) % 8 = k % 8 by omega]

theorem offdiag_loop_step (mem : Nat → Nat) (npack p1 p2 : Nat) (m : Int) (p : TS_Beta)
    (hm : 0 < m) :
    offdiag_loop mem npack p1 p2 m p = offdiag_loop mem npack (p1 + 8) (p2 + 8) (m - 8)
      (offdiag_step (load64 mem p1) (load64 mem (p1 + npack)) (load64 mem p2)
        (load64 mem (p2 + npack)) p) := by
  rw [offdiag_loop, if_pos hm]

theorem offdiag_loop_stop (mem : Nat → Nat) (npack p1 p2 : Nat) (m : Int) (p : TS_Beta)
    (hm : ¬ 0 < m) : offdiag_loop mem npack p1 p2 m p = p := by
  rw [offdiag_loop, if_neg hm]

theorem diag_loop_step (mem : Nat → Nat) (npack p1 : Nat) (m : Int) (p : TS_Beta) (hm : 0 < m) :
    diag_loop mem npack p1 m p = diag_loop mem npack (p1 + 8) (m - 8)
      (diag_step (load64 mem p1) (load64 mem (p1 + npack)) p) := by
  rw [diag_loop, if_pos hm]

theorem diag_loop_stop (mem : Nat → Nat) (npack p1 : Nat) (m : Int) (p : TS_Beta)
    (hm : ¬ 0 < m) : diag_loop mem npack p1 m p = p := by
  rw [diag_loop, if_neg hm]

theorem add_mod_mod32 (a x y : Nat) : ((a + x) % 2 ^ 32 + y) % 2 ^ 32 = (a + (x + y)) % 2 ^ 32 := by
  omega

theorem offdiag_loop_eq (mem : Nat → Nat) (npack : Nat) :
    ∀ (w p1 p2 : Nat) (p : TS_Beta),
      offdiag_loop mem npack p1 p2 ((8 * (w + 1) : Nat) : Int) p =
        { ibscnt := (p.ibscnt + ∑ k ∈ Finset.range (64 * (w + 1)),
            offScore (memBit mem p1 k) (memBit mem (p1 + npack) k)
              (memBit mem p2 k) (memBit mem (p2 + npack) k)) % 2 ^ 32
          num := (p.num + ∑ k ∈ Finset.range (64 * (w + 1)),
            offValid (memBit mem p1 k) (memBit mem (p1 + npack) k)
              (memBit mem p2 k) (memBit mem (p2 + npack) k)) % 2 ^ 32 } := by
  intro w
  have e1 : ∀ p1 p2, ∀ k ∈ Finset.range 64,
      offScore ((load64 mem p1).testBit k) ((load64 mem (p1 + npack)).testBit k)
        ((load64 mem p2).testBit k) ((load64 mem (p2 + npack)).testBit k) =
      offScore (memBit mem p1 k) (memBit mem (p1 + npack) k)
        (memBit mem p2 k) (memBit mem (p2 + npack) k) := by
    intro p1 p2 k hk
    have := Finset.mem_range.mp hk
    simp only [testBit_load64_lt _ _ _ this]
  have e2 : ∀ p1 p2, ∀ k ∈ Finset.range 64,
      offValid ((load64 mem p1).testBit k) ((load64 mem (p1 + npack)).testBit k)
        ((load64 mem p2).testBit k) ((load64 mem (p2 + npack)).testBit k) =
      offValid (memBit mem p1 k) (memBit mem (p1 + npack) k)
        (memBit mem p2 k) (memBit mem (p2 + npack) k) := by
    intro p1 p2 k hk
    have := Finset.mem_range.mp hk
    simp only [testBit_load64_lt _ _ _ this]
  induction w with
  | zero =>
    intro p1 p2 p
    have h0 : (0 : Int) < ((8 * (0 + 1) : Nat) : Int) := by decide
    rw [offdiag_loop_step mem npack p1 p2 _ p h0,
      offdiag_loop_stop mem npack _ _ _ _ (by decide), offdiag_step_eq,
      Finset.sum_congr rfl (e1 p1 p2), Finset.sum_congr rfl (e2 p1 p2)]
  | succ w ih =>
    intro p1 p2 p
    have h0 : (0 : Int) < ((8 * (w + 1 + 1) : Nat) : Int) := by omega
    have h1 : ((8 * (w + 1 + 1) : Nat) : Int) - 8 = ((8 * (w + 1) : Nat) : Int) := by omega
    rw [offdiag_loop_step mem npack p1 p2 _ p h0, h1, ih, offdiag_step_eq,
      show 64 * (w + 1 + 1) = 64 + 64 * (w + 1) by ring, Finset.sum_range_add,
      Finset.sum_range_add]
    simp only [show p1 + 8 + npack = p1 + npack + 8 by omega,
      show p2 + 8 + npack = p2 + npack + 8 by omega, memBit_add8]
    rw [Finset.sum_congr rfl (e1 p1 p2), Finset.sum_congr rfl (e2 p1 p2),
      add_mod_mod32, add_mod_mod32]

theorem diag_loop_eq (mem : Nat → Nat) (npack : Nat) :
    ∀ (w p1 : Nat) (p : TS_Beta),
      diag_loop mem npack p1 ((8 * (w + 1) : Nat) : Int) p =
        { ibscnt := (p.ibscnt + ∑ k ∈ Finset.range (64 * (w + 1)),
            diagScore (memBit mem p1 k) (memBit mem (p1 + npack) k)) % 2 ^ 32
          num := (p.num + ∑ k ∈ Finset.range (64 * (w + 1)),
            diagValid (memBit mem p1 k) (memBit mem (p1 + npack) k)) % 2 ^ 32 } := by
  intro w
  have e1 : ∀ p1, ∀ k ∈ Finset.range 64,
      diagScore ((load64 mem p1).testBit k) ((load64 mem (p1 + npack)).testBit k) =
      diagScore (memBit mem p1 k) (memBit mem (p1 + npack) k) := by
    intro p1 k hk
    have := Finset.mem_range.mp hk
    simp only [testBit_load64_lt _ _ _ this]
  have e2 : ∀ p1, ∀ k ∈ Finset.range 64,
      diagValid ((load64 mem p1).testBit k) ((load64 mem (p1 + npack)).testBit k) =
      diagValid (memBit mem p1 k) (memBit mem (p1 + npack) k) := by
    intro p1 k hk
    have := Finset.mem_range.mp hk
    simp only [testBit_load64_lt _ _ _ this]
  induction w with
  | zero =>
    intro p1 p
    have h0 : (0 : Int) < ((8 * (0 + 1) : Nat) : Int) := by decide
    rw [diag_loop_step mem npack p1 _ p h0,
      diag_loop_stop mem npack _ _ _ (by decide), diag_step_eq,
      Finset.sum_congr rfl (e1 p1), Finset.sum_congr rfl (e2 p1)]
  | succ w ih =>
    intro p1 p
    have h0 : (0 : Int) < ((8 * (w + 1 + 1) : Nat) : Int) := by omega
    have h1 : ((8 * (w + 1 + 1) : Nat) : Int) - 8 = ((8 * (w + 1) : Nat) : Int) := by omega
    rw [diag_loop_step mem npack p1 _ p h0, h1, ih, diag_step_eq,
      show 64 * (w + 1 + 1) = 64 + 64 * (w + 1) by ring, Finset.sum_range_add,
      Finset.sum_range_add]
    simp only [show p1 + 8 + npack = p1 + npack + 8 by omega, memBit_add8]
    rw [Finset.sum_congr rfl (e1 p1), Finset.sum_congr rfl (e2 p1),
      add_mod_mod32, add_mod_mod32]

theorem pair_kernel_offdiag (mem : Nat → Nat) (nBlock row column : Nat) (p : TS_Beta)
    (h64 : nBlock % 64 = 0) (hpos : 0 < nBlock) (hrc : row ≠ column) :
    pair_kernel mem nBlock row column p =
      { ibscnt := (p.ibscnt + ∑ k ∈ Finset.range nBlock,
          offScore (bitA mem nBlock row k) (bitB mem nBlock row k)
            (bitA mem nBlock column k) (bitB mem nBlock column k)) % 2 ^ 32
        num := (p.num + ∑ k ∈ Finset.range nBlock,
          offValid (bitA mem nBlock row k) (bitB mem nBlock row k)
            (bitA mem nBlock column k) (bitB mem nBlock column k)) % 2 ^ 32 } := by
  obtain ⟨w, rfl⟩ : ∃ w, nBlock = 64 * (w + 1) := ⟨nBlock / 64 - 1, by omega⟩
  have hnp : (64 * (w + 1)) >>> 3 = 8 * (w + 1) := by
    rw [Nat.shiftRight_eq_div_pow]; omega
  have hne : row * (8 * (w + 1) * 2) ≠ column * (8 * (w + 1) * 2) := by
    intro h
    exact hrc (Nat.eq_of_mul_eq_mul_right (by omega) h)
  unfold pair_kernel bitA bitB
  simp only [hnp]
  rw [if_pos hne, offdiag_loop_eq]

theorem pair_kernel_diag (mem : Nat → Nat) (nBlock row : Nat) (p : TS_Beta)
    (h64 : nBlock % 64 = 0) (hpos : 0 < nBlock) :
    pair_kernel mem nBlock row row p =
      { ibscnt := (p.ibscnt + ∑ k ∈ Finset.range nBlock,
          diagScore (bitA mem nBlock row k) (bitB mem nBlock row k)) % 2 ^ 32
        num := (p.num + ∑ k ∈ Finset.range nBlock,
          diagValid (bitA mem nBlock row k) (bitB mem nBlock row k)) % 2 ^ 32 } := by
  obtain ⟨w, rfl⟩ : ∃ w, nBlock = 64 * (w + 1) := ⟨nBlock / 64 - 1, by omega⟩
  have hnp : (64 * (w + 1)) >>> 3 = 8 * (w + 1) := by
    rw [Nat.shiftRight_eq_div_pow]; omega
  unfold pair_kernel bitA bitB
  simp only [hnp]
  rw [if_neg (by simp), diag_loop_eq]

theorem offScore_decode (a1 b1 a2 b2 : Bool) :
    offScore a1 b1 a2 b2 = ibsShared (decode a1 b1) (decode a2 b2) := by
  cases a1 <;> cases b1 <;> cases a2 <;> cases b2 <;> rfl

theorem offValid_decode (a1 b1 a2 b2 : Bool) :
    offValid a1 b1 a2 b2 = bothCalled (decode a1 b1) (decode a2 b2) := by
  cases a1 <;> cases b1 <;> cases a2 <;> cases b2 <;> rfl

/-- C2, amended: for two distinct samples the kernel adds to `ibscnt`, for every locus
of the block at which both samples are called, 2 when both are homozygous for the same
allele, 1 when at least one of them is heterozygous (two heterozygotes included) and 0 for
opposite homozygotes; it adds 1 to `num` for each such locus. -/
theorem pair_kernel_offdiag_calls (mem : Nat → Nat) (nBlock row column : Nat) (p : TS_Beta)
    (h64 : nBlock % 64 = 0) (hpos : 0 < nBlock) (hrc : row ≠ column) :
    (pair_kernel mem nBlock row column p).ibscnt =
      (p.ibscnt + ∑ k ∈ Finset.range nBlock,
        ibsShared (callAt mem nBlock row k) (callAt mem nBlock column k)) % 2 ^ 32 ∧
    (pair_kernel mem nBlock row column p).num =
      (p.num + ∑ k ∈ Finset.range nBlock,
        bothCalled (callAt mem nBlock row k) (callAt mem nBlock column k)) % 2 ^ 32 := by
  rw [pair_kernel_offdiag mem nBlock row column p h64 hpos hrc]
  simp only [offScore_decode, offValid_decode, callAt, and_self]

theorem small_case_counters :
    pair_kernel smallPacked 128 0 1 ⟨0, 0⟩ = ⟨5, 4⟩ := by
  unfold pair_kernel
  simp only [show 128 >>> 3 = 16 from rfl]
  rw [if_pos (by decide)]
  rw [offdiag_loop_step _ _ _ _ _ _ (by decide), offdiag_loop_step _ _ _ _ _ _ (by decide),
    offdiag_loop_stop _ _ _ _ _ _ (by decide)]
  decide

/-- C2, as stated, fails on the small case of the spec (dosages `[0,1,2,0]` against
`[0,1,2,2]`, packed in a block of 128 loci): the kernel leaves `ibscnt = 5`, `num = 4`,
while the scores of the claim add up to 6; locus 1, where both samples are
heterozygous, adds 1 and not 2. -/
theorem small_case_refutes_claimed_score :
    pair_kernel smallPacked 128 0 1 ⟨0, 0⟩ = ⟨5, 4⟩ ∧
    (0 + ∑ k ∈ Finset.range 128,
      ibsClaimed (callAt smallPacked 128 0 k) (callAt smallPacked 128 1 k)) % 2 ^ 32 = 6 ∧
    callAt smallPacked 128 0 1 = Call.het ∧ callAt smallPacked 128 1 1 = Call.het := by
  refine ⟨small_case_counters, ?_, by decide, by decide⟩
  set_option maxRecDepth 100000 in decide

theorem pair_kernel_offdiag_calls_witness :
    128 % 64 = 0 ∧ 0 < 128 ∧ (0 : Nat) ≠ 1 ∧
    ((pair_kernel smallPacked 128 0 1 ⟨0, 0⟩).ibscnt =
      ((⟨0, 0⟩ : TS_Beta).ibscnt + ∑ k ∈ Finset.range 128,
        ibsShared (callAt smallPacked 128 0 k) (callAt smallPacked 128 1 k)) % 2 ^ 32 ∧
    (pair_kernel smallPacked 128 0 1 ⟨0, 0⟩).num =
      ((⟨0, 0⟩ : TS_Beta).num + ∑ k ∈ Finset.range 128,
        bothCalled (callAt smallPacked 128 0 k) (callAt smallPacked 128 1 k)) % 2 ^ 32) :=
  ⟨by decide, by decide, by decide,
    pair_kernel_offdiag_calls smallPacked 128 0 1 ⟨0, 0⟩ (by decide) (by decide) (by decide)⟩

theorem testBit_setMissingA (g k j : Nat) (hj : j < 64) :
    (setMissingA g k).testBit j = (g.testBit j && !decide (k = j)) := by
  unfold setMissingA
  rw [Nat.testBit_and, testBit_not64, Nat.one_shiftLeft, Nat.testBit_two_pow]
  simp [hj]

theorem testBit_setMissingB (g k j : Nat) :
    (setMissingB g k).testBit j = (g.testBit j || decide (k = j)) := by
  unfold setMissingB
  rw [Nat.testBit_or, Nat.one_shiftLeft, Nat.testBit_two_pow]

theorem sum_offScore_le (f : Nat → Nat) (n c : Nat) (h : ∀ k, f k ≤ c) :
    ∑ k ∈ Finset.range n, f k ≤ n * c := by
  have := Finset.sum_le_card_nsmul (Finset.range n) f c (fun k _ => h k)
  simpa using this

theorem offScore_le (a1 b1 a2 b2 : Bool) : offScore a1 b1 a2 b2 ≤ 2 := by
  cases a1 <;> cases b1 <;> cases a2 <;> cases b2 <;> decide

theorem offValid_le (a1 b1 a2 b2 : Bool) : offValid a1 b1 a2 b2 ≤ 1 := by
  cases a1 <;> cases b1 <;> cases a2 <;> cases b2 <;> decide

theorem offdiag_step_zero (g1_1 g1_2 g2_1 g2_2 : Nat) :
    (offdiag_step g1_1 g1_2 g2_1 g2_2 ⟨0, 0⟩).ibscnt = ∑ k ∈ Finset.range 64,
        offScore (g1_1.testBit k) (g1_2.testBit k) (g2_1.testBit k) (g2_2.testBit k) ∧
    (offdiag_step g1_1 g1_2 g2_1 g2_2 ⟨0, 0⟩).num = ∑ k ∈ Finset.range 64,
        offValid (g1_1.testBit k) (g1_2.testBit k) (g2_1.testBit k) (g2_2.testBit k) := by
  rw [offdiag_step_eq]
  have h1 := sum_offScore_le (fun k =>
    offScore (g1_1.testBit k) (g1_2.testBit k) (g2_1.testBit k) (g2_2.testBit k)) 64 2
    (fun k => offScore_le _ _ _ _)
  have h2 := sum_offScore_le (fun k =>
    offValid (g1_1.testBit k) (g1_2.testBit k) (g2_1.testBit k) (g2_2.testBit k)) 64 1
    (fun k => offValid_le _ _ _ _)
  simp only [Nat.zero_add] at h1 h2 ⊢
  constructor
  · exact Nat.mod_eq_of_lt (by omega)
  · exact Nat.mod_eq_of_lt (by omega)

theorem sum_erase_of_eq (f g : Nat → Nat) (k : Nat) (hk : k < 64) (h0 : g k = 0)
    (hjk : ∀ j, j < 64 → j ≠ k → g j = f j) :
    ∑ j ∈ Finset.range 64, g j = ∑ j ∈ (Finset.range 64).erase k, f j := by
  have hmem : k ∈ Finset.range 64 := Finset.mem_range.mpr hk
  rw [← Finset.add_sum_erase _ g hmem, h0, Nat.zero_add]
  refine Finset.sum_congr rfl fun j hj => ?_
  have h1 := Finset.mem_erase.mp hj
  exact hjk j (Finset.mem_range.mp h1.2) h1.1

/-- C8: when both samples are called at bit `k`, replacing the call of either sample at
`k` by the missing code lowers the `num` increment of the word step by exactly 1, and
leaves as `ibscnt` increment the sum of the scores of the other 63 positions, each
computed from the original bits: only the score of position `k` is removed. -/
theorem offdiag_step_set_missing (g1_1 g1_2 g2_1 g2_2 k : Nat) (hk : k < 64)
    (h1 : validBit (g1_1.testBit k) (g1_2.testBit k) = true)
    (h2 : validBit (g2_1.testBit k) (g2_2.testBit k) = true) :
    (offdiag_step g1_1 g1_2 g2_1 g2_2 ⟨0, 0⟩).ibscnt = ∑ j ∈ Finset.range 64,
      offScore (g1_1.testBit j) (g1_2.testBit j) (g2_1.testBit j) (g2_2.testBit j) ∧
    (offdiag_step (setMissingA g1_1 k) (setMissingB g1_2 k) g2_1 g2_2 ⟨0, 0⟩).num + 1 =
      (offdiag_step g1_1 g1_2 g2_1 g2_2 ⟨0, 0⟩).num ∧
    (offdiag_step (setMissingA g1_1 k) (setMissingB g1_2 k) g2_1 g2_2 ⟨0, 0⟩).ibscnt =
      ∑ j ∈ (Finset.range 64).erase k,
        offScore (g1_1.testBit j) (g1_2.testBit j) (g2_1.testBit j) (g2_2.testBit j) ∧
    (offdiag_step g1_1 g1_2 (setMissingA g2_1 k) (setMissingB g2_2 k) ⟨0, 0⟩).num + 1 =
      (offdiag_step g1_1 g1_2 g2_1 g2_2 ⟨0, 0⟩).num ∧
    (offdiag_step g1_1 g1_2 (setMissingA g2_1 k) (setMissingB g2_2 k) ⟨0, 0⟩).ibscnt =
      ∑ j ∈ (Finset.range 64).erase k,
        offScore (g1_1.testBit j) (g1_2.testBit j) (g2_1.testBit j) (g2_2.testBit j) := by
  have hmem : k ∈ Finset.range 64 := Finset.mem_range.mpr hk
  have hvk : offValid (g1_1.testBit k) (g1_2.testBit k) (g2_1.testBit k) (g2_2.testBit k) = 1 := by
    simp [offValid, h1, h2]
  have hold := (offdiag_step_zero g1_1 g1_2 g2_1 g2_2).2
  rw [← Finset.add_sum_erase _ _ hmem, hvk] at hold
  have n1 : ∑ j ∈ Finset.range 64, offValid ((setMissingA g1_1 k).testBit j)
      ((setMissingB g1_2 k).testBit j) (g2_1.testBit j) (g2_2.testBit j) =
      ∑ j ∈ (Finset.range 64).erase k,
        offValid (g1_1.testBit j) (g1_2.testBit j) (g2_1.testBit j) (g2_2.testBit j) := by
    refine sum_erase_of_eq _ _ k hk ?_ ?_
    · simp [testBit_setMissingA _ _ _ hk, testBit_setMissingB, offValid, validBit]
    · intro j hj hjk
      have : ¬ k = j := fun h => hjk h.symm
      simp [testBit_setMissingA _ _ _ hj, testBit_setMissingB, this]
  have n2 : ∑ j ∈ Finset.range 64, offValid (g1_1.testBit j) (g1_2.testBit j)
      ((setMissingA g2_1 k).testBit j) ((setMissingB g2_2 k).testBit j) =
      ∑ j ∈ (Finset.range 64).erase k,
        offValid (g1_1.testBit j) (g1_2.testBit j) (g2_1.testBit j) (g2_2.testBit j) := by
    refine sum_erase_of_eq _ _ k hk ?_ ?_
    · simp [testBit_setMissingA _ _ _ hk, testBit_setMissingB, offValid, validBit]
    · intro j hj hjk
      have : ¬ k = j := fun h => hjk h.symm
      simp [testBit_setMissingA _ _ _ hj, testBit_setMissingB, this]
  refine ⟨(offdiag_step_zero g1_1 g1_2 g2_1 g2_2).1, ?_, ?_, ?_, ?_⟩
  · rw [hold, (offdiag_step_zero _ _ _ _).2, n1]; omega
  · rw [(offdiag_step_zero _ _ _ _).1]
    refine sum_erase_of_eq _ _ k hk ?_ ?_
    · simp [testBit_setMissingA _ _ _ hk, testBit_setMissingB, offScore, validBit]
    · intro j hj hjk
      have : ¬ k = j := fun h => hjk h.symm
      simp [testBit_setMissingA _ _ _ hj, testBit_setMissingB, this]
  · rw [hold, (offdiag_step_zero _ _ _ _).2, n2]; omega
  · rw [(offdiag_step_zero _ _ _ _).1]
    refine sum_erase_of_eq _ _ k hk ?_ ?_
    · simp [testBit_setMissingA _ _ _ hk, testBit_setMissingB, offScore, validBit]
    · intro j hj hjk
      have : ¬ k = j := fun h => hjk h.symm
      simp [testBit_setMissingA _ _ _ hj, testBit_setMissingB, this]

theorem offdiag_step_set_missing_witness :
    0 < 64 ∧ validBit (Nat.testBit 1 0) (Nat.testBit 0 0) = true ∧
    validBit (Nat.testBit 1 0) (Nat.testBit 1 0) = true ∧
    ((offdiag_step 1 0 1 1 ⟨0, 0⟩).ibscnt = ∑ j ∈ Finset.range 64,
      offScore (Nat.testBit 1 j) (Nat.testBit 0 j) (Nat.testBit 1 j) (Nat.testBit 1 j) ∧
    (offdiag_step (setMissingA 1 0) (setMissingB 0 0) 1 1 ⟨0, 0⟩).num + 1 =
      (offdiag_step 1 0 1 1 ⟨0, 0⟩).num ∧
    (offdiag_step (setMissingA 1 0) (setMissingB 0 0) 1 1 ⟨0, 0⟩).ibscnt =
      ∑ j ∈ (Finset.range 64).erase 0,
        offScore (Nat.testBit 1 j) (Nat.testBit 0 j) (Nat.testBit 1 j) (Nat.testBit 1 j) ∧
    (offdiag_step 1 0 (setMissingA 1 0) (setMissingB 1 0) ⟨0, 0⟩).num + 1 =
      (offdiag_step 1 0 1 1 ⟨0, 0⟩).num ∧
    (offdiag_step 1 0 (setMissingA 1 0) (setMissingB 1 0) ⟨0, 0⟩).ibscnt =
      ∑ j ∈ (Finset.range 64).erase 0,
        offScore (Nat.testBit 1 j) (Nat.testBit 0 j) (Nat.testBit 1 j) (Nat.testBit 1 j)) :=
  ⟨by decide, by decide, by decide,
    offdiag_step_set_missing 1 0 1 1 0 (by decide) (by decide) (by decide)⟩

/-- C9, as stated, fails: for a sample whose 64 loci are all homozygous (both planes 0,
no missing locus) the off-diagonal word step applied to the sample against itself adds
128 to `ibscnt`, the diagonal word step adds 64; both add 64 to `num`. -/
theorem offdiag_self_differs_from_diag :
    (∀ k, k < 64 → validBit (Nat.testBit 0 k) (Nat.testBit 0 k) = true) ∧
    offdiag_step 0 0 0 0 ⟨0, 0⟩ = ⟨128, 64⟩ ∧ diag_step 0 0 ⟨0, 0⟩ = ⟨64, 64⟩ := by
  refine ⟨fun k _ => by simp [validBit], by decide, by decide⟩

theorem self_score (a b : Bool) (h : validBit a b = true) :
    offScore a b a b = diagScore a b + 1 ∧ offValid a b a b = diagValid a b := by
  cases a <;> cases b <;> simp_all [validBit, offScore, diagScore, offValid, diagValid]

/-- C9, amended: for a sample without a missing locus in the word, the off-diagonal word
step applied to the sample against itself and the diagonal word step change `num` alike,
and the off-diagonal step adds to `ibscnt` what the diagonal step adds, plus 64 (every
locus scores one more: 2 instead of 1 when homozygous, 1 instead of 0 when heterozygous). -/
theorem offdiag_self_vs_diag (g1 g2 : Nat) (p : TS_Beta)
    (hv : ∀ k, k < 64 → validBit (g1.testBit k) (g2.testBit k) = true) :
    (offdiag_step g1 g2 g1 g2 p).num = (diag_step g1 g2 p).num ∧
    (offdiag_step g1 g2 g1 g2 p).ibscnt = ((diag_step g1 g2 p).ibscnt + 64) % 2 ^ 32 ∧
    (offdiag_step g1 g2 g1 g2 ⟨0, 0⟩).ibscnt = (diag_step g1 g2 ⟨0, 0⟩).ibscnt + 64 := by
  have hs : ∑ k ∈ Finset.range 64,
      offScore (g1.testBit k) (g2.testBit k) (g1.testBit k) (g2.testBit k) =
      ∑ k ∈ Finset.range 64, diagScore (g1.testBit k) (g2.testBit k) + 64 := by
    rw [Finset.sum_congr rfl (fun k hk => (self_score _ _ (hv k (Finset.mem_range.mp hk))).1),
      Finset.sum_add_distrib]
    simp
  have hn : ∑ k ∈ Finset.range 64,
      offValid (g1.testBit k) (g2.testBit k) (g1.testBit k) (g2.testBit k) =
      ∑ k ∈ Finset.range 64, diagValid (g1.testBit k) (g2.testBit k) := by
    exact Finset.sum_congr rfl (fun k hk => (self_score _ _ (hv k (Finset.mem_range.mp hk))).2)
  have hle : ∑ k ∈ Finset.range 64, diagScore (g1.testBit k) (g2.testBit k) ≤ 64 * 1 :=
    sum_offScore_le _ 64 1 (fun k => by
      cases g1.testBit k <;> cases g2.testBit k <;> decide)
  simp only [offdiag_step_eq, diag_step_eq, hs, hn]
  refine ⟨trivial, ?_, ?_⟩ <;> omega

theorem offdiag_self_vs_diag_witness :
    (∀ k, k < 64 → validBit (Nat.testBit 0 k) (Nat.testBit 0 k) = true) ∧
    ((offdiag_step 0 0 0 0 ⟨7, 9⟩).num = (diag_step 0 0 ⟨7, 9⟩).num ∧
    (offdiag_step 0 0 0 0 ⟨7, 9⟩).ibscnt = ((diag_step 0 0 ⟨7, 9⟩).ibscnt + 64) % 2 ^ 32 ∧
    (offdiag_step 0 0 0 0 ⟨0, 0⟩).ibscnt = (diag_step 0 0 ⟨0, 0⟩).ibscnt + 64) :=
  have h : ∀ k, k < 64 → validBit (Nat.testBit 0 k) (Nat.testBit 0 k) = true :=
    fun k _ => by simp [validBit]
  ⟨h, offdiag_self_vs_diag 0 0 ⟨7, 9⟩ h⟩

theorem Run_nBlock_eq (cache nSamp : Nat) :
    Run_nBlock cache nSamp = specBlock (4 * cache % 2 ^ 64) nSamp ∧
    Run_nBlock cache nSamp % 128 = 0 ∧ 256 ≤ Run_nBlock cache nSamp ∧
    Run_nBlock cache nSamp ≤ 65536 := by
  unfold Run_nBlock specBlock
  generalize 4 * cache % 2 ^ 64 / nSamp = q
  simp only
  split <;> split <;> omega

theorem thread_ibs_num_nBlock (MatIdx : Nat → IdMatTri) (MatCnt : Nat → Int)
    (self : CIndivBeta) (i n : Nat) :
    (thread_ibs_num MatIdx MatCnt self i n).nBlock = self.nBlock ∧
    (thread_ibs_num MatIdx MatCnt self i n).Geno1b = self.Geno1b := ⟨rfl, rfl⟩

theorem BatchWork_nBlock (MatIdx : Nat → IdMatTri) (MatCnt : Nat → Int)
    (self : CIndivBeta) (n : Nat) :
    (BatchWork (thread_ibs_num MatIdx MatCnt) self n).nBlock = self.nBlock ∧
    (BatchWork (thread_ibs_num MatIdx MatCnt) self n).Geno1b = self.Geno1b := by
  unfold BatchWork
  generalize List.range n = l
  induction l generalizing self with
  | nil => exact ⟨rfl, rfl⟩
  | cons i l ih =>
    rw [List.foldl_cons]
    exact ih _

theorem Run_loop_nBlock (MatIdx : Nat → IdMatTri) (MatCnt : Nat → Int)
    (nSamp nPack NumThread : Nat) (reads : List (Nat × (Nat → Nat))) (self : CIndivBeta) :
    (Run_loop MatIdx MatCnt nSamp nPack NumThread reads self).nBlock = self.nBlock := by
  induction reads generalizing self with
  | nil => rfl
  | cons r rest ih =>
    obtain ⟨Count, Geno⟩ := r
    rw [Run_loop, ih, (BatchWork_nBlock _ _ _ _).1]

/-- C10: for at least one sample, `Run` works with the block size obtained from the
budget `4 * GetOptimzedCache()` (a 64-bit product) by integer division by `nSamp`, rounding
down to a multiple of 128 and clamping to the interval from 256 to 65536; it is a multiple
of 128 between 256 and 65536. -/
theorem Run_block_size (cache nSamp : Nat)
    (Array_SplitJobs : Int → Nat → (Nat → IdMatTri) × (Nat → Int))
    (reads : List (Nat × (Nat → Nat))) (Geno1b : Nat → Nat)
    (IBS : Nat → TS_Beta) (NumThread : Int) (hn : 1 ≤ nSamp) :
    ∃ Work, Run cache nSamp Array_SplitJobs reads Geno1b IBS NumThread = some Work ∧
      Work.nBlock = Run_nBlock cache nSamp ∧
      Work.nBlock = specBlock (4 * cache % 2 ^ 64) nSamp ∧
      (cache < 2 ^ 62 → Work.nBlock = specBlock (4 * cache) nSamp) ∧
      Work.nBlock % 128 = 0 ∧ 256 ≤ Work.nBlock ∧ Work.nBlock ≤ 65536 := by
  have hn0 : nSamp ≠ 0 := by omega
  obtain ⟨e1, e2, e3, e4⟩ := Run_nBlock_eq cache nSamp
  unfold Run
  rw [if_neg hn0]
  refine ⟨_, rfl, ?_⟩
  rw [Run_loop_nBlock]
  refine ⟨rfl, e1, ?_, e2, e3, e4⟩
  intro hc
  show Run_nBlock cache nSamp = _
  rw [e1, Nat.mod_eq_of_lt (by omega)]

theorem Run_block_size_witness :
    1 ≤ 1000 ∧ ∃ Work, Run 262144 1000 singleJob [] (fun _ => 0) (fun _ => ⟨0, 0⟩) 4 = some Work ∧
      Work.nBlock = Run_nBlock 262144 1000 ∧
      Work.nBlock = specBlock (4 * 262144 % 2 ^ 64) 1000 ∧
      (262144 < 2 ^ 62 → Work.nBlock = specBlock (4 * 262144) 1000) ∧
      Work.nBlock % 128 = 0 ∧ 256 ≤ Work.nBlock ∧ Work.nBlock ≤ 65536 :=
  ⟨by decide, Run_block_size 262144 1000 singleJob [] (fun _ => 0) (fun _ => ⟨0, 0⟩) 4 (by decide)⟩

/-! ## Job ranges -/

theorem ofOffset_fOffset (n : Nat) : ∀ k, (IdMatTri.ofOffset n k).fOffset = k := by
  intro k
  induction k with
  | zero => rfl
  | succ k ih =>
    rw [IdMatTri.ofOffset, IdMatTri.next]
    split <;> simp [ih]

theorem ofOffset_fN (n : Nat) : ∀ k, (IdMatTri.ofOffset n k).fN = n := by
  intro k
  induction k with
  | zero => rfl
  | succ k ih =>
    rw [IdMatTri.ofOffset, IdMatTri.next]
    split <;> simp [ih]

theorem ofOffset_inv (n : Nat) : ∀ k, k < triStart n n →
    (IdMatTri.ofOffset n k).fRow ≤ (IdMatTri.ofOffset n k).fColumn ∧
    (IdMatTri.ofOffset n k).fColumn < n ∧
    k = triStart n (IdMatTri.ofOffset n k).fRow +
      ((IdMatTri.ofOffset n k).fColumn - (IdMatTri.ofOffset n k).fRow) := by
  intro k
  induction k with
  | zero =>
    intro h
    have hn : 0 < n := by
      rcases Nat.eq_zero_or_pos n with h0 | h0
      · subst h0; simp [triStart] at h
      · exact h0
    exact ⟨le_refl _, hn, by simp [IdMatTri.ofOffset, triStart]⟩
  | succ k ih =>
    intro h
    obtain ⟨h1, h2, h3⟩ := ih (by omega)
    have hN := ofOffset_fN n k
    rw [IdMatTri.ofOffset, IdMatTri.next]
    split
    · next hc =>
      rw [hN] at hc
      refine ⟨by simp; omega, by simpa using hc, ?_⟩
      simp only
      omega
    · next hc =>
      rw [hN] at hc
      have hcn : (IdMatTri.ofOffset n k).fColumn + 1 = n := by omega
      have hk1 : k + 1 = triStart n ((IdMatTri.ofOffset n k).fRow + 1) := by
        rw [triStart]; omega
      have hr : (IdMatTri.ofOffset n k).fRow + 1 < n := by
        by_contra hge
        have : (IdMatTri.ofOffset n k).fRow + 1 = n := by omega
        rw [this] at hk1
        omega
      refine ⟨le_refl _, hr, ?_⟩
      simp only
      omega

theorem pair_loop_apply (mem : Nat → Nat) (nBlock n : Nat) :
    ∀ (N s p : Nat) (beta : Nat → TS_Beta) (o : Nat),
      pair_loop mem nBlock N (IdMatTri.ofOffset n s) p beta o =
        if p ≤ o ∧ o < p + N then kernelAt mem nBlock n (s + (o - p)) (beta o) else beta o := by
  intro N
  induction N with
  | zero =>
    intro s p beta o
    rw [pair_loop, if_neg (by omega)]
  | succ N ih =>
    intro s p beta o
    rw [pair_loop, show (IdMatTri.ofOffset n s).next = IdMatTri.ofOffset n (s + 1) from rfl, ih]
    by_cases h1 : p + 1 ≤ o ∧ o < p + 1 + N
    · have hop : ¬ o = p := by omega
      rw [if_pos h1, if_neg hop, if_pos (by omega),
        show s + 1 + (o - (p + 1)) = s + (o - p) by omega]
    · rw [if_neg h1]
      by_cases h2 : o = p
      · subst h2
        rw [if_pos rfl, if_pos (by omega), Nat.sub_self, Nat.add_zero]
        rfl
      · rw [if_neg h2, if_neg (by omega)]

theorem thread_ibs_num_apply (n : Nat) (rs : List (Nat × Nat)) (self : CIndivBeta)
    (i m o : Nat) :
    (thread_ibs_num (tablesOf n rs).1 (tablesOf n rs).2 self i m).ptrBeta o =
      if covers (rs.getD i (0, 0)) o = true then
        kernelAt self.Geno1b self.nBlock n o (self.ptrBeta o)
      else self.ptrBeta o := by
  unfold thread_ibs_num tablesOf
  simp only [Int.toNat_ofNat, ofOffset_fOffset]
  rw [pair_loop_apply]
  by_cases h : (rs.getD i (0, 0)).1 ≤ o ∧ o < (rs.getD i (0, 0)).1 + (rs.getD i (0, 0)).2
  · rw [if_pos h, if_pos (by simp only [covers, decide_eq_true_eq]; exact h),
      show (rs.getD i (0, 0)).1 + (o - (rs.getD i (0, 0)).1) = o by omega]
  · rw [if_neg h, if_neg (by simp only [covers, decide_eq_true_eq]; exact h)]

theorem foldl_thread_apply (n : Nat) (rs : List (Nat × Nat)) (m : Nat) :
    ∀ (l : List Nat) (self : CIndivBeta) (o : Nat),
      (l.foldl (fun s i => thread_ibs_num (tablesOf n rs).1 (tablesOf n rs).2 s i m) self).ptrBeta o =
        (kernelAt self.Geno1b self.nBlock n o)^[hits rs l o] (self.ptrBeta o) ∧
      (l.foldl (fun s i => thread_ibs_num (tablesOf n rs).1 (tablesOf n rs).2 s i m) self).Geno1b =
        self.Geno1b ∧
      (l.foldl (fun s i => thread_ibs_num (tablesOf n rs).1 (tablesOf n rs).2 s i m) self).nBlock =
        self.nBlock := by
  intro l
  induction l with
  | nil => intro self o; exact ⟨rfl, rfl, rfl⟩
  | cons i l ih =>
    intro self o
    rw [List.foldl_cons]
    obtain ⟨h1, h2, h3⟩ := ih (thread_ibs_num (tablesOf n rs).1 (tablesOf n rs).2 self i m) o
    refine ⟨?_, h2, h3⟩
    rw [h1, thread_ibs_num_apply]
    show (kernelAt self.Geno1b self.nBlock n o)^[_] _ = _
    unfold hits
    rw [List.filter_cons]
    by_cases hc : covers (rs.getD i (0, 0)) o = true
    · rw [if_pos hc, if_pos hc, List.length_cons, Function.iterate_succ_apply]
    · rw [if_neg hc, if_neg hc]

theorem BatchWork_apply (n : Nat) (rs : List (Nat × Nat)) (self : CIndivBeta) (m o : Nat) :
    (BatchWork (thread_ibs_num (tablesOf n rs).1 (tablesOf n rs).2) self m).ptrBeta o =
      (kernelAt self.Geno1b self.nBlock n o)^[hits rs (List.range m) o] (self.ptrBeta o) :=
  (foldl_thread_apply n rs m (List.range m) self o).1

theorem hits_range (rs : List (Nat × Nat)) (o : Nat) :
    hits rs (List.range rs.length) o = coverCount rs o := by
  unfold hits coverCount
  have hmap : (List.range rs.length).map (fun i => rs.getD i (0, 0)) = rs := by
    apply List.ext_getElem
    · simp
    · intro i h1 h2
      simp [List.getD_eq_getElem, h2]
  have : ((List.range rs.length).filter (fun i => covers (rs.getD i (0, 0)) o)).length =
      (((List.range rs.length).map (fun i => rs.getD i (0, 0))).filter
        (fun r => covers r o)).length := by
    rw [List.filter_map, List.length_map]
    rfl
  rw [this, hmap]

theorem coverCount_whole (T o : Nat) : coverCount [(0, T)] o = if o < T then 1 else 0 := by
  unfold coverCount
  rw [List.filter_cons]
  by_cases h : o < T
  · rw [if_pos h, if_pos (by simp [covers, h])]; rfl
  · rw [if_neg h, if_neg (by simp [covers, h])]; rfl

/-- C6: for every `N`, packed block and counter array, running `thread_ibs_num` once per
range of a list that splits the offsets below `N (N + 1) / 2` into disjoint ranges (the
list in any order) leaves every counter as one run over the whole range does; two such
lists therefore leave the same counters. -/
theorem thread_partition_invariant (N : Nat) (self : CIndivBeta) (rs1 rs2 : List (Nat × Nat))
    (h1 : IsPartition (N * (N + 1) / 2) rs1) (h2 : IsPartition (N * (N + 1) / 2) rs2) :
    (∀ o, (BatchWork (thread_ibs_num (tablesOf N rs1).1 (tablesOf N rs1).2)
        self rs1.length).ptrBeta o =
      (thread_ibs_num (tablesOf N [(0, N * (N + 1) / 2)]).1
        (tablesOf N [(0, N * (N + 1) / 2)]).2 self 0 1).ptrBeta o) ∧
    (∀ o, (BatchWork (thread_ibs_num (tablesOf N rs2).1 (tablesOf N rs2).2)
        self rs2.length).ptrBeta o =
      (BatchWork (thread_ibs_num (tablesOf N rs1).1 (tablesOf N rs1).2)
        self rs1.length).ptrBeta o) := by
  have key : ∀ rs, IsPartition (N * (N + 1) / 2) rs → ∀ o,
      (BatchWork (thread_ibs_num (tablesOf N rs).1 (tablesOf N rs).2) self rs.length).ptrBeta o =
        if o < N * (N + 1) / 2 then kernelAt self.Geno1b self.nBlock N o (self.ptrBeta o)
        else self.ptrBeta o := by
    intro rs hrs o
    rw [BatchWork_apply, hits_range, hrs o]
    split <;> rfl
  have whole : ∀ o, (thread_ibs_num (tablesOf N [(0, N * (N + 1) / 2)]).1
        (tablesOf N [(0, N * (N + 1) / 2)]).2 self 0 1).ptrBeta o =
        if o < N * (N + 1) / 2 then kernelAt self.Geno1b self.nBlock N o (self.ptrBeta o)
        else self.ptrBeta o := by
    intro o
    rw [thread_ibs_num_apply]
    by_cases h : o < N * (N + 1) / 2
    · rw [if_pos h, if_pos (by simp [covers, h])]
    · rw [if_neg h, if_neg (by simp [covers, h])]
  exact ⟨fun o => by rw [key rs1 h1 o, whole o], fun o => by rw [key rs2 h2 o, key rs1 h1 o]⟩

theorem partition_example_1 : IsPartition (2 * (2 + 1) / 2) [(0, 1), (1, 2)] := by
  intro o
  rcases o with _ | _ | _ | o
  · decide
  · decide
  · decide
  · have e1 : covers (0, 1) (o + 3) = false := by simp [covers]
    have e2 : covers (1, 2) (o + 3) = false := by simp [covers]
    have h3 : ¬ (o + 3 < 2 * (2 + 1) / 2) := by omega
    rw [if_neg h3]
    simp [coverCount, List.filter_cons, e1, e2]

theorem partition_example_2 : IsPartition (2 * (2 + 1) / 2) [(2, 1), (0, 2)] := by
  intro o
  rcases o with _ | _ | _ | o
  · decide
  · decide
  · decide
  · have e1 : covers (2, 1) (o + 3) = false := by simp [covers]
    have e2 : covers (0, 2) (o + 3) = false := by simp [covers]
    have h3 : ¬ (o + 3 < 2 * (2 + 1) / 2) := by omega
    rw [if_neg h3]
    simp [coverCount, List.filter_cons, e1, e2]

theorem thread_partition_invariant_witness :
    IsPartition (2 * (2 + 1) / 2) [(0, 1), (1, 2)] ∧
    IsPartition (2 * (2 + 1) / 2) [(2, 1), (0, 2)] ∧
    ((∀ o, (BatchWork (thread_ibs_num (tablesOf 2 [(0, 1), (1, 2)]).1
        (tablesOf 2 [(0, 1), (1, 2)]).2) smallWork [(0, 1), (1, 2)].length).ptrBeta o =
      (thread_ibs_num (tablesOf 2 [(0, 2 * (2 + 1) / 2)]).1
        (tablesOf 2 [(0, 2 * (2 + 1) / 2)]).2 smallWork 0 1).ptrBeta o) ∧
    (∀ o, (BatchWork (thread_ibs_num (tablesOf 2 [(2, 1), (0, 2)]).1
        (tablesOf 2 [(2, 1), (0, 2)]).2) smallWork [(2, 1), (0, 2)].length).ptrBeta o =
      (BatchWork (thread_ibs_num (tablesOf 2 [(0, 1), (1, 2)]).1
        (tablesOf 2 [(0, 1), (1, 2)]).2) smallWork [(0, 1), (1, 2)].length).ptrBeta o)) :=
  ⟨partition_example_1, partition_example_2,
    thread_partition_invariant 2 smallWork [(0, 1), (1, 2)] [(2, 1), (0, 2)]
      partition_example_1 partition_example_2⟩

/-! ## Packing and blocks -/

theorem testBit_packBits (f : Nat → Bool) :
    ∀ (n start b : Nat), (packBits f start n).testBit b = (decide (b < n) && f (start + b)) := by
  intro n
  induction n with
  | zero => intro start b; simp [packBits]
  | succ n ih =>
    intro start b
    have hlt : (f start).toNat < 2 ^ 1 := by cases f start <;> decide
    have h := Nat.testBit_mul_pow_two_add (packBits f (start + 1) n) hlt b
    rw [packBits, Nat.add_comm, show (2 : Nat) = 2 ^ 1 from rfl, h]
    by_cases hb : b < 1
    · have : b = 0 := by omega
      subst this
      rw [if_pos hb]
      cases hv : f start <;> simp [hv]
    · rw [if_neg hb, ih]
      rw [show start + 1 + (b - 1) = start + b by omega]
      congr 1
      simp only [decide_eq_decide]
      omega

theorem PackSNPGeno1b_apply (mem : Nat → Nat) (p1 p2 : Nat) (geno : Nat → Nat)
    (pG n offset n_total a : Nat) :
    PackSNPGeno1b mem p1 p2 geno pG n offset n_total a =
      if p1 ≤ a ∧ a < p1 + n_total / 8 then
        packBits (fun k => planeA (genoAt geno n offset pG k)) (8 * (a - p1)) 8
      else if p2 ≤ a ∧ a < p2 + n_total / 8 then
        packBits (fun k => planeB (genoAt geno n offset pG k)) (8 * (a - p2)) 8
      else mem a := rfl

theorem pack_loop_spec (Geno : Nat → Nat) (Count nSamp nBlock : Nat) :
    ∀ (m pB pG : Nat) (mem : Nat → Nat),
      (∀ a, a < pB → pack_loop Geno Count nSamp nBlock (nBlock / 8) m pB pG mem a = mem a) ∧
      (∀ s j, s < m → j < nBlock / 8 →
        pack_loop Geno Count nSamp nBlock (nBlock / 8) m pB pG mem
            (pB + s * (nBlock / 8 * 2) + j) =
          packBits (fun k => planeA (genoAt Geno Count nSamp (pG + s) k)) (8 * j) 8 ∧
        pack_loop Geno Count nSamp nBlock (nBlock / 8) m pB pG mem
            (pB + s * (nBlock / 8 * 2) + nBlock / 8 + j) =
          packBits (fun k => planeB (genoAt Geno Count nSamp (pG + s) k)) (8 * j) 8) := by
  intro m
  induction m with
  | zero =>
    intro pB pG mem
    exact ⟨fun a _ => rfl, fun s j hs _ => absurd hs (Nat.not_lt_zero _)⟩
  | succ m ih =>
    intro pB pG mem
    obtain ⟨i1, i2⟩ := ih (pB + (nBlock / 8) <<< 1) (pG + 1)
      (PackSNPGeno1b mem pB (pB + nBlock / 8) Geno pG Count nSamp nBlock)
    have hsh : (nBlock / 8) <<< 1 = nBlock / 8 * 2 := by
      rw [Nat.shiftLeft_eq]
    rw [hsh] at i1 i2
    constructor
    · intro a ha
      rw [pack_loop, hsh, i1 a (by omega), PackSNPGeno1b_apply, if_neg (by omega),
        if_neg (by omega)]
    · intro s j hs hj
      rw [pack_loop, hsh]
      rcases s with _ | s
      · simp only [Nat.zero_mul, Nat.add_zero]
        rw [i1 _ (by omega), i1 _ (by omega), PackSNPGeno1b_apply, PackSNPGeno1b_apply,
          if_pos ⟨by omega, by omega⟩, if_neg (by omega), if_pos ⟨by omega, by omega⟩]
        rw [show pB + j - pB = j by omega, show pB + nBlock / 8 + j - (pB + nBlock / 8) = j by omega]
        exact ⟨rfl, rfl⟩
      · have e1 : pB + (s + 1) * (nBlock / 8 * 2) + j =
            pB + nBlock / 8 * 2 + s * (nBlock / 8 * 2) + j := by ring
        have e2 : pB + (s + 1) * (nBlock / 8 * 2) + nBlock / 8 + j =
            pB + nBlock / 8 * 2 + s * (nBlock / 8 * 2) + nBlock / 8 + j := by ring
        rw [e1, e2, show pG + (s + 1) = pG + 1 + s by omega]
        exact i2 s j (by omega) hj

theorem packed_bits (Geno : Nat → Nat) (Count nSamp nBlock : Nat) (mem : Nat → Nat)
    (h8 : nBlock % 8 = 0) (s k : Nat) (hs : s < nSamp) (hk : k < nBlock) :
    bitA (pack_loop Geno Count nSamp nBlock (nBlock / 8) nSamp 0 0 mem) nBlock s k =
      planeA (genoAt Geno Count nSamp s k) ∧
    bitB (pack_loop Geno Count nSamp nBlock (nBlock / 8) nSamp 0 0 mem) nBlock s k =
      planeB (genoAt Geno Count nSamp s k) := by
  obtain ⟨-, h2⟩ := pack_loop_spec Geno Count nSamp nBlock nSamp 0 0 mem
  obtain ⟨hA, hB⟩ := h2 s (k / 8) hs (by omega)
  have hsh : nBlock >>> 3 = nBlock / 8 := by rw [Nat.shiftRight_eq_div_pow]
  simp only [Nat.zero_add] at hA hB
  unfold bitA bitB memBit
  rw [hsh, hA, hB, testBit_packBits, testBit_packBits]
  have h1 : k % 8 < 8 := Nat.mod_lt _ (by decide)
  have h2 : 8 * (k / 8) + k % 8 = k := Nat.div_add_mod k 8
  simp [h1, h2]

theorem genoAt_readsOf (nSamp : Nat) (ch : List (Nat → Nat)) (s k : Nat) (hs : s < nSamp) :
    genoAt (fun a => (ch.getD (a / nSamp) (fun _ => 3)) (a % nSamp)) ch.length nSamp s k =
      (ch.getD k (fun _ => 3)) s := by
  unfold genoAt
  by_cases hk : k < ch.length
  · rw [if_pos hk]
    have h1 : (s + k * nSamp) / nSamp = k := by
      rw [Nat.add_mul_div_right _ _ (by omega), Nat.div_eq_of_lt hs, Nat.zero_add]
    have h2 : (s + k * nSamp) % nSamp = s := by
      rw [Nat.add_mul_mod_self_right, Nat.mod_eq_of_lt hs]
    simp only [h1, h2]
  · rw [if_neg hk, List.getD_eq_default _ _ (by omega)]

theorem sum_range_getD {α : Type} (G : α → Nat) (d : α) :
    ∀ l : List α, ∑ k ∈ Finset.range l.length, G (l.getD k d) = (l.map G).sum := by
  intro l
  induction l with
  | nil => simp
  | cons a l ih =>
    rw [List.length_cons, Finset.sum_range_succ', List.map_cons, List.sum_cons]
    simp only [List.getD_cons_succ, List.getD_cons_zero]
    rw [ih, Nat.add_comm]

theorem sum_range_pad {α : Type} (G : α → Nat) (d : α) (hd : G d = 0) (l : List α) (n : Nat)
    (hn : l.length ≤ n) : ∑ k ∈ Finset.range n, G (l.getD k d) = (l.map G).sum := by
  obtain ⟨e, rfl⟩ : ∃ e, n = l.length + e := ⟨n - l.length, by omega⟩
  rw [Finset.sum_range_add, sum_range_getD]
  have : ∑ x ∈ Finset.range e, G (l.getD (l.length + x) d) = 0 := by
    apply Finset.sum_eq_zero
    intro x _
    rw [List.getD_eq_default _ _ (by omega), hd]
  rw [this, Nat.add_zero]

theorem packed_sum (nSamp nBlock : Nat) (ch : List (Nat → Nat)) (mem : Nat → Nat)
    (h8 : nBlock % 8 = 0) (hlen : ch.length ≤ nBlock) (r c : Nat) (hr : r < nSamp)
    (hc : c < nSamp) (H : Bool → Bool → Bool → Bool → Nat)
    (h0 : H (planeA 3) (planeB 3) (planeA 3) (planeB 3) = 0) :
    ∑ k ∈ Finset.range nBlock,
      H (bitA (pack_loop (fun a => (ch.getD (a / nSamp) (fun _ => 3)) (a % nSamp)) ch.length
            nSamp nBlock (nBlock / 8) nSamp 0 0 mem) nBlock r k)
        (bitB (pack_loop (fun a => (ch.getD (a / nSamp) (fun _ => 3)) (a % nSamp)) ch.length
            nSamp nBlock (nBlock / 8) nSamp 0 0 mem) nBlock r k)
        (bitA (pack_loop (fun a => (ch.getD (a / nSamp) (fun _ => 3)) (a % nSamp)) ch.length
            nSamp nBlock (nBlock / 8) nSamp 0 0 mem) nBlock c k)
        (bitB (pack_loop (fun a => (ch.getD (a / nSamp) (fun _ => 3)) (a % nSamp)) ch.length
            nSamp nBlock (nBlock / 8) nSamp 0 0 mem) nBlock c k) =
      (ch.map (fun l => H (planeA (l r)) (planeB (l r)) (planeA (l c)) (planeB (l c)))).sum := by
  rw [← sum_range_pad (fun l => H (planeA (l r)) (planeB (l r)) (planeA (l c)) (planeB (l c)))
    (fun _ => 3) h0 ch nBlock hlen]
  refine Finset.sum_congr rfl fun k hk => ?_
  have hk' : k < nBlock := Finset.mem_range.mp hk
  obtain ⟨a1, b1⟩ := packed_bits (fun a => (ch.getD (a / nSamp) (fun _ => 3)) (a % nSamp))
    ch.length nSamp nBlock mem h8 r k hr hk'
  obtain ⟨a2, b2⟩ := packed_bits (fun a => (ch.getD (a / nSamp) (fun _ => 3)) (a % nSamp))
    ch.length nSamp nBlock mem h8 c k hc hk'
  rw [a1, b1, a2, b2, genoAt_readsOf nSamp ch r k hr, genoAt_readsOf nSamp ch c k hc]

theorem kernelAt_packed (nSamp nBlock : Nat) (ch : List (Nat → Nat)) (mem : Nat → Nat)
    (h64 : nBlock % 64 = 0) (hpos : 0 < nBlock) (hlen : ch.length ≤ nBlock)
    (o : Nat) (ho : o < triStart nSamp nSamp) (x : TS_Beta) :
    kernelAt (pack_loop (fun a => (ch.getD (a / nSamp) (fun _ => 3)) (a % nSamp)) ch.length
        nSamp nBlock (nBlock / 8) nSamp 0 0 mem) nBlock nSamp o x =
      acc x
        (ch.map (locusIbs (IdMatTri.ofOffset nSamp o).fRow (IdMatTri.ofOffset nSamp o).fColumn)).sum
        (ch.map (locusNum (IdMatTri.ofOffset nSamp o).fRow
          (IdMatTri.ofOffset nSamp o).fColumn)).sum := by
  obtain ⟨hrc, hc, -⟩ := ofOffset_inv nSamp o ho
  unfold kernelAt
  generalize (IdMatTri.ofOffset nSamp o).fRow = r at hrc ⊢
  generalize (IdMatTri.ofOffset nSamp o).fColumn = c at hrc hc ⊢
  have h8 : nBlock % 8 = 0 := by omega
  have hr : r < nSamp := by omega
  have d1 := packed_sum nSamp nBlock ch mem h8 hlen r r hr hr
    (fun a b _ _ => diagScore a b) (by decide)
  have d2 := packed_sum nSamp nBlock ch mem h8 hlen r r hr hr
    (fun a b _ _ => diagValid a b) (by decide)
  have e1 := packed_sum nSamp nBlock ch mem h8 hlen r c hr hc offScore (by decide)
  have e2 := packed_sum nSamp nBlock ch mem h8 hlen r c hr hc offValid (by decide)
  simp only at d1 d2
  generalize pack_loop (fun a => (ch.getD (a / nSamp) (fun _ => 3)) (a % nSamp)) ch.length
    nSamp nBlock (nBlock / 8) nSamp 0 0 mem = R at d1 d2 e1 e2 ⊢
  by_cases hEq : r = c
  · subst hEq
    have f1 : locusIbs r r = fun l => diagScore (planeA (l r)) (planeB (l r)) := by
      funext l; simp only [locusIbs, if_pos]
    have f2 : locusNum r r = fun l => diagValid (planeA (l r)) (planeB (l r)) := by
      funext l; simp only [locusNum, if_pos]
    rw [pair_kernel_diag R nBlock r x h64 hpos, d1, d2, f1, f2, acc]
  · have f1 : locusIbs r c =
        fun l => offScore (planeA (l r)) (planeB (l r)) (planeA (l c)) (planeB (l c)) := by
      funext l; simp only [locusIbs, if_neg hEq]
    have f2 : locusNum r c =
        fun l => offValid (planeA (l r)) (planeB (l r)) (planeA (l c)) (planeB (l c)) := by
      funext l; simp only [locusNum, if_neg hEq]
    rw [pair_kernel_offdiag R nBlock r c x h64 hpos hEq, e1, e2, f1, f2, acc]

theorem acc_acc (y : TS_Beta) (a b s v : Nat) : acc (acc y a b) s v = acc y (a + s) (b + v) := by
  simp only [acc, add_mod_mod32]

theorem iterate_acc (s v : Nat) (y : TS_Beta) (a b : Nat) :
    ∀ c : Nat, (fun x => acc x s v)^[c] (acc y a b) = acc y (a + c * s) (b + c * v) := by
  intro c
  induction c with
  | zero => simp
  | succ c ih =>
    rw [Function.iterate_succ_apply', ih, acc_acc]
    congr 1 <;> ring

theorem hits_outside (rs : List (Nat × Nat)) (T : Nat) (hrs : ∀ r ∈ rs, r.1 + r.2 ≤ T)
    (l : List Nat) (o : Nat) (ho : ¬ o < T) : hits rs l o = 0 := by
  unfold hits
  rw [List.length_eq_zero, List.filter_eq_nil_iff]
  intro i _
  have : covers (rs.getD i (0, 0)) o = false := by
    unfold covers
    rw [decide_eq_false_iff_not]
    rintro ⟨_, h2⟩
    by_cases hi : i < rs.length
    · have hmem : rs.getD i (0, 0) ∈ rs := by
        rw [List.getD_eq_getElem _ _ hi]
        exact List.getElem_mem hi
      have := hrs _ hmem
      omega
    · rw [List.getD_eq_default _ _ (by omega)] at h2
      simp at h2
  show ¬ (covers (rs.getD i (0, 0)) o = true)
  rw [this]
  decide

theorem Run_loop_untouched (nSamp nPack NT : Nat) (rs : List (Nat × Nat)) (o : Nat)
    (h0 : hits rs (List.range NT) o = 0) :
    ∀ (reads : List (Nat × (Nat → Nat))) (self : CIndivBeta),
      (Run_loop (tablesOf nSamp rs).1 (tablesOf nSamp rs).2 nSamp nPack NT reads self).ptrBeta o =
        self.ptrBeta o := by
  intro reads
  induction reads with
  | nil => intro self; rfl
  | cons r rest ih =>
    intro self
    obtain ⟨Count, Geno⟩ := r
    rw [Run_loop, ih, BatchWork_apply, h0]
    rfl

theorem Run_loop_counter (nSamp : Nat) (rs : List (Nat × Nat)) (NT nBlock : Nat)
    (h64 : nBlock % 64 = 0) (hpos : 0 < nBlock) (o : Nat) (ho : o < triStart nSamp nSamp) :
    ∀ (chunks : List (List (Nat → Nat))), (∀ ch ∈ chunks, ch.length ≤ nBlock) →
      ∀ (self : CIndivBeta) (a b : Nat), self.nBlock = nBlock →
        self.ptrBeta o = acc ⟨0, 0⟩ a b →
        (Run_loop (tablesOf nSamp rs).1 (tablesOf nSamp rs).2 nSamp (nBlock / 8) NT
          (readsOf nSamp chunks) self).ptrBeta o =
        acc ⟨0, 0⟩
          (a + hits rs (List.range NT) o * (chunks.flatten.map
            (locusIbs (IdMatTri.ofOffset nSamp o).fRow (IdMatTri.ofOffset nSamp o).fColumn)).sum)
          (b + hits rs (List.range NT) o * (chunks.flatten.map
            (locusNum (IdMatTri.ofOffset nSamp o).fRow (IdMatTri.ofOffset nSamp o).fColumn)).sum) := by
  intro chunks
  induction chunks with
  | nil =>
    intro _ self a b _ hp
    simp only [readsOf, List.map_nil, Run_loop, List.flatten_nil, List.sum_nil, Nat.mul_zero,
      Nat.add_zero]
    exact hp
  | cons ch rest ih =>
    intro hlen self a b hnb hp
    have hch : ch.length ≤ nBlock := hlen ch (List.mem_cons_self _ _)
    have hrest : ∀ c ∈ rest, c.length ≤ nBlock := fun c hc => hlen c (List.mem_cons_of_mem _ hc)
    have hreads : readsOf nSamp (ch :: rest) =
        (ch.length, fun a => (ch.getD (a / nSamp) (fun _ => 3)) (a % nSamp)) ::
          readsOf nSamp rest := rfl
    rw [hreads, Run_loop]
    have hK : kernelAt (pack_loop (fun a => (ch.getD (a / nSamp) (fun _ => 3)) (a % nSamp))
        ch.length nSamp self.nBlock (nBlock / 8) nSamp 0 0 self.Geno1b) self.nBlock nSamp o =
        fun x => acc x
          (ch.map (locusIbs (IdMatTri.ofOffset nSamp o).fRow
            (IdMatTri.ofOffset nSamp o).fColumn)).sum
          (ch.map (locusNum (IdMatTri.ofOffset nSamp o).fRow
            (IdMatTri.ofOffset nSamp o).fColumn)).sum := by
      funext x
      rw [hnb]
      exact kernelAt_packed nSamp nBlock ch self.Geno1b h64 hpos hch o ho x
    have hstep := BatchWork_apply nSamp rs
      ⟨self.nBlock, pack_loop (fun a => (ch.getD (a / nSamp) (fun _ => 3)) (a % nSamp))
          ch.length nSamp self.nBlock (nBlock / 8) nSamp 0 0 self.Geno1b, self.ptrBeta⟩ NT o
    simp only at hstep
    rw [hK, hp, iterate_acc] at hstep
    have hnb1 := (BatchWork_nBlock (tablesOf nSamp rs).1 (tablesOf nSamp rs).2
      ⟨self.nBlock, pack_loop (fun a => (ch.getD (a / nSamp) (fun _ => 3)) (a % nSamp))
          ch.length nSamp self.nBlock (nBlock / 8) nSamp 0 0 self.Geno1b, self.ptrBeta⟩ NT).1
    simp only at hnb1
    rw [ih hrest _ _ _ (hnb1.trans hnb) hstep, List.flatten_cons, List.map_append, List.sum_append,
      List.map_append, List.sum_append]
    congr 1 <;> ring

/-- C7: for at least one sample and job ranges inside the triangle, `Run` leaves the same
counter for every pair whether the genotype source delivers the loci in the chunks
`chunks` (blocks of `Run_nBlock cache nSamp` loci) or in the chunks `chunks'` (blocks of
`Run_nBlock cache' nSamp` loci), as long as the chunks hold the same loci in the same
order and fit in a block; one chunk against several is the case `chunks = [loci]`. -/
theorem Run_block_invariant (cache cache' nSamp : Nat) (rs : List (Nat × Nat))
    (chunks chunks' : List (List (Nat → Nat))) (Geno1b Geno1b' : Nat → Nat)
    (IBS : Nat → TS_Beta) (NumThread : Int) (hn : 1 ≤ nSamp)
    (hrs : ∀ r ∈ rs, r.1 + r.2 ≤ nSamp * (nSamp + 1) / 2)
    (hlen : ∀ ch ∈ chunks, ch.length ≤ Run_nBlock cache nSamp)
    (hlen' : ∀ ch ∈ chunks', ch.length ≤ Run_nBlock cache' nSamp)
    (hsame : chunks.flatten = chunks'.flatten) :
    ∃ W W',
      Run cache nSamp (fun _ _ => tablesOf nSamp rs) (readsOf nSamp chunks) Geno1b IBS
        NumThread = some W ∧
      Run cache' nSamp (fun _ _ => tablesOf nSamp rs) (readsOf nSamp chunks') Geno1b' IBS
        NumThread = some W' ∧
      ∀ o, W.ptrBeta o = W'.ptrBeta o := by
  have hn0 : nSamp ≠ 0 := by omega
  obtain ⟨-, e2, e3, -⟩ := Run_nBlock_eq cache nSamp
  obtain ⟨-, e2', e3', -⟩ := Run_nBlock_eq cache' nSamp
  unfold Run
  rw [if_neg hn0, if_neg hn0]
  refine ⟨_, _, rfl, rfl, ?_⟩
  intro o
  simp only
  by_cases ho : o < nSamp * (nSamp + 1) / 2
  · have ho' : o < triStart nSamp nSamp := by rw [triStart_self]; exact ho
    rw [Run_loop_counter nSamp rs _ (Run_nBlock cache nSamp) (by omega) (by omega) o ho' chunks
        hlen _ 0 0 rfl (by simp only [if_pos ho]; rfl),
      Run_loop_counter nSamp rs _ (Run_nBlock cache' nSamp) (by omega) (by omega) o ho' chunks'
        hlen' _ 0 0 rfl (by simp only [if_pos ho]; rfl), hsame]
  · rw [Run_loop_untouched nSamp _ _ rs o (hits_outside rs _ hrs _ o ho),
      Run_loop_untouched nSamp _ _ rs o (hits_outside rs _ hrs _ o ho)]

theorem Run_block_invariant_witness :
    1 ≤ 2 ∧ (∀ r ∈ [((0 : Nat), (3 : Nat))], r.1 + r.2 ≤ 2 * (2 + 1) / 2) ∧
    (∀ ch ∈ [smallLoci], ch.length ≤ Run_nBlock 256 2) ∧
    (∀ ch ∈ [smallLoci.take 1, smallLoci.drop 1], ch.length ≤ Run_nBlock 0 2) ∧
    [smallLoci].flatten = [smallLoci.take 1, smallLoci.drop 1].flatten ∧
    ∃ W W',
      Run 256 2 (fun _ _ => tablesOf 2 [(0, 3)]) (readsOf 2 [smallLoci]) (fun _ => 0)
        (fun _ => ⟨0, 0⟩) 1 = some W ∧
      Run 0 2 (fun _ _ => tablesOf 2 [(0, 3)])
        (readsOf 2 [smallLoci.take 1, smallLoci.drop 1]) (fun _ => 255) (fun _ => ⟨0, 0⟩) 1 =
          some W' ∧
      ∀ o, W.ptrBeta o = W'.ptrBeta o :=
  have h1 : ∀ r ∈ [((0 : Nat), (3 : Nat))], r.1 + r.2 ≤ 2 * (2 + 1) / 2 := fun r h => by
    rw [List.mem_singleton] at h; subst h; decide
  have h2 : ∀ ch ∈ [smallLoci], ch.length ≤ Run_nBlock 256 2 := fun ch h => by
    rw [List.mem_singleton] at h; subst h; decide
  have h3 : ∀ ch ∈ [smallLoci.take 1, smallLoci.drop 1], ch.length ≤ Run_nBlock 0 2 :=
    fun ch h => by
      simp only [List.mem_cons, List.mem_singleton, List.not_mem_nil, or_false] at h
      rcases h with rfl | rfl <;> decide
  ⟨by decide, h1, h2, h3, rfl,
    Run_block_invariant 256 0 2 [(0, 3)] [smallLoci] [smallLoci.take 1, smallLoci.drop 1]
      (fun _ => 0) (fun _ => 255) (fun _ => ⟨0, 0⟩) 1 (by decide) h1 h2 h3 rfl⟩

/-! ## Counters of one invocation and of one word step -/

theorem pair_kernel_acc (mem : Nat → Nat) (nBlock r c : Nat) (p : TS_Beta)
    (h64 : nBlock % 64 = 0) (hpos : 0 < nBlock) :
    pair_kernel mem nBlock r c p = acc p (blockIbs mem nBlock r c) (blockNum mem nBlock r c) := by
  by_cases h : r = c
  · subst h
    rw [pair_kernel_diag mem nBlock r p h64 hpos]
    simp only [acc, blockIbs, blockNum, if_pos]
  · rw [pair_kernel_offdiag mem nBlock r c p h64 hpos h]
    simp only [acc, blockIbs, blockNum, if_neg h]

theorem pair_kernel_zero (mem : Nat → Nat) (r c : Nat) (p : TS_Beta) :
    pair_kernel mem 0 r c p = p := by
  unfold pair_kernel
  simp only [Nat.zero_shiftRight, Nat.zero_mul, Nat.mul_zero, ne_eq, not_true_eq_false,
    if_false]
  rw [diag_loop_stop _ _ _ _ _ (by decide)]

theorem diagScore_le (a b : Bool) : diagScore a b ≤ diagValid a b := by
  cases a <;> cases b <;> decide

theorem diagValid_le (a b : Bool) : diagValid a b ≤ 1 := by
  cases a <;> cases b <;> decide

theorem offScore_le_valid (a1 b1 a2 b2 : Bool) :
    offScore a1 b1 a2 b2 ≤ 2 * offValid a1 b1 a2 b2 := by
  cases a1 <;> cases b1 <;> cases a2 <;> cases b2 <;> decide

theorem blockNum_le (mem : Nat → Nat) (nBlock r c : Nat) : blockNum mem nBlock r c ≤ nBlock := by
  have := sum_offScore_le (fun k =>
    if r = c then diagValid (bitA mem nBlock r k) (bitB mem nBlock r k)
    else offValid (bitA mem nBlock r k) (bitB mem nBlock r k)
      (bitA mem nBlock c k) (bitB mem nBlock c k)) nBlock 1 (fun k => by
        split
        · exact diagValid_le _ _
        · exact offValid_le _ _ _ _)
  simpa [blockNum] using this

theorem blockIbs_le (mem : Nat → Nat) (nBlock r c : Nat) :
    blockIbs mem nBlock r c ≤ 2 * blockNum mem nBlock r c := by
  unfold blockIbs blockNum
  rw [Finset.mul_sum]
  refine Finset.sum_le_sum fun k _ => ?_
  split
  · have := diagScore_le (bitA mem nBlock r k) (bitB mem nBlock r k)
    omega
  · exact offScore_le_valid _ _ _ _

theorem blockIbs_le_diag (mem : Nat → Nat) (nBlock r : Nat) :
    blockIbs mem nBlock r r ≤ blockNum mem nBlock r r := by
  unfold blockIbs blockNum
  refine Finset.sum_le_sum fun k _ => ?_
  rw [if_pos rfl, if_pos rfl]
  exact diagScore_le _ _

theorem pair_loop_apply_gen (mem : Nat → Nat) (nBlock : Nat) :
    ∀ (N : Nat) (I : IdMatTri) (p : Nat) (beta : Nat → TS_Beta) (o : Nat),
      pair_loop mem nBlock N I p beta o =
        if p ≤ o ∧ o < p + N then
          pair_kernel mem nBlock (IdMatTri.next^[o - p] I).fRow
            (IdMatTri.next^[o - p] I).fColumn (beta o)
        else beta o := by
  intro N
  induction N with
  | zero =>
    intro I p beta o
    rw [pair_loop, if_neg (by omega)]
  | succ N ih =>
    intro I p beta o
    rw [pair_loop, ih]
    by_cases h1 : p + 1 ≤ o ∧ o < p + 1 + N
    · have hop : ¬ o = p := by omega
      rw [if_pos h1, if_neg hop, if_pos (by omega),
        show o - p = (o - (p + 1)) + 1 by omega, Function.iterate_succ_apply]
    · rw [if_neg h1]
      by_cases h2 : o = p
      · subst h2
        rw [if_pos rfl, if_pos (by omega), Nat.sub_self]
        rfl
      · rw [if_neg h2, if_neg (by omega)]

theorem thread_ibs_num_gen (MatIdx : Nat → IdMatTri) (MatCnt : Nat → Int)
    (self : CIndivBeta) (i n o : Nat) :
    (thread_ibs_num MatIdx MatCnt self i n).ptrBeta o =
      if (MatIdx i).fOffset ≤ o ∧ o < (MatIdx i).fOffset + (MatCnt i).toNat then
        pair_kernel self.Geno1b self.nBlock
          (IdMatTri.next^[o - (MatIdx i).fOffset] (MatIdx i)).fRow
          (IdMatTri.next^[o - (MatIdx i).fOffset] (MatIdx i)).fColumn (self.ptrBeta o)
      else self.ptrBeta o := by
  unfold thread_ibs_num
  exact pair_loop_apply_gen _ _ _ _ _ _ _

/-- C11, amended: one invocation of `thread_ibs_num` leaves in `num` of every counter (a
32-bit value before) the old value plus a number `v ≤ nBlock` of usable loci, reduced
modulo `2 ^ 32`; `num` does not decrease when that addition does not wrap, in particular
when the old value plus `nBlock` is below `2 ^ 32`. -/
theorem thread_ibs_num_num (MatIdx : Nat → IdMatTri) (MatCnt : Nat → Int)
    (self : CIndivBeta) (i n o : Nat) (h64 : self.nBlock % 64 = 0)
    (hlt : (self.ptrBeta o).num < 2 ^ 32) :
    ∃ v, v ≤ self.nBlock ∧
      ((thread_ibs_num MatIdx MatCnt self i n).ptrBeta o).num =
        ((self.ptrBeta o).num + v) % 2 ^ 32 ∧
      ((self.ptrBeta o).num + v < 2 ^ 32 →
        (self.ptrBeta o).num ≤ ((thread_ibs_num MatIdx MatCnt self i n).ptrBeta o).num) ∧
      ((self.ptrBeta o).num + self.nBlock < 2 ^ 32 →
        (self.ptrBeta o).num ≤ ((thread_ibs_num MatIdx MatCnt self i n).ptrBeta o).num) := by
  rw [thread_ibs_num_gen]
  split
  · rcases Nat.eq_zero_or_pos self.nBlock with h0 | hpos
    · refine ⟨0, Nat.zero_le _, ?_, ?_, ?_⟩
      · rw [h0, pair_kernel_zero, Nat.add_zero, Nat.mod_eq_of_lt hlt]
      · intro _; rw [h0, pair_kernel_zero]
      · intro _; rw [h0, pair_kernel_zero]
    · rw [pair_kernel_acc _ _ _ _ _ h64 hpos]
      have hv := blockNum_le self.Geno1b self.nBlock
        (IdMatTri.next^[o - (MatIdx i).fOffset] (MatIdx i)).fRow
        (IdMatTri.next^[o - (MatIdx i).fOffset] (MatIdx i)).fColumn
      refine ⟨_, hv, rfl, ?_, ?_⟩
      · intro h; simp only [acc]; omega
      · intro h; simp only [acc]; omega
  · refine ⟨0, Nat.zero_le _, ?_, ?_, ?_⟩
    · rw [Nat.add_zero, Nat.mod_eq_of_lt hlt]
    · intro _; exact le_refl _
    · intro _; exact le_refl _

theorem acc_zero_inj (S V a b n : Nat) (h : (⟨a, b⟩ : TS_Beta) = acc ⟨0, 0⟩ S V)
    (h1 : S ≤ 2 * V) (h2 : V ≤ n) (hn : n < 2 ^ 31) : S = a ∧ V = b := by
  simp only [acc, TS_Beta.mk.injEq] at h
  omega

theorem small_case_block : blockIbs smallPacked 128 0 1 = 5 ∧ blockNum smallPacked 128 0 1 = 4 :=
  acc_zero_inj _ _ 5 4 128
    (small_case_counters.symm.trans
      (pair_kernel_acc smallPacked 128 0 1 ⟨0, 0⟩ (by decide) (by decide)))
    (blockIbs_le smallPacked 128 0 1) (blockNum_le smallPacked 128 0 1) (by decide)

/-- C11, as stated, fails: on the packed small case, with `num = 4294967295` in the counter
of the pair `(0, 1)`, one invocation of `thread_ibs_num` adds the 4 usable loci and leaves
`num = 3`. -/
theorem thread_ibs_num_num_wraps :
    (wrapWork.ptrBeta 1).num = 4294967295 ∧
    (thread_ibs_num (tablesOf 2 [(0, 3)]).1 (tablesOf 2 [(0, 3)]).2 wrapWork 0 1).ptrBeta 1 =
      ⟨5, 3⟩ := by
  refine ⟨rfl, ?_⟩
  rw [thread_ibs_num_apply, if_pos (by decide)]
  show pair_kernel smallPacked 128 0 1 ⟨0, 4294967295⟩ = _
  rw [pair_kernel_acc _ _ _ _ _ (by decide) (by decide), small_case_block.1, small_case_block.2]
  rfl

theorem thread_ibs_num_num_witness :
    smallWork.nBlock % 64 = 0 ∧ (smallWork.ptrBeta 1).num < 2 ^ 32 ∧
    ∃ v, v ≤ smallWork.nBlock ∧
      ((thread_ibs_num (tablesOf 2 [(0, 3)]).1 (tablesOf 2 [(0, 3)]).2 smallWork 0 1).ptrBeta
          1).num = ((smallWork.ptrBeta 1).num + v) % 2 ^ 32 ∧
      ((smallWork.ptrBeta 1).num + v < 2 ^ 32 →
        (smallWork.ptrBeta 1).num ≤
          ((thread_ibs_num (tablesOf 2 [(0, 3)]).1 (tablesOf 2 [(0, 3)]).2 smallWork 0
            1).ptrBeta 1).num) ∧
      ((smallWork.ptrBeta 1).num + smallWork.nBlock < 2 ^ 32 →
        (smallWork.ptrBeta 1).num ≤
          ((thread_ibs_num (tablesOf 2 [(0, 3)]).1 (tablesOf 2 [(0, 3)]).2 smallWork 0
            1).ptrBeta 1).num) :=
  ⟨by decide, by decide,
    thread_ibs_num_num (tablesOf 2 [(0, 3)]).1 (tablesOf 2 [(0, 3)]).2 smallWork 0 1 1
      (by decide) (by decide)⟩

/-- C12: a thread count below 1 is clamped to 1: `Run` gives the same result as with
`NumThread = 1`, and for at least one sample that result is a state of the accumulator,
not a failure. -/
theorem Run_clamps_threads (cache nSamp : Nat)
    (Array_SplitJobs : Int → Nat → (Nat → IdMatTri) × (Nat → Int))
    (reads : List (Nat × (Nat → Nat))) (Geno1b : Nat → Nat)
    (IBS : Nat → TS_Beta) (NumThread : Int) (h : NumThread < 1) :
    Run cache nSamp Array_SplitJobs reads Geno1b IBS NumThread =
      Run cache nSamp Array_SplitJobs reads Geno1b IBS 1 ∧
    (1 ≤ nSamp → ∃ Work,
      Run cache nSamp Array_SplitJobs reads Geno1b IBS NumThread = some Work ∧
      Run cache nSamp Array_SplitJobs reads Geno1b IBS 1 = some Work) := by
  have e : Run cache nSamp Array_SplitJobs reads Geno1b IBS NumThread =
      Run cache nSamp Array_SplitJobs reads Geno1b IBS 1 := by
    unfold Run
    rw [if_pos h, if_neg (by decide : ¬ (1 : Int) < 1)]
  refine ⟨e, fun hn => ?_⟩
  have hn0 : nSamp ≠ 0 := by omega
  have hs : ∃ Work, Run cache nSamp Array_SplitJobs reads Geno1b IBS 1 = some Work := by
    unfold Run
    rw [if_neg hn0]
    exact ⟨_, rfl⟩
  obtain ⟨Work, hW⟩ := hs
  exact ⟨Work, e.trans hW, hW⟩

theorem Run_clamps_threads_witness :
    (-3 : Int) < 1 ∧
    (Run 0 2 singleJob (readsOf 2 [smallLoci]) (fun _ => 0) (fun _ => ⟨0, 0⟩) (-3) =
      Run 0 2 singleJob (readsOf 2 [smallLoci]) (fun _ => 0) (fun _ => ⟨0, 0⟩) 1 ∧
    (1 ≤ 2 → ∃ Work,
      Run 0 2 singleJob (readsOf 2 [smallLoci]) (fun _ => 0) (fun _ => ⟨0, 0⟩) (-3) = some Work ∧
      Run 0 2 singleJob (readsOf 2 [smallLoci]) (fun _ => 0) (fun _ => ⟨0, 0⟩) 1 = some Work)) :=
  ⟨by decide, Run_clamps_threads 0 2 singleJob (readsOf 2 [smallLoci]) (fun _ => 0)
    (fun _ => ⟨0, 0⟩) (-3) (by decide)⟩

/-- C13: one off-diagonal word step adds to `num` the number of bit positions below 64 at
which both samples are valid (plane A set or plane B clear), and to `ibscnt` the sum over
those positions of 1 when plane A and plane B differ for at least one sample, of 2 when
they differ for neither and the two plane A bits are equal, of 0 otherwise; no bit
position is counted by both population counts. -/
theorem offdiag_step_counts (g1_1 g1_2 g2_1 g2_2 : Nat) (p : TS_Beta) :
    (offdiag_step g1_1 g1_2 g2_1 g2_2 p).num =
      (p.num + ((Finset.range 64).filter (fun k =>
        ((g1_1.testBit k || !g1_2.testBit k) && (g2_1.testBit k || !g2_2.testBit k)) =
          true)).card) % 2 ^ 32 ∧
    (offdiag_step g1_1 g1_2 g2_1 g2_2 p).ibscnt =
      (p.ibscnt + ∑ k ∈ (Finset.range 64).filter (fun k =>
        ((g1_1.testBit k || !g1_2.testBit k) && (g2_1.testBit k || !g2_2.testBit k)) = true),
          if ((g1_1.testBit k ^^ g1_2.testBit k) || (g2_1.testBit k ^^ g2_2.testBit k)) = true
          then 1 else if g1_1.testBit k = g2_1.testBit k then 2 else 0) % 2 ^ 32 ∧
    (∀ k, ¬ (((((g1_1 ^^^ g1_2) ||| (g2_1 ^^^ g2_2)) &&&
          ((g1_1 ||| not64 g1_2) &&& (g2_1 ||| not64 g2_2))).testBit k = true) ∧
        ((not64 (((g1_1 ^^^ g1_2) ||| (g2_1 ^^^ g2_2)) ||| (g1_1 ^^^ g2_1)) &&&
          ((g1_1 ||| not64 g1_2) &&& (g2_1 ||| not64 g2_2))).testBit k = true))) := by
  have hV : ∑ k ∈ Finset.range 64,
      offValid (g1_1.testBit k) (g1_2.testBit k) (g2_1.testBit k) (g2_2.testBit k) =
      ((Finset.range 64).filter (fun k =>
        ((g1_1.testBit k || !g1_2.testBit k) && (g2_1.testBit k || !g2_2.testBit k)) =
          true)).card := by
    rw [Finset.card_filter]
    refine Finset.sum_congr rfl fun k _ => ?_
    simp only [offValid, validBit]
    cases g1_1.testBit k <;> cases g1_2.testBit k <;> cases g2_1.testBit k <;>
      cases g2_2.testBit k <;> rfl
  have hS : ∑ k ∈ Finset.range 64,
      offScore (g1_1.testBit k) (g1_2.testBit k) (g2_1.testBit k) (g2_2.testBit k) =
      ∑ k ∈ (Finset.range 64).filter (fun k =>
        ((g1_1.testBit k || !g1_2.testBit k) && (g2_1.testBit k || !g2_2.testBit k)) = true),
          if ((g1_1.testBit k ^^ g1_2.testBit k) || (g2_1.testBit k ^^ g2_2.testBit k)) = true
          then 1 else if g1_1.testBit k = g2_1.testBit k then 2 else 0 := by
    rw [Finset.sum_filter]
    refine Finset.sum_congr rfl fun k _ => ?_
    simp only [offScore, validBit]
  rw [offdiag_step_eq, hV, hS]
  refine ⟨rfl, rfl, ?_⟩
  intro k
  simp only [Nat.testBit_and, Nat.testBit_or, Nat.testBit_xor, testBit_not64]
  cases g1_1.testBit k <;> cases g1_2.testBit k <;> cases g2_1.testBit k <;>
    cases g2_2.testBit k <;> simp

/-- C14: one diagonal word step adds to `num` the number of bit positions below 64 that
are not missing (plane A set or plane B clear) and to `ibscnt` the number of those whose
two plane bits are equal, the homozygous ones; a heterozygous or missing position, whose
plane bits differ, adds nothing to `ibscnt`. -/
theorem diag_step_counts (g1 g2 : Nat) (p : TS_Beta) :
    (diag_step g1 g2 p).num =
      (p.num + ((Finset.range 64).filter (fun k =>
        (g1.testBit k || !g2.testBit k) = true)).card) % 2 ^ 32 ∧
    (diag_step g1 g2 p).ibscnt =
      (p.ibscnt + ((Finset.range 64).filter (fun k =>
        (g1.testBit k || !g2.testBit k) = true ∧ g1.testBit k = g2.testBit k)).card) % 2 ^ 32 ∧
    (diag_step g1 g2 p).ibscnt =
      (p.ibscnt + ((Finset.range 64).filter (fun k =>
        g1.testBit k = g2.testBit k)).card) % 2 ^ 32 := by
  have hV : ∑ k ∈ Finset.range 64, diagValid (g1.testBit k) (g2.testBit k) =
      ((Finset.range 64).filter (fun k => (g1.testBit k || !g2.testBit k) = true)).card := by
    rw [Finset.card_filter]
    refine Finset.sum_congr rfl fun k _ => ?_
    simp only [diagValid, validBit]
    cases g1.testBit k <;> cases g2.testBit k <;> rfl
  have hS : ∑ k ∈ Finset.range 64, diagScore (g1.testBit k) (g2.testBit k) =
      ((Finset.range 64).filter (fun k =>
        (g1.testBit k || !g2.testBit k) = true ∧ g1.testBit k = g2.testBit k)).card := by
    rw [Finset.card_filter]
    refine Finset.sum_congr rfl fun k _ => ?_
    simp only [diagScore, validBit]
    cases g1.testBit k <;> cases g2.testBit k <;> rfl
  have hE : ((Finset.range 64).filter (fun k =>
        (g1.testBit k || !g2.testBit k) = true ∧ g1.testBit k = g2.testBit k)).card =
      ((Finset.range 64).filter (fun k => g1.testBit k = g2.testBit k)).card := by
    have hf : (Finset.range 64).filter (fun k =>
        (g1.testBit k || !g2.testBit k) = true ∧ g1.testBit k = g2.testBit k) =
        (Finset.range 64).filter (fun k => g1.testBit k = g2.testBit k) := by
      refine Finset.filter_congr fun k _ => ?_
      cases g1.testBit k <;> cases g2.testBit k <;> simp
    rw [hf]
  rw [diag_step_eq, hV, hS]
  exact ⟨rfl, rfl, by rw [hE]⟩

/-! ## The reads of the first pass and of the word loops -/

theorem range'_split (s a b : Nat) :
    List.range' s (a + b) = List.range' s a ++ List.range' (s + a) b := by
  have := List.range'_append s a b 1
  rw [Nat.one_mul, Nat.add_comm b a] at this
  exact this.symm

theorem pass1_inner_log_step (IBS : Nat → TS_Beta) (n i j : Nat) (st : Pass1)
    (log : List (Nat × Nat)) (hj : j < n) :
    pass1_inner_log IBS n i j st log = pass1_inner_log IBS n i (j + 1)
      { pBeta := store st.pBeta (i * n + j) (rawOff (IBS st.p)), p := st.p + 1,
        avg := st.avg + rawOff (IBS st.p) } (log ++ [(i * n + j, st.p)]) := by
  rw [pass1_inner_log, if_pos hj]; rfl

theorem pass1_inner_log_stop (IBS : Nat → TS_Beta) (n i j : Nat) (st : Pass1)
    (log : List (Nat × Nat)) (hj : ¬ j < n) : pass1_inner_log IBS n i j st log = (st, log) := by
  rw [pass1_inner_log, if_neg hj]

theorem pass1_inner_log_spec (IBS : Nat → TS_Beta) (n i : Nat) :
    ∀ (d j : Nat) (st : Pass1) (log : List (Nat × Nat)), n - j = d →
      (pass1_inner_log IBS n i j st log).1 = pass1_inner IBS n i j st ∧
      (pass1_inner_log IBS n i j st log).2.map Prod.snd =
        log.map Prod.snd ++ List.range' st.p (n - j) ∧
      ∀ x, x ∈ (pass1_inner_log IBS n i j st log).2 ↔
        x ∈ log ∨ ∃ b, j ≤ b ∧ b < n ∧ x = (i * n + b, st.p + (b - j)) := by
  intro d
  induction d with
  | zero =>
    intro j st log hd
    have hj : ¬ j < n := by omega
    rw [pass1_inner_log_stop _ _ _ _ _ _ hj, pass1_inner_stop _ _ _ _ _ hj]
    refine ⟨rfl, ?_, ?_⟩
    · rw [show n - j = 0 by omega]; simp
    · intro x
      constructor
      · intro h; exact Or.inl h
      · rintro (h | ⟨b, h1, h2, -⟩)
        · exact h
        · omega
  | succ d ih =>
    intro j st log hd
    have hj : j < n := by omega
    rw [pass1_inner_log_step _ _ _ _ _ _ hj, pass1_inner_step _ _ _ _ _ hj]
    obtain ⟨h1, h2, h3⟩ := ih (j + 1)
      { pBeta := store st.pBeta (i * n + j) (rawOff (IBS st.p)), p := st.p + 1,
        avg := st.avg + rawOff (IBS st.p) } (log ++ [(i * n + j, st.p)]) (by omega)
    refine ⟨h1, ?_, ?_⟩
    · rw [h2, List.map_append, List.append_assoc]
      congr 1
      rw [show n - j = (n - (j + 1)) + 1 by omega, List.range'_succ]
      rfl
    · intro x
      rw [h3 x, List.mem_append, List.mem_singleton]
      constructor
      · rintro ((h | h) | ⟨b, hb1, hb2, hx⟩)
        · exact Or.inl h
        · exact Or.inr ⟨j, le_refl _, hj, by rw [h, Nat.sub_self, Nat.add_zero]⟩
        · refine Or.inr ⟨b, by omega, hb2, ?_⟩
          rw [hx]
          simp only [Prod.mk.injEq, true_and]
          omega
      · rintro (h | ⟨b, hb1, hb2, hx⟩)
        · exact Or.inl (Or.inl h)
        · rcases Nat.eq_or_lt_of_le hb1 with e | e
          · subst e
            refine Or.inl (Or.inr ?_)
            rw [hx, Nat.sub_self, Nat.add_zero]
          · refine Or.inr ⟨b, e, hb2, ?_⟩
            rw [hx]
            simp only [Prod.mk.injEq, true_and]
            omega

theorem pass1_outer_log_step (IBS : Nat → TS_Beta) (n i : Nat) (st : Pass1)
    (log : List (Nat × Nat)) (hi : i < n) :
    pass1_outer_log IBS n i st log = pass1_outer_log IBS n (i + 1)
      (pass1_inner_log IBS n i (i + 1)
        { pBeta := store st.pBeta (i * n + i) (rawDiag (IBS st.p)), p := st.p + 1,
          avg := st.avg } (log ++ [(i * n + i, st.p)])).1
      (pass1_inner_log IBS n i (i + 1)
        { pBeta := store st.pBeta (i * n + i) (rawDiag (IBS st.p)), p := st.p + 1,
          avg := st.avg } (log ++ [(i * n + i, st.p)])).2 := by
  rw [pass1_outer_log, if_pos hi]; rfl

theorem pass1_outer_log_stop (IBS : Nat → TS_Beta) (n i : Nat) (st : Pass1)
    (log : List (Nat × Nat)) (hi : ¬ i < n) : pass1_outer_log IBS n i st log = (st, log) := by
  rw [pass1_outer_log, if_neg hi]

theorem pass1_outer_log_spec (IBS : Nat → TS_Beta) (n : Nat) :
    ∀ (d i : Nat) (st : Pass1) (log : List (Nat × Nat)), n - i = d → i ≤ n →
      st.p = triStart n i →
      (pass1_outer_log IBS n i st log).1 = pass1_outer IBS n i st ∧
      (pass1_outer_log IBS n i st log).2.map Prod.snd =
        log.map Prod.snd ++ List.range' (triStart n i) (triStart n n - triStart n i) ∧
      ∀ x, x ∈ (pass1_outer_log IBS n i st log).2 ↔
        x ∈ log ∨ ∃ a b, i ≤ a ∧ a ≤ b ∧ b < n ∧ x = (a * n + b, triStart n a + (b - a)) := by
  intro d
  induction d with
  | zero =>
    intro i st log hd hin hp
    have hi : ¬ i < n := by omega
    have hi' : i = n := by omega
    rw [pass1_outer_log_stop _ _ _ _ _ hi, pass1_outer_stop _ _ _ _ hi]
    refine ⟨rfl, ?_, ?_⟩
    · rw [hi', Nat.sub_self]; simp
    · intro x
      constructor
      · intro h; exact Or.inl h
      · rintro (h | ⟨a, b, h1, h2, h3, -⟩)
        · exact h
        · omega
  | succ d ih =>
    intro i st log hd hin hp
    have hi : i < n := by omega
    rw [pass1_outer_log_step _ _ _ _ _ hi, pass1_outer_step _ _ _ _ hi]
    obtain ⟨q1, q2, q3⟩ := pass1_inner_log_spec IBS n i (n - (i + 1)) (i + 1)
      { pBeta := store st.pBeta (i * n + i) (rawDiag (IBS st.p)), p := st.p + 1,
        avg := st.avg } (log ++ [(i * n + i, st.p)]) rfl
    obtain ⟨s1, -, -⟩ := pass1_inner_spec IBS n i (n - (i + 1)) (i + 1)
      { pBeta := store st.pBeta (i * n + i) (rawDiag (IBS st.p)), p := st.p + 1,
        avg := st.avg } rfl
    simp only at q2 q3 s1
    have hp1 : (pass1_inner_log IBS n i (i + 1)
        { pBeta := store st.pBeta (i * n + i) (rawDiag (IBS st.p)), p := st.p + 1,
          avg := st.avg } (log ++ [(i * n + i, st.p)])).1.p = triStart n (i + 1) := by
      rw [q1, s1, hp, triStart]; omega
    obtain ⟨h1, h2, h3⟩ := ih (i + 1) _ _ (by omega) (by omega) hp1
    have hmono : triStart n (i + 1) ≤ triStart n n := triStart_mono n _ _ (by omega)
    have hsucc : triStart n (i + 1) = triStart n i + (n - i) := rfl
    refine ⟨by rw [h1, q1], ?_, ?_⟩
    · rw [h2, q2, List.map_append, List.append_assoc, List.append_assoc]
      congr 1
      rw [show triStart n n - triStart n i = 1 + ((n - (i + 1)) + (triStart n n - triStart n (i + 1)))
        by omega, range'_split, range'_split, hp, hsucc]
      rw [show triStart n i + 1 + (n - (i + 1)) = triStart n i + (n - i) by omega]
      rfl
    · intro x
      rw [h3 x, q3 x, List.mem_append, List.mem_singleton]
      constructor
      · rintro (((h | h) | ⟨b, hb1, hb2, hx⟩) | ⟨a, b, ha, hab, hb, hx⟩)
        · exact Or.inl h
        · refine Or.inr ⟨i, i, le_refl _, le_refl _, hi, ?_⟩
          rw [h, hp, Nat.sub_self, Nat.add_zero]
        · refine Or.inr ⟨i, b, le_refl _, by omega, hb2, ?_⟩
          rw [hx, hp]
          simp only [Prod.mk.injEq, true_and]
          omega
        · exact Or.inr ⟨a, b, by omega, hab, hb, hx⟩
      · rintro (h | ⟨a, b, ha, hab, hb, hx⟩)
        · exact Or.inl (Or.inl (Or.inl h))
        · rcases Nat.eq_or_lt_of_le ha with e | e
          · subst e
            rcases Nat.eq_or_lt_of_le hab with e2 | e2
            · subst e2
              refine Or.inl (Or.inl (Or.inr ?_))
              rw [hx, hp, Nat.sub_self, Nat.add_zero]
            · refine Or.inl (Or.inr ⟨b, e2, hb, ?_⟩)
              rw [hx, hp]
              simp only [Prod.mk.injEq, true_and]
              omega
          · exact Or.inr ⟨a, b, e, hab, hb, hx⟩

/-- C15: in the first pass of the normalisation the counters are consumed in row-major
order of the upper triangle. The log of the reads lists the offsets `0, 1, ...,
N (N + 1) / 2 - 1` in this order, so every counter is read exactly once; the read for the
cell `(i, j)`, `i ≤ j < N`, is the one at offset `i * N - i * (i - 1) / 2 + (j - i)`, the
value written to the cell is the raw score of that counter, every read belongs to such a
cell, and the read position ends at `N (N + 1) / 2`. -/
theorem first_pass_reads (N : Nat) (IBS : Nat → TS_Beta) (i j : Nat) (hij : i ≤ j)
    (hj : j < N) :
    (pass1_outer_log IBS N 0 { pBeta := fun _ => none, p := 0, avg := Dbl.fin 0 } []).1 =
      pass1_outer IBS N 0 { pBeta := fun _ => none, p := 0, avg := Dbl.fin 0 } ∧
    (pass1_outer_log IBS N 0 { pBeta := fun _ => none, p := 0, avg := Dbl.fin 0 } []).2.map
      Prod.snd = List.range (N * (N + 1) / 2) ∧
    (pass1_outer IBS N 0 { pBeta := fun _ => none, p := 0, avg := Dbl.fin 0 }).p =
      N * (N + 1) / 2 ∧
    (i * N + j, i * N - i * (i - 1) / 2 + (j - i)) ∈
      (pass1_outer_log IBS N 0 { pBeta := fun _ => none, p := 0, avg := Dbl.fin 0 } []).2 ∧
    (pass1_outer IBS N 0 { pBeta := fun _ => none, p := 0, avg := Dbl.fin 0 }).pBeta
      (i * N + j) = some (if i = j then rawDiag (IBS (i * N - i * (i - 1) / 2 + (j - i)))
        else rawOff (IBS (i * N - i * (i - 1) / 2 + (j - i)))) ∧
    (∀ x ∈ (pass1_outer_log IBS N 0 { pBeta := fun _ => none, p := 0, avg := Dbl.fin 0 } []).2,
      ∃ a b, a ≤ b ∧ b < N ∧ x = (a * N + b, a * N - a * (a - 1) / 2 + (b - a))) := by
  obtain ⟨h1, h2, h3⟩ := pass1_outer_log_spec IBS N N 0
    { pBeta := fun _ => none, p := 0, avg := Dbl.fin 0 } [] rfl (Nat.zero_le _) rfl
  obtain ⟨p1, -, p3⟩ := pass1_outer_spec IBS N N 0
    { pBeta := fun _ => none, p := 0, avg := Dbl.fin 0 } rfl (Nat.zero_le _) rfl
  have hidx : ∀ a b, a ≤ b → b < N →
      triStart N a + (b - a) = a * N - a * (a - 1) / 2 + (b - a) := by
    intro a b hab hb
    rw [triStart_eq N a (by omega)]
  refine ⟨h1, ?_, ?_, ?_, ?_, ?_⟩
  · rw [h2, List.map_nil, List.nil_append, triStart_self, List.range_eq_range']
    rfl
  · rw [p1, triStart_self]
  · rw [h3]
    exact Or.inr ⟨i, j, Nat.zero_le _, hij, hj, by rw [hidx i j hij hj]⟩
  · rw [p3 i j hj, if_pos ⟨Nat.zero_le _, by omega, hij⟩, rawAt]
    congr 1
    by_cases e : i = j
    · subst e
      rw [if_pos rfl, if_pos rfl, ← hidx i i (le_refl _) hj, Nat.sub_self, Nat.add_zero]
    · rw [if_neg e, if_neg e, hidx i j hij hj]
  · intro x hx
    rcases (h3 x).mp hx with h | ⟨a, b, -, hab, hb, hxe⟩
    · exact absurd h (List.not_mem_nil _)
    · exact ⟨a, b, hab, hb, by rw [hxe, hidx a b hab hb]⟩

theorem first_pass_reads_witness :
    0 ≤ 1 ∧ 1 < 2 ∧
    ((pass1_outer_log smallIBS 2 0 { pBeta := fun _ => none, p := 0, avg := Dbl.fin 0 } []).1 =
      pass1_outer smallIBS 2 0 { pBeta := fun _ => none, p := 0, avg := Dbl.fin 0 } ∧
    (pass1_outer_log smallIBS 2 0 { pBeta := fun _ => none, p := 0, avg := Dbl.fin 0 } []).2.map
      Prod.snd = List.range (2 * (2 + 1) / 2) ∧
    (pass1_outer smallIBS 2 0 { pBeta := fun _ => none, p := 0, avg := Dbl.fin 0 }).p =
      2 * (2 + 1) / 2 ∧
    (0 * 2 + 1, 0 * 2 - 0 * (0 - 1) / 2 + (1 - 0)) ∈
      (pass1_outer_log smallIBS 2 0 { pBeta := fun _ => none, p := 0, avg := Dbl.fin 0 } []).2 ∧
    (pass1_outer smallIBS 2 0 { pBeta := fun _ => none, p := 0, avg := Dbl.fin 0 }).pBeta
      (0 * 2 + 1) = some (if 0 = 1 then rawDiag (smallIBS (0 * 2 - 0 * (0 - 1) / 2 + (1 - 0)))
        else rawOff (smallIBS (0 * 2 - 0 * (0 - 1) / 2 + (1 - 0)))) ∧
    (∀ x ∈ (pass1_outer_log smallIBS 2 0 { pBeta := fun _ => none, p := 0, avg := Dbl.fin 0 }
        []).2,
      ∃ a b, a ≤ b ∧ b < 2 ∧ x = (a * 2 + b, a * 2 - a * (a - 1) / 2 + (b - a)))) :=
  ⟨by decide, by decide, first_pass_reads 2 smallIBS 0 1 (by decide) (by decide)⟩

theorem map_range_succ {α : Type} (f : Nat → α) (w : Nat) :
    (List.range (w + 1)).map f = f 0 :: (List.range w).map (fun t => f (t + 1)) := by
  rw [List.range_succ_eq_map, List.map_cons, List.map_map]
  rfl

theorem offdiag_loop_log_eq (mem : Nat → Nat) (npack : Nat) :
    ∀ (w p1 p2 : Nat) (p : TS_Beta) (log : List (List Nat)),
      offdiag_loop_log mem npack p1 p2 ((8 * w : Nat) : Int) p log =
        (offdiag_loop mem npack p1 p2 ((8 * w : Nat) : Int) p, 0,
          log ++ (List.range w).map (fun t =>
            [p1 + 8 * t, p1 + 8 * t + npack, p2 + 8 * t, p2 + 8 * t + npack])) := by
  intro w
  induction w with
  | zero =>
    intro p1 p2 p log
    have h0 : ¬ (0 : Int) < ((8 * 0 : Nat) : Int) := by decide
    rw [offdiag_loop_log, if_neg h0, offdiag_loop_stop _ _ _ _ _ _ h0]
    simp
  | succ w ih =>
    intro p1 p2 p log
    have h0 : (0 : Int) < ((8 * (w + 1) : Nat) : Int) := by omega
    have h1 : ((8 * (w + 1) : Nat) : Int) - 8 = ((8 * w : Nat) : Int) := by omega
    rw [offdiag_loop_log, if_pos h0, offdiag_loop_step _ _ _ _ _ _ h0]
    simp only [h1]
    rw [ih, map_range_succ, List.append_assoc]
    simp only [List.singleton_append, Nat.mul_zero, Nat.add_zero]
    have hm : List.map (fun t =>
        [p1 + 8 + 8 * t, p1 + 8 + 8 * t + npack, p2 + 8 + 8 * t, p2 + 8 + 8 * t + npack])
        (List.range w) = List.map (fun t =>
        [p1 + 8 * (t + 1), p1 + 8 * (t + 1) + npack, p2 + 8 * (t + 1), p2 + 8 * (t + 1) + npack])
        (List.range w) :=
      List.map_congr_left fun t _ => by
        simp only [List.cons.injEq, and_true]
        omega
    rw [hm]

theorem diag_loop_log_eq (mem : Nat → Nat) (npack : Nat) :
    ∀ (w p1 : Nat) (p : TS_Beta) (log : List (List Nat)),
      diag_loop_log mem npack p1 ((8 * w : Nat) : Int) p log =
        (diag_loop mem npack p1 ((8 * w : Nat) : Int) p, 0,
          log ++ (List.range w).map (fun t => [p1 + 8 * t, p1 + 8 * t + npack])) := by
  intro w
  induction w with
  | zero =>
    intro p1 p log
    have h0 : ¬ (0 : Int) < ((8 * 0 : Nat) : Int) := by decide
    rw [diag_loop_log, if_neg h0, diag_loop_stop _ _ _ _ _ h0]
    simp
  | succ w ih =>
    intro p1 p log
    have h0 : (0 : Int) < ((8 * (w + 1) : Nat) : Int) := by omega
    have h1 : ((8 * (w + 1) : Nat) : Int) - 8 = ((8 * w : Nat) : Int) := by omega
    rw [diag_loop_log, if_pos h0, diag_loop_step _ _ _ _ _ h0]
    simp only [h1]
    rw [ih, map_range_succ, List.append_assoc]
    simp only [List.singleton_append, Nat.mul_zero, Nat.add_zero]
    have hm : List.map (fun t => [p1 + 8 + 8 * t, p1 + 8 + 8 * t + npack]) (List.range w) =
        List.map (fun t => [p1 + 8 * (t + 1), p1 + 8 * (t + 1) + npack]) (List.range w) :=
      List.map_congr_left fun t _ => by
        simp only [List.cons.injEq, and_true]
        omega
    rw [hm]

theorem pair_kernel_log_eq (mem : Nat → Nat) (w row column : Nat) (p : TS_Beta) :
    pair_kernel_log mem (64 * w) row column p =
      (pair_kernel mem (64 * w) row column p, 0,
        (List.range w).map (fun t =>
          if row = column then
            [row * (16 * w) + 8 * t, row * (16 * w) + 8 * t + 8 * w]
          else
            [row * (16 * w) + 8 * t, row * (16 * w) + 8 * t + 8 * w,
              column * (16 * w) + 8 * t, column * (16 * w) + 8 * t + 8 * w])) := by
  have hnp : (64 * w) >>> 3 = 8 * w := by
    rw [Nat.shiftRight_eq_div_pow]; omega
  have h2 : 8 * w * 2 = 16 * w := by omega
  unfold pair_kernel_log pair_kernel
  simp only [hnp, h2]
  by_cases hp : row * (16 * w) ≠ column * (16 * w)
  · have hrc : ¬ row = column := fun h => hp (by rw [h])
    rw [if_pos hp, if_pos hp, offdiag_loop_log_eq]
    simp only [List.nil_append, if_neg hrc]
  · rw [if_neg hp, if_neg hp, diag_loop_log_eq]
    simp only [List.nil_append]
    rcases Nat.eq_zero_or_pos w with h0 | hpos
    · subst h0; rfl
    · have hrc : row = column := by
        have := not_not.mp hp
        exact Nat.eq_of_mul_eq_mul_right (by omega) this
      simp only [if_pos hrc]

/-- C16: for a block size that is a multiple of 128 and two samples `row, column < nSamp`,
the word loop of the pair runs `nBlock / 64` times and stops with `m = 0`. Its reads are,
for `t = 0, ..., nBlock / 64 - 1`, the word at byte `8 t` of plane A and the word at byte
`8 t` of plane B of each sample, the planes of sample `s` starting at `s * (nBlock / 4)`
and `s * (nBlock / 4) + nBlock / 8`; each read lies inside its plane of `nBlock / 8` bytes
and inside the buffer of `nSamp * nBlock / 4` bytes, and the words read from a plane cover
its `nBlock` loci once. -/
theorem word_loop_reads (mem : Nat → Nat) (nBlock nSamp row column : Nat) (p : TS_Beta)
    (h128 : nBlock % 128 = 0) (hr : row < nSamp) (hc : column < nSamp) :
    (pair_kernel_log mem nBlock row column p).1 = pair_kernel mem nBlock row column p ∧
    (pair_kernel_log mem nBlock row column p).2.1 = 0 ∧
    (pair_kernel_log mem nBlock row column p).2.2.length = nBlock / 64 ∧
    (pair_kernel_log mem nBlock row column p).2.2 =
      (List.range (nBlock / 64)).map (fun t =>
        if row = column then
          [row * (nBlock / 4) + 8 * t, row * (nBlock / 4) + nBlock / 8 + 8 * t]
        else
          [row * (nBlock / 4) + 8 * t, row * (nBlock / 4) + nBlock / 8 + 8 * t,
            column * (nBlock / 4) + 8 * t, column * (nBlock / 4) + nBlock / 8 + 8 * t]) ∧
    (∀ e ∈ (pair_kernel_log mem nBlock row column p).2.2, ∀ a ∈ e,
      a + 8 ≤ nSamp * nBlock / 4) ∧
    (∀ t s, t < nBlock / 64 → s < nSamp →
      s * (nBlock / 4) + 8 * t + 8 ≤ s * (nBlock / 4) + nBlock / 8 ∧
      s * (nBlock / 4) + nBlock / 8 + 8 * t + 8 ≤ s * (nBlock / 4) + nBlock / 4 ∧
      s * (nBlock / 4) + nBlock / 4 ≤ nSamp * nBlock / 4) ∧
    64 * (nBlock / 64) = nBlock := by
  obtain ⟨w, rfl⟩ : ∃ w, nBlock = 64 * w := ⟨nBlock / 64, by omega⟩
  have hw : w % 2 = 0 := by omega
  have e64 : 64 * w / 64 = w := by omega
  have e4 : 64 * w / 4 = 16 * w := by omega
  have e8 : 64 * w / 8 = 8 * w := by omega
  have hslot : ∀ s, s < nSamp → s * (16 * w) + 16 * w ≤ nSamp * (64 * w) / 4 := by
    intro s hs
    have h1 : (s + 1) * (16 * w) ≤ nSamp * (16 * w) := Nat.mul_le_mul_right _ hs
    have h2 : nSamp * (64 * w) / 4 = nSamp * (16 * w) := by
      rw [show nSamp * (64 * w) = nSamp * (16 * w) * 4 by ring]
      exact Nat.mul_div_cancel _ (by decide)
    rw [h2]
    calc s * (16 * w) + 16 * w = (s + 1) * (16 * w) := by ring
      _ ≤ nSamp * (16 * w) := h1
  have hlog : (pair_kernel_log mem (64 * w) row column p).2.2 =
      (List.range w).map (fun t =>
        if row = column then
          [row * (16 * w) + 8 * t, row * (16 * w) + 8 * w + 8 * t]
        else
          [row * (16 * w) + 8 * t, row * (16 * w) + 8 * w + 8 * t,
            column * (16 * w) + 8 * t, column * (16 * w) + 8 * w + 8 * t]) := by
    rw [pair_kernel_log_eq]
    refine List.map_congr_left fun t _ => ?_
    split
    · simp only [List.cons.injEq, and_true, true_and]; omega
    · simp only [List.cons.injEq, and_true, true_and]; omega
  rw [e64, e4, e8]
  refine ⟨by rw [pair_kernel_log_eq], by rw [pair_kernel_log_eq], ?_, hlog, ?_, ?_, by omega⟩
  · rw [hlog, List.length_map, List.length_range]
  · intro e he a ha
    rw [hlog, List.mem_map] at he
    obtain ⟨t, ht, rfl⟩ := he
    have htw : t < w := List.mem_range.mp ht
    have hR := hslot row hr
    have hC := hslot column hc
    split at ha
    · simp only [List.mem_cons, List.mem_singleton, List.not_mem_nil, or_false] at ha
      rcases ha with rfl | rfl <;> omega
    · simp only [List.mem_cons, List.mem_singleton, List.not_mem_nil, or_false] at ha
      rcases ha with rfl | rfl | rfl | rfl <;> omega
  · intro t s ht hs
    have := hslot s hs
    refine ⟨by omega, by omega, this⟩

theorem word_loop_reads_witness :
    128 % 128 = 0 ∧ 0 < 2 ∧ 1 < 2 ∧
    ((pair_kernel_log smallPacked 128 0 1 ⟨0, 0⟩).1 = pair_kernel smallPacked 128 0 1 ⟨0, 0⟩ ∧
    (pair_kernel_log smallPacked 128 0 1 ⟨0, 0⟩).2.1 = 0 ∧
    (pair_kernel_log smallPacked 128 0 1 ⟨0, 0⟩).2.2.length = 128 / 64 ∧
    (pair_kernel_log smallPacked 128 0 1 ⟨0, 0⟩).2.2 =
      (List.range (128 / 64)).map (fun t =>
        if 0 = 1 then
          [0 * (128 / 4) + 8 * t, 0 * (128 / 4) + 128 / 8 + 8 * t]
        else
          [0 * (128 / 4) + 8 * t, 0 * (128 / 4) + 128 / 8 + 8 * t,
            1 * (128 / 4) + 8 * t, 1 * (128 / 4) + 128 / 8 + 8 * t]) ∧
    (∀ e ∈ (pair_kernel_log smallPacked 128 0 1 ⟨0, 0⟩).2.2, ∀ a ∈ e,
      a + 8 ≤ 2 * 128 / 4) ∧
    (∀ t s, t < 128 / 64 → s < 2 →
      s * (128 / 4) + 8 * t + 8 ≤ s * (128 / 4) + 128 / 8 ∧
      s * (128 / 4) + 128 / 8 + 8 * t + 8 ≤ s * (128 / 4) + 128 / 4 ∧
      s * (128 / 4) + 128 / 4 ≤ 2 * 128 / 4) ∧
    64 * (128 / 64) = 128) :=
  ⟨by decide, by decide, by decide,
    word_loop_reads smallPacked 128 2 0 1 ⟨0, 0⟩ (by decide) (by decide) (by decide)⟩

/-! ## Counters without wrap and the bound on the matrix -/

theorem packedBlocks_length (nSamp nBlock : Nat) :
    ∀ (reads : List (Nat × (Nat → Nat))) (mem : Nat → Nat),
      (packedBlocks nSamp nBlock reads mem).length = reads.length := by
  intro reads
  induction reads with
  | nil => intro mem; rfl
  | cons r rest ih =>
    intro mem
    obtain ⟨Count, Geno⟩ := r
    rw [packedBlocks, List.length_cons, List.length_cons, ih]

theorem hits_range_ge (rs : List (Nat × Nat)) (m o : Nat) (hm : rs.length ≤ m) :
    hits rs (List.range m) o = coverCount rs o := by
  obtain ⟨e, rfl⟩ : ∃ e, m = rs.length + e := ⟨m - rs.length, by omega⟩
  rw [← hits_range rs o]
  unfold hits
  rw [List.range_eq_range', List.range_eq_range', range'_split, List.filter_append,
    List.length_append]
  have : (List.range' (0 + rs.length) e).filter (fun i => covers (rs.getD i (0, 0)) o) = [] := by
    rw [List.filter_eq_nil_iff]
    intro i hi
    rw [List.mem_range'_1] at hi
    rw [List.getD_eq_default _ _ (by omega)]
    simp [covers]
  rw [this, List.length_nil, Nat.add_zero]

theorem ofOffset_triStart (n : Nat) (a b : Nat) (hab : a ≤ b) (hb : b < n) :
    (IdMatTri.ofOffset n (triStart n a + (b - a))).fRow = a ∧
    (IdMatTri.ofOffset n (triStart n a + (b - a))).fColumn = b := by
  have hlt : triStart n a + (b - a) < triStart n n := by
    have h1 : triStart n (a + 1) ≤ triStart n n := triStart_mono n _ _ (by omega)
    rw [triStart] at h1
    omega
  obtain ⟨h1, h2, h3⟩ := ofOffset_inv n _ hlt
  generalize (IdMatTri.ofOffset n (triStart n a + (b - a))).fRow = r at h1 h2 h3
  generalize (IdMatTri.ofOffset n (triStart n a + (b - a))).fColumn = c at h1 h2 h3
  have hra : r = a := by
    rcases Nat.lt_trichotomy r a with h | h | h
    · have := triStart_mono n (r + 1) a (by omega)
      rw [triStart] at this
      omega
    · exact h
    · have := triStart_mono n (a + 1) r (by omega)
      rw [triStart] at this
      omega
  subst hra
  exact ⟨rfl, by omega⟩

theorem ofOffset_triIndex (n : Nat) (a b : Nat) (hab : a ≤ b) (hb : b < n) :
    (IdMatTri.ofOffset n (triIndex n a b)).fRow = a ∧
    (IdMatTri.ofOffset n (triIndex n a b)).fColumn = b := by
  rw [← triStart_add n a b (by omega)]
  exact ofOffset_triStart n a b hab hb

theorem foldl_acc (f g : (Nat → Nat) → Nat) (y : TS_Beta) :
    ∀ (mems : List (Nat → Nat)) (a b : Nat),
      mems.foldl (fun c mem => acc c (f mem) (g mem)) (acc y a b) =
        acc y (a + (mems.map f).sum) (b + (mems.map g).sum) := by
  intro mems
  induction mems with
  | nil => intro a b; simp
  | cons mem rest ih =>
    intro a b
    rw [List.foldl_cons, acc_acc, ih, List.map_cons, List.map_cons, List.sum_cons, List.sum_cons]
    congr 1 <;> omega

theorem Run_loop_fold (nSamp : Nat) (rs : List (Nat × Nat)) (NT nBlock o : Nat)
    (h1 : hits rs (List.range NT) o = 1) :
    ∀ (reads : List (Nat × (Nat → Nat))) (self : CIndivBeta), self.nBlock = nBlock →
      (Run_loop (tablesOf nSamp rs).1 (tablesOf nSamp rs).2 nSamp (nBlock / 8) NT reads
        self).ptrBeta o =
      (packedBlocks nSamp nBlock reads self.Geno1b).foldl
        (fun c mem => kernelAt mem nBlock nSamp o c) (self.ptrBeta o) := by
  intro reads
  induction reads with
  | nil => intro self _; rfl
  | cons r rest ih =>
    intro self hnb
    obtain ⟨Count, Geno⟩ := r
    have hB := BatchWork_apply nSamp rs
      ⟨self.nBlock, pack_loop Geno Count nSamp self.nBlock (nBlock / 8) nSamp 0 0 self.Geno1b,
        self.ptrBeta⟩ NT o
    have hN := BatchWork_nBlock (tablesOf nSamp rs).1 (tablesOf nSamp rs).2
      ⟨self.nBlock, pack_loop Geno Count nSamp self.nBlock (nBlock / 8) nSamp 0 0 self.Geno1b,
        self.ptrBeta⟩ NT
    simp only at hB hN
    rw [h1, Function.iterate_one] at hB
    rw [Run_loop, ih _ (hN.1.trans hnb), packedBlocks, List.foldl_cons, hB, hN.2, hnb]

theorem list_sum_map_le {α : Type} (f g : α → Nat) (c : Nat) (h : ∀ x, f x ≤ c * g x) :
    ∀ l : List α, (l.map f).sum ≤ c * (l.map g).sum := by
  intro l
  induction l with
  | nil => simp
  | cons x l ih =>
    rw [List.map_cons, List.map_cons, List.sum_cons, List.sum_cons, Nat.mul_add]
    exact Nat.add_le_add (h x) ih

theorem totalNum_le (nSamp nBlock : Nat) (reads : List (Nat × (Nat → Nat))) (Geno1b : Nat → Nat)
    (i j : Nat) : totalNum nSamp nBlock reads Geno1b i j ≤ reads.length * nBlock := by
  have h := list_sum_map_le (fun mem => blockNum mem nBlock i j) (fun _ => 1) nBlock
    (fun mem => by simpa using blockNum_le mem nBlock i j)
    (packedBlocks nSamp nBlock reads Geno1b)
  have hlen : ((packedBlocks nSamp nBlock reads Geno1b).map (fun _ => 1)).sum = reads.length := by
    rw [List.map_const', List.sum_replicate, packedBlocks_length]
    simp
  rw [hlen] at h
  unfold totalNum
  rw [Nat.mul_comm]
  exact h

theorem totalIbs_le (nSamp nBlock : Nat) (reads : List (Nat × (Nat → Nat))) (Geno1b : Nat → Nat)
    (i j : Nat) :
    totalIbs nSamp nBlock reads Geno1b i j ≤ 2 * totalNum nSamp nBlock reads Geno1b i j :=
  list_sum_map_le _ _ 2 (fun mem => blockIbs_le mem nBlock i j) _

theorem totalIbs_le_diag (nSamp nBlock : Nat) (reads : List (Nat × (Nat → Nat)))
    (Geno1b : Nat → Nat) (i : Nat) :
    totalIbs nSamp nBlock reads Geno1b i i ≤ totalNum nSamp nBlock reads Geno1b i i := by
  have := list_sum_map_le (fun mem => blockIbs mem nBlock i i)
    (fun mem => blockNum mem nBlock i i) 1
    (fun mem => by simpa using blockIbs_le_diag mem nBlock i)
    (packedBlocks nSamp nBlock reads Geno1b)
  simpa [totalIbs, totalNum] using this

theorem totals_lt_of_size (nSamp nBlock : Nat) (reads : List (Nat × (Nat → Nat)))
    (Geno1b : Nat → Nat) (i j : Nat) (h : reads.length * nBlock < 2 ^ 31) :
    totalIbs nSamp nBlock reads Geno1b i j < 2 ^ 32 ∧
      totalNum nSamp nBlock reads Geno1b i j < 2 ^ 32 := by
  have h1 := totalNum_le nSamp nBlock reads Geno1b i j
  have h2 := totalIbs_le nSamp nBlock reads Geno1b i j
  constructor <;> omega

theorem Run_counter_total (cache nSamp : Nat) (rs : List (Nat × Nat))
    (reads : List (Nat × (Nat → Nat))) (Geno1b : Nat → Nat) (IBS : Nat → TS_Beta)
    (hn : 1 ≤ nSamp) (hpart : IsPartition (nSamp * (nSamp + 1) / 2) rs) (i j : Nat)
    (hij : i ≤ j) (hj : j < nSamp) :
    ∃ W, Run cache nSamp (fun _ _ => tablesOf nSamp rs) reads Geno1b IBS (rs.length : Int) =
        some W ∧
      W.ptrBeta (triIndex nSamp i j) =
        acc ⟨0, 0⟩ (totalIbs nSamp (Run_nBlock cache nSamp) reads Geno1b i j)
          (totalNum nSamp (Run_nBlock cache nSamp) reads Geno1b i j) := by
  have hn0 : nSamp ≠ 0 := by omega
  obtain ⟨-, e2, e3, -⟩ := Run_nBlock_eq cache nSamp
  have hT := triIndex_lt nSamp i j hij hj
  obtain ⟨hr, hc⟩ := ofOffset_triIndex nSamp i j hij hj
  unfold Run
  rw [if_neg hn0]
  refine ⟨_, rfl, ?_⟩
  simp only
  have hNT : rs.length ≤ (if (rs.length : Int) < 1 then (1 : Int) else (rs.length : Int)).toNat := by
    split <;> omega
  have hhits : hits rs (List.range
      (if (rs.length : Int) < 1 then (1 : Int) else (rs.length : Int)).toNat)
      (triIndex nSamp i j) = 1 := by
    rw [hits_range_ge rs _ _ hNT, hpart, if_pos hT]
  rw [Run_loop_fold nSamp rs _ (Run_nBlock cache nSamp) _ hhits reads _ rfl]
  simp only [if_pos hT]
  have hk : (fun (c : TS_Beta) (mem : Nat → Nat) =>
      kernelAt mem (Run_nBlock cache nSamp) nSamp (triIndex nSamp i j) c) =
      fun c mem => acc c (blockIbs mem (Run_nBlock cache nSamp) i j)
        (blockNum mem (Run_nBlock cache nSamp) i j) := by
    funext c mem
    unfold kernelAt
    rw [hr, hc, pair_kernel_acc _ _ _ _ _ (by omega) (by omega)]
  rw [hk]
  have h0 : ({ ibscnt := 0, num := 0 } : TS_Beta) = acc ⟨0, 0⟩ 0 0 := by decide
  rw [h0, foldl_acc, Nat.zero_add, Nat.zero_add]
  rfl

theorem acc_zero_exact (S V : Nat) (hS : S < 2 ^ 32) (hV : V < 2 ^ 32) :
    acc ⟨0, 0⟩ S V = ⟨S, V⟩ := by
  simp only [acc, Nat.zero_add, Nat.mod_eq_of_lt hS, Nat.mod_eq_of_lt hV]

theorem rawOffQ_bounds (c : TS_Beta) (h : c.ibscnt ≤ 2 * c.num) (hpos : 0 < c.num) :
    0 ≤ rawOffQ c ∧ rawOffQ c ≤ 1 ∧ (rawOffQ c = 1 ↔ c.ibscnt = 2 * c.num) := by
  have hq : (0 : ℚ) < (c.num : ℚ) := by exact_mod_cast hpos
  have hle : (c.ibscnt : ℚ) ≤ 2 * (c.num : ℚ) := by exact_mod_cast h
  unfold rawOffQ
  refine ⟨by positivity, ?_, ?_⟩
  · rw [div_le_one hq]; linarith
  · rw [div_eq_one_iff_eq (ne_of_gt hq)]
    constructor
    · intro e
      have : (c.ibscnt : ℚ) = 2 * (c.num : ℚ) := by linarith
      exact_mod_cast this
    · intro e
      rw [e]; push_cast; ring

theorem rawDiagQ_bounds (c : TS_Beta) (h : c.ibscnt ≤ c.num) (hpos : 0 < c.num) :
    0 ≤ rawDiagQ c ∧ rawDiagQ c ≤ 1 ∧ (rawDiagQ c = 1 ↔ c.ibscnt = c.num) := by
  have hq : (0 : ℚ) < (c.num : ℚ) := by exact_mod_cast hpos
  have hle : (c.ibscnt : ℚ) ≤ (c.num : ℚ) := by exact_mod_cast h
  unfold rawDiagQ
  refine ⟨by positivity, ?_, ?_⟩
  · rw [div_le_one hq]; exact hle
  · rw [div_eq_one_iff_eq (ne_of_gt hq)]
    exact Nat.cast_inj

theorem Run_counter_no_wrap (cache nSamp : Nat) (rs : List (Nat × Nat))
    (reads : List (Nat × (Nat → Nat))) (Geno1b : Nat → Nat) (IBS : Nat → TS_Beta)
    (hn : 1 ≤ nSamp) (hpart : IsPartition (nSamp * (nSamp + 1) / 2) rs) (i j : Nat)
    (hij : i ≤ j) (hj : j < nSamp)
    (hS : totalIbs nSamp (Run_nBlock cache nSamp) reads Geno1b i j < 2 ^ 32)
    (hV : totalNum nSamp (Run_nBlock cache nSamp) reads Geno1b i j < 2 ^ 32) :
    ∃ W, Run cache nSamp (fun _ _ => tablesOf nSamp rs) reads Geno1b IBS (rs.length : Int) =
        some W ∧
      W.ptrBeta (triIndex nSamp i j) =
        ⟨totalIbs nSamp (Run_nBlock cache nSamp) reads Geno1b i j,
          totalNum nSamp (Run_nBlock cache nSamp) reads Geno1b i j⟩ := by
  obtain ⟨W, hW, hc⟩ := Run_counter_total cache nSamp rs reads Geno1b IBS hn hpart i j hij hj
  exact ⟨W, hW, by rw [hc, acc_zero_exact _ _ hS hV]⟩

/-- C17: `Run` starts from zeroed counters; as long as the unbounded counts of a pair stay
below `2 ^ 32`, which is when no 32-bit addition wraps, the counter of the pair satisfies
`ibscnt ≤ 2 * num` after any number of blocks, and `ibscnt ≤ num` for a diagonal pair, so
that for `num > 0` the off-diagonal raw score `0.5 * ibscnt / num` and the diagonal raw
score `ibscnt / num` lie between 0 and 1. -/
theorem Run_counters_bounded (cache nSamp : Nat) (rs : List (Nat × Nat))
    (reads : List (Nat × (Nat → Nat))) (Geno1b : Nat → Nat) (IBS : Nat → TS_Beta)
    (hn : 1 ≤ nSamp) (hpart : IsPartition (nSamp * (nSamp + 1) / 2) rs) (i j : Nat)
    (hij : i ≤ j) (hj : j < nSamp)
    (hS : totalIbs nSamp (Run_nBlock cache nSamp) reads Geno1b i j < 2 ^ 32)
    (hV : totalNum nSamp (Run_nBlock cache nSamp) reads Geno1b i j < 2 ^ 32) :
    ∃ W, Run cache nSamp (fun _ _ => tablesOf nSamp rs) reads Geno1b IBS (rs.length : Int) =
        some W ∧
      (W.ptrBeta (triIndex nSamp i j)).ibscnt ≤ 2 * (W.ptrBeta (triIndex nSamp i j)).num ∧
      (i = j → (W.ptrBeta (triIndex nSamp i j)).ibscnt ≤ (W.ptrBeta (triIndex nSamp i j)).num) ∧
      (0 < (W.ptrBeta (triIndex nSamp i j)).num →
        (0 ≤ rawOffQ (W.ptrBeta (triIndex nSamp i j)) ∧
          rawOffQ (W.ptrBeta (triIndex nSamp i j)) ≤ 1) ∧
        (i = j → 0 ≤ rawDiagQ (W.ptrBeta (triIndex nSamp i j)) ∧
          rawDiagQ (W.ptrBeta (triIndex nSamp i j)) ≤ 1)) := by
  obtain ⟨W, hW, hc⟩ := Run_counter_no_wrap cache nSamp rs reads Geno1b IBS hn hpart i j hij hj
    hS hV
  have h2 := totalIbs_le nSamp (Run_nBlock cache nSamp) reads Geno1b i j
  have hd : i = j → (W.ptrBeta (triIndex nSamp i j)).ibscnt ≤
      (W.ptrBeta (triIndex nSamp i j)).num := by
    intro e
    subst e
    rw [hc]
    exact totalIbs_le_diag nSamp (Run_nBlock cache nSamp) reads Geno1b i
  have ho : (W.ptrBeta (triIndex nSamp i j)).ibscnt ≤
      2 * (W.ptrBeta (triIndex nSamp i j)).num := by
    rw [hc]; exact h2
  refine ⟨W, hW, ho, hd, fun hpos => ⟨?_, fun e => ?_⟩⟩
  · obtain ⟨b1, b2, -⟩ := rawOffQ_bounds _ ho hpos
    exact ⟨b1, b2⟩
  · obtain ⟨b1, b2, -⟩ := rawDiagQ_bounds _ (hd e) hpos
    exact ⟨b1, b2⟩

theorem partition_small : IsPartition (2 * (2 + 1) / 2) [(0, 3)] := fun o => coverCount_whole 3 o

theorem Run_counters_bounded_witness :
    1 ≤ 2 ∧ IsPartition (2 * (2 + 1) / 2) [(0, 3)] ∧ 0 ≤ 1 ∧ 1 < 2 ∧
    totalIbs 2 (Run_nBlock 0 2) (readsOf 2 [smallLoci]) (fun _ => 0) 0 1 < 2 ^ 32 ∧
    totalNum 2 (Run_nBlock 0 2) (readsOf 2 [smallLoci]) (fun _ => 0) 0 1 < 2 ^ 32 ∧
    ∃ W, Run 0 2 (fun _ _ => tablesOf 2 [(0, 3)]) (readsOf 2 [smallLoci]) (fun _ => 0)
        (fun _ => ⟨0, 0⟩) ([((0 : Nat), (3 : Nat))].length : Int) = some W ∧
      (W.ptrBeta (triIndex 2 0 1)).ibscnt ≤ 2 * (W.ptrBeta (triIndex 2 0 1)).num ∧
      (0 = 1 → (W.ptrBeta (triIndex 2 0 1)).ibscnt ≤ (W.ptrBeta (triIndex 2 0 1)).num) ∧
      (0 < (W.ptrBeta (triIndex 2 0 1)).num →
        (0 ≤ rawOffQ (W.ptrBeta (triIndex 2 0 1)) ∧
          rawOffQ (W.ptrBeta (triIndex 2 0 1)) ≤ 1) ∧
        (0 = 1 → 0 ≤ rawDiagQ (W.ptrBeta (triIndex 2 0 1)) ∧
          rawDiagQ (W.ptrBeta (triIndex 2 0 1)) ≤ 1)) :=
  have h := totals_lt_of_size 2 (Run_nBlock 0 2) (readsOf 2 [smallLoci]) (fun _ => 0) 0 1
    (by decide)
  ⟨by decide, partition_small, by decide, by decide, h.1, h.2,
    Run_counters_bounded 0 2 [(0, 3)] (readsOf 2 [smallLoci]) (fun _ => 0) (fun _ => ⟨0, 0⟩)
      (by decide) partition_small 0 1 (by decide) (by decide) h.1 h.2⟩

/-- C18: one invocation of `thread_ibs_num` adds to a counter at most `nBlock` in `num`
and at most `2 * nBlock` in `ibscnt`. When the number of blocks times `nBlock` is below
`2 ^ 31`, the unbounded counts of a pair over the run are below `2 ^ 32`, so that no
addition wraps, and `Run`, starting from zero, leaves these counts in the counter. -/
theorem Run_counters_exact (cache nSamp : Nat) (rs : List (Nat × Nat))
    (reads : List (Nat × (Nat → Nat))) (Geno1b : Nat → Nat) (IBS : Nat → TS_Beta)
    (hn : 1 ≤ nSamp) (hpart : IsPartition (nSamp * (nSamp + 1) / 2) rs) (i j : Nat)
    (hij : i ≤ j) (hj : j < nSamp)
    (hsize : reads.length * Run_nBlock cache nSamp < 2 ^ 31) :
    (∀ (MatIdx : Nat → IdMatTri) (MatCnt : Nat → Int) (self : CIndivBeta) (t n o : Nat),
      self.nBlock % 64 = 0 → (self.ptrBeta o).ibscnt < 2 ^ 32 → (self.ptrBeta o).num < 2 ^ 32 →
      ∃ s v, v ≤ self.nBlock ∧ s ≤ 2 * self.nBlock ∧
        (thread_ibs_num MatIdx MatCnt self t n).ptrBeta o = acc (self.ptrBeta o) s v) ∧
    totalIbs nSamp (Run_nBlock cache nSamp) reads Geno1b i j < 2 ^ 32 ∧
    totalNum nSamp (Run_nBlock cache nSamp) reads Geno1b i j < 2 ^ 32 ∧
    ∃ W, Run cache nSamp (fun _ _ => tablesOf nSamp rs) reads Geno1b IBS (rs.length : Int) =
        some W ∧
      W.ptrBeta (triIndex nSamp i j) =
        ⟨totalIbs nSamp (Run_nBlock cache nSamp) reads Geno1b i j,
          totalNum nSamp (Run_nBlock cache nSamp) reads Geno1b i j⟩ := by
  obtain ⟨hS, hV⟩ := totals_lt_of_size nSamp (Run_nBlock cache nSamp) reads Geno1b i j hsize
  refine ⟨?_, hS, hV,
    Run_counter_no_wrap cache nSamp rs reads Geno1b IBS hn hpart i j hij hj hS hV⟩
  intro MatIdx MatCnt self t n o h64 hi hv
  have hsame : acc (self.ptrBeta o) 0 0 = self.ptrBeta o := by
    simp only [acc, Nat.add_zero, Nat.mod_eq_of_lt hi, Nat.mod_eq_of_lt hv]
  rw [thread_ibs_num_gen]
  split
  · rcases Nat.eq_zero_or_pos self.nBlock with h0 | hpos
    · exact ⟨0, 0, Nat.zero_le _, Nat.zero_le _, by rw [h0, pair_kernel_zero, hsame]⟩
    · rw [pair_kernel_acc _ _ _ _ _ h64 hpos]
      have hv := blockNum_le self.Geno1b self.nBlock
        (IdMatTri.next^[o - (MatIdx t).fOffset] (MatIdx t)).fRow
        (IdMatTri.next^[o - (MatIdx t).fOffset] (MatIdx t)).fColumn
      have hs := blockIbs_le self.Geno1b self.nBlock
        (IdMatTri.next^[o - (MatIdx t).fOffset] (MatIdx t)).fRow
        (IdMatTri.next^[o - (MatIdx t).fOffset] (MatIdx t)).fColumn
      exact ⟨_, _, hv, by omega, rfl⟩
  · exact ⟨0, 0, Nat.zero_le _, Nat.zero_le _, hsame.symm⟩

theorem Run_counters_exact_witness :
    1 ≤ 2 ∧ IsPartition (2 * (2 + 1) / 2) [(0, 3)] ∧ 0 ≤ 1 ∧ 1 < 2 ∧
    (readsOf 2 [smallLoci]).length * Run_nBlock 0 2 < 2 ^ 31 ∧
    ((∀ (MatIdx : Nat → IdMatTri) (MatCnt : Nat → Int) (self : CIndivBeta) (t n o : Nat),
      self.nBlock % 64 = 0 → (self.ptrBeta o).ibscnt < 2 ^ 32 → (self.ptrBeta o).num < 2 ^ 32 →
      ∃ s v, v ≤ self.nBlock ∧ s ≤ 2 * self.nBlock ∧
        (thread_ibs_num MatIdx MatCnt self t n).ptrBeta o = acc (self.ptrBeta o) s v) ∧
    totalIbs 2 (Run_nBlock 0 2) (readsOf 2 [smallLoci]) (fun _ => 0) 0 1 < 2 ^ 32 ∧
    totalNum 2 (Run_nBlock 0 2) (readsOf 2 [smallLoci]) (fun _ => 0) 0 1 < 2 ^ 32 ∧
    ∃ W, Run 0 2 (fun _ _ => tablesOf 2 [(0, 3)]) (readsOf 2 [smallLoci]) (fun _ => 0)
        (fun _ => ⟨0, 0⟩) ([((0 : Nat), (3 : Nat))].length : Int) = some W ∧
      W.ptrBeta (triIndex 2 0 1) =
        ⟨totalIbs 2 (Run_nBlock 0 2) (readsOf 2 [smallLoci]) (fun _ => 0) 0 1,
          totalNum 2 (Run_nBlock 0 2) (readsOf 2 [smallLoci]) (fun _ => 0) 0 1⟩) :=
  ⟨by decide, partition_small, by decide, by decide, by decide,
    Run_counters_exact 0 2 [(0, 3)] (readsOf 2 [smallLoci]) (fun _ => 0) (fun _ => ⟨0, 0⟩)
      (by decide) partition_small 0 1 (by decide) (by decide) (by decide)⟩

theorem Reachable_bounds (N : Nat) (IBS : Nat → TS_Beta) (hN : 1 ≤ N) (h : Reachable N IBS)
    (i j : Nat) (hij : i ≤ j) (hj : j < N) :
    (IBS (triIndex N i j)).ibscnt ≤ 2 * (IBS (triIndex N i j)).num ∧
    (i = j → (IBS (triIndex N i j)).ibscnt ≤ (IBS (triIndex N i j)).num) := by
  obtain ⟨cache, rs, reads, Geno1b, IBS0, W, hpart, hW, hall⟩ := h
  obtain ⟨hS, hV, hI⟩ := hall i j hij hj
  obtain ⟨W', hW', hc⟩ := Run_counter_no_wrap cache N rs reads Geno1b IBS0 hN hpart i j hij hj
    hS hV
  have hWW : W' = W := Option.some.inj (hW'.symm.trans hW)
  subst hWW
  rw [hI, hc]
  refine ⟨totalIbs_le _ _ _ _ _ _, fun e => ?_⟩
  subst e
  exact totalIbs_le_diag _ _ _ _ _

theorem centred_le_one (raw avg : ℚ) (ha : avg < 1) (hr : raw ≤ 1) :
    (raw - avg) * (1 / (1 - avg)) ≤ 1 ∧ ((raw - avg) * (1 / (1 - avg)) = 1 ↔ raw = 1) := by
  have hpos : 0 < 1 - avg := by linarith
  have e : (raw - avg) * (1 / (1 - avg)) = (raw - avg) / (1 - avg) := by ring
  rw [e, div_le_one hpos, div_eq_one_iff_eq (ne_of_gt hpos)]
  constructor
  · linarith
  · constructor <;> intro h <;> linarith

/-- C19: for `N ≥ 2`, a counter array reachable from zero without wrap, every `num`
positive and a mean `avg` below 1, every cell of the matrix holds a rational that is at
most 1; a diagonal cell holds 1 exactly when `ibscnt = num`, the two cells of an
off-diagonal pair hold 1 exactly when `ibscnt = 2 * num`, that is when the raw score
is 1. -/
theorem normalize_at_most_one (N : Nat) (IBS : Nat → TS_Beta) (hN : 2 ≤ N)
    (hreach : Reachable N IBS)
    (hnum : ∀ i j, i ≤ j → j < N → 0 < (IBS (triIndex N i j)).num)
    (havg : avgQ N IBS < 1) :
    (∀ i j, i < N → j < N → ∃ q, normalize N IBS (i * N + j) = some (Dbl.fin q) ∧ q ≤ 1) ∧
    (∀ i, i < N → (normalize N IBS (i * N + i) = some (Dbl.fin 1) ↔
      (IBS (triIndex N i i)).ibscnt = (IBS (triIndex N i i)).num) ∧
      (rawDiagQ (IBS (triIndex N i i)) = 1 ↔
        (IBS (triIndex N i i)).ibscnt = (IBS (triIndex N i i)).num)) ∧
    (∀ i j, i < j → j < N →
      (normalize N IBS (i * N + j) = some (Dbl.fin 1) ↔
        (IBS (triIndex N i j)).ibscnt = 2 * (IBS (triIndex N i j)).num) ∧
      (normalize N IBS (j * N + i) = some (Dbl.fin 1) ↔
        (IBS (triIndex N i j)).ibscnt = 2 * (IBS (triIndex N i j)).num) ∧
      (rawOffQ (IBS (triIndex N i j)) = 1 ↔
        (IBS (triIndex N i j)).ibscnt = 2 * (IBS (triIndex N i j)).num)) := by
  have hne : avgQ N IBS ≠ 1 := ne_of_lt havg
  have hd : ∀ i, i < N → normalize N IBS (i * N + i) =
      some (Dbl.fin ((rawDiagQ (IBS (triIndex N i i)) - avgQ N IBS) *
        (1 / (1 - avgQ N IBS)))) := fun i hi => by
    rw [normalize_diag_val N IBS hN hnum i hi, mul_bt_fin _ _ hne]
  have ho : ∀ i j, i < j → j < N → normalize N IBS (i * N + j) =
      some (Dbl.fin ((rawOffQ (IBS (triIndex N i j)) - avgQ N IBS) *
        (1 / (1 - avgQ N IBS)))) := fun i j hij hj => by
    rw [normalize_off_val N IBS hN hnum i j hij hj, mul_bt_fin _ _ hne]
  have bd : ∀ i, i < N → rawDiagQ (IBS (triIndex N i i)) ≤ 1 ∧
      (rawDiagQ (IBS (triIndex N i i)) = 1 ↔
        (IBS (triIndex N i i)).ibscnt = (IBS (triIndex N i i)).num) := fun i hi => by
    have hb := (Reachable_bounds N IBS (by omega) hreach i i (le_refl _) hi).2 rfl
    obtain ⟨-, b2, b3⟩ := rawDiagQ_bounds _ hb (hnum i i (le_refl _) hi)
    exact ⟨b2, b3⟩
  have bo : ∀ i j, i < j → j < N → rawOffQ (IBS (triIndex N i j)) ≤ 1 ∧
      (rawOffQ (IBS (triIndex N i j)) = 1 ↔
        (IBS (triIndex N i j)).ibscnt = 2 * (IBS (triIndex N i j)).num) := fun i j hij hj => by
    have hb := (Reachable_bounds N IBS (by omega) hreach i j (by omega) hj).1
    obtain ⟨-, b2, b3⟩ := rawOffQ_bounds _ hb (hnum i j (by omega) hj)
    exact ⟨b2, b3⟩
  have eqd : ∀ i, i < N → (normalize N IBS (i * N + i) = some (Dbl.fin 1) ↔
      (IBS (triIndex N i i)).ibscnt = (IBS (triIndex N i i)).num) := fun i hi => by
    rw [hd i hi, Option.some.injEq, Dbl.fin.injEq,
      (centred_le_one _ _ havg (bd i hi).1).2, (bd i hi).2]
  have eqo : ∀ i j, i < j → j < N → (normalize N IBS (i * N + j) = some (Dbl.fin 1) ↔
      (IBS (triIndex N i j)).ibscnt = 2 * (IBS (triIndex N i j)).num) := fun i j hij hj => by
    rw [ho i j hij hj, Option.some.injEq, Dbl.fin.injEq,
      (centred_le_one _ _ havg (bo i j hij hj).1).2, (bo i j hij hj).2]
  refine ⟨?_, fun i hi => ⟨eqd i hi, (bd i hi).2⟩, fun i j hij hj =>
    ⟨eqo i j hij hj, ?_, (bo i j hij hj).2⟩⟩
  · intro i j hi hj
    rcases Nat.lt_trichotomy i j with h | h | h
    · exact ⟨_, ho i j h hj, (centred_le_one _ _ havg (bo i j h hj).1).1⟩
    · subst h
      exact ⟨_, hd i hi, (centred_le_one _ _ havg (bd i hi).1).1⟩
    · rw [normalize_cell_comm N IBS i j hi hj]
      exact ⟨_, ho j i h hi, (centred_le_one _ _ havg (bo j i h hi).1).1⟩
  · rw [normalize_cell_comm N IBS j i hj (by omega)]
    exact eqo i j hij hj

theorem small_run :
    ∃ W, Run 0 2 (fun _ _ => tablesOf 2 [(0, 3)]) (readsOf 2 [smallLoci]) (fun _ => 0)
        (fun _ => ⟨0, 0⟩) ([((0 : Nat), (3 : Nat))].length : Int) = some W ∧
      W.ptrBeta 0 = ⟨3, 4⟩ ∧ W.ptrBeta 1 = ⟨5, 4⟩ ∧ W.ptrBeta 2 = ⟨3, 4⟩ := by
  have hlen : ∀ ch ∈ [smallLoci], ch.length ≤ Run_nBlock 0 2 := fun ch h => by
    rw [List.mem_singleton] at h; subst h; decide
  have key : ∀ o, o < 3 →
      (Run_loop (tablesOf 2 [(0, 3)]).1 (tablesOf 2 [(0, 3)]).2 2 (Run_nBlock 0 2 / 8) 1
        (readsOf 2 [smallLoci])
        ⟨Run_nBlock 0 2, fun _ => 0,
          fun o => if o < 2 * (2 + 1) / 2 then ⟨0, 0⟩ else ⟨0, 0⟩⟩).ptrBeta o =
      acc ⟨0, 0⟩
        (0 + hits [(0, 3)] (List.range 1) o * ([smallLoci].flatten.map
          (locusIbs (IdMatTri.ofOffset 2 o).fRow (IdMatTri.ofOffset 2 o).fColumn)).sum)
        (0 + hits [(0, 3)] (List.range 1) o * ([smallLoci].flatten.map
          (locusNum (IdMatTri.ofOffset 2 o).fRow (IdMatTri.ofOffset 2 o).fColumn)).sum) := by
    intro o ho
    exact Run_loop_counter 2 [(0, 3)] 1 (Run_nBlock 0 2) (by decide) (by decide) o
      (by rw [triStart_self]; exact ho) [smallLoci] hlen _ 0 0 rfl
      (by simp only [if_pos ho]; rfl)
  refine ⟨_, rfl, ?_, ?_, ?_⟩
  · exact (key 0 (by decide)).trans (by decide)
  · exact (key 1 (by decide)).trans (by decide)
  · exact (key 2 (by decide)).trans (by decide)

theorem smallIBS_reachable : Reachable 2 smallIBS := by
  obtain ⟨W, hW, h0, h1, h2⟩ := small_run
  refine ⟨0, [(0, 3)], readsOf 2 [smallLoci], fun _ => 0, fun _ => ⟨0, 0⟩, W, partition_small,
    hW, fun i j hij hj => ?_⟩
  obtain ⟨t1, t2⟩ := totals_lt_of_size 2 (Run_nBlock 0 2) (readsOf 2 [smallLoci]) (fun _ => 0)
    i j (by decide)
  refine ⟨t1, t2, ?_⟩
  have hcases : (i = 0 ∧ j = 0) ∨ (i = 0 ∧ j = 1) ∨ (i = 1 ∧ j = 1) := by omega
  rcases hcases with ⟨rfl, rfl⟩ | ⟨rfl, rfl⟩ | ⟨rfl, rfl⟩
  · exact h0.symm
  · exact h1.symm
  · exact h2.symm

theorem normalize_at_most_one_witness :
    2 ≤ 2 ∧ Reachable 2 smallIBS ∧
    (∀ i j, i ≤ j → j < 2 → 0 < (smallIBS (triIndex 2 i j)).num) ∧
    avgQ 2 smallIBS < 1 ∧
    ((∀ i j, i < 2 → j < 2 → ∃ q, normalize 2 smallIBS (i * 2 + j) = some (Dbl.fin q) ∧ q ≤ 1) ∧
    (∀ i, i < 2 → (normalize 2 smallIBS (i * 2 + i) = some (Dbl.fin 1) ↔
      (smallIBS (triIndex 2 i i)).ibscnt = (smallIBS (triIndex 2 i i)).num) ∧
      (rawDiagQ (smallIBS (triIndex 2 i i)) = 1 ↔
        (smallIBS (triIndex 2 i i)).ibscnt = (smallIBS (triIndex 2 i i)).num)) ∧
    (∀ i j, i < j → j < 2 →
      (normalize 2 smallIBS (i * 2 + j) = some (Dbl.fin 1) ↔
        (smallIBS (triIndex 2 i j)).ibscnt = 2 * (smallIBS (triIndex 2 i j)).num) ∧
      (normalize 2 smallIBS (j * 2 + i) = some (Dbl.fin 1) ↔
        (smallIBS (triIndex 2 i j)).ibscnt = 2 * (smallIBS (triIndex 2 i j)).num) ∧
      (rawOffQ (smallIBS (triIndex 2 i j)) = 1 ↔
        (smallIBS (triIndex 2 i j)).ibscnt = 2 * (smallIBS (triIndex 2 i j)).num))) :=
  have h : ∀ i j, i ≤ j → j < 2 → 0 < (smallIBS (triIndex 2 i j)).num := fun i j _ _ => by
    unfold smallIBS; split <;> decide
  have h1 : avgQ 2 smallIBS < 1 := by rw [avgQ_smallIBS]; norm_num
  ⟨by decide, smallIBS_reachable, h, h1,
    normalize_at_most_one 2 smallIBS (by decide) smallIBS_reachable h h1⟩

end IBD_BETA
